import Mathlib

/-!
# laz-perf `formats.hpp`: packers, predictor, typed fields and record pipelines

A shallow embedding of `src/laz-perf/formats.hpp` (and of the stream and driver
loops of `src/examples/dynamic.cpp`).

Conventions of the embedding.

* Memory is a map from addresses to bytes; a byte is the object representation
  `0..255` of a `char` (cells are read modulo 256, stores reduce modulo 256).
  A pointer is an address.
* Values of the integer types are mathematical integers (`Int`); every C++
  conversion is written out (`to_unsigned`, `to_signed`).
* Whether plain `char` is signed is a property of the host; it is the
  parameter `cs` (`true` on hosts with a signed `char`).
* The entropy coder (`encoder.hpp`, `decoder.hpp`, `compressor.hpp`,
  `decompressor.hpp`) is not part of the sources.  It is a parameter: the
  structures `Encoder` and `Decoder` list exactly the calls that `formats.hpp`
  makes on it.
-/

set_option autoImplicit false

namespace laszip
namespace formats

/-! ## Machine model -/

/-- Byte addressed memory: address to byte. -/
abbrev Mem := Nat → Nat

/-- Conversion of an integer to the unsigned type of `w` bits. -/
def to_unsigned (w : Nat) (x : Int) : Nat := (x % 2 ^ w).toNat

/-- Conversion of an integer to the signed (two's complement) type of `w` bits. -/
def to_signed (w : Nat) (x : Int) : Int :=
  if x % 2 ^ w < 2 ^ (w - 1) then x % 2 ^ w else x % 2 ^ w - 2 ^ w

/-- The value of a byte read through an lvalue of type `char`. -/
def char_value (cs : Bool) (b : Nat) : Int :=
  if cs then to_signed 8 (b % 256 : Nat) else (b % 256 : Nat)

/-- The expression `p[i]` for `const char *p`. -/
def char_at (cs : Bool) (mem : Mem) (p i : Nat) : Int := char_value cs (mem (p + i))

/-- The assignment `p[i] = x` for `char *p`: the stored byte is `x` modulo 256. -/
def store (mem : Mem) (p i : Nat) (x : Int) : Mem :=
  fun a => if a = p + i then to_unsigned 8 x else mem a

/-- The `n` bytes at `p`, as unsigned bytes (`(const unsigned char*)p`). -/
def readBytes (mem : Mem) (p : Nat) : Nat → List Nat
  | 0 => []
  | n + 1 => mem p % 256 :: readBytes mem (p + 1) n

/-- Copies a list of unsigned bytes to `p`, `p+1`, ... -/
def writeBytes (mem : Mem) (p : Nat) : List Nat → Mem
  | [] => mem
  | b :: bs => writeBytes (fun a => if a = p then b % 256 else mem a) (p + 1) bs

/-! ## Packers -/

/-- The integer types for which `packers` is specialised (and `field` is
instantiable: `std::is_integral`). -/
inductive IntType
  | uint32_t | uint16_t | uint8_t | int32_t | int16_t | int8_t | char
  deriving DecidableEq, Repr

namespace packers_uint32_t

/-- The function `packers<uint32_t>::unpack`. -/
def unpack (cs : Bool) (mem : Mem) (inp : Nat) : Nat :=
  let b1 := to_unsigned 32 (char_at cs mem inp 0)
  let b2 := to_unsigned 32 (char_at cs mem inp 1)
  let b3 := to_unsigned 32 (char_at cs mem inp 2)
  let b4 := to_unsigned 32 (char_at cs mem inp 3)
  ((b4 <<< 24) % 2 ^ 32) |||
    (((b3 &&& 0xFF) <<< 16) % 2 ^ 32) |||
    (((b2 &&& 0xFF) <<< 8) % 2 ^ 32) |||
    (b1 &&& 0xFF)

/-- The function `packers<uint32_t>::pack`. -/
def pack (v : Nat) (mem : Mem) (out : Nat) : Mem :=
  let mem := store mem out 3 (((v >>> 24) &&& 0xFF : Nat) : Int)
  let mem := store mem out 2 (((v >>> 16) &&& 0xFF : Nat) : Int)
  let mem := store mem out 1 (((v >>> 8) &&& 0xFF : Nat) : Int)
  store mem out 0 ((v &&& 0xFF : Nat) : Int)

end packers_uint32_t

namespace packers_uint16_t

/-- The function `packers<uint16_t>::unpack`; the operands of `&`, `<<`, `|`
are promoted to `int`, the result is converted back to `uint16_t`. -/
def unpack (cs : Bool) (mem : Mem) (inp : Nat) : Nat :=
  let b1 := to_unsigned 16 (char_at cs mem inp 0)
  let b2 := to_unsigned 16 (char_at cs mem inp 1)
  to_unsigned 16 ((((b2 &&& 0xFF) <<< 8) ||| (b1 &&& 0xFF) : Nat) : Int)

/-- The function `packers<uint16_t>::pack`. -/
def pack (v : Nat) (mem : Mem) (out : Nat) : Mem :=
  let mem := store mem out 1 (((v >>> 8) &&& 0xFF : Nat) : Int)
  store mem out 0 ((v &&& 0xFF : Nat) : Int)

end packers_uint16_t

namespace packers_uint8_t

/-- The function `packers<uint8_t>::unpack`. -/
def unpack (cs : Bool) (mem : Mem) (inp : Nat) : Nat :=
  to_unsigned 8 (char_at cs mem inp 0)

/-- The function `packers<uint8_t>::pack`. -/
def pack (c : Nat) (mem : Mem) (out : Nat) : Mem :=
  store mem out 0 (c : Int)

end packers_uint8_t

namespace packers_int32_t

/-- The function `packers<int32_t>::unpack`. -/
def unpack (cs : Bool) (mem : Mem) (inp : Nat) : Int :=
  to_signed 32 (packers_uint32_t.unpack cs mem inp : Nat)

/-- The function `packers<int32_t>::pack`. -/
def pack (t : Int) (mem : Mem) (out : Nat) : Mem :=
  packers_uint32_t.pack (to_unsigned 32 t) mem out

end packers_int32_t

namespace packers_int16_t

/-- The function `packers<int16_t>::unpack`. -/
def unpack (cs : Bool) (mem : Mem) (inp : Nat) : Int :=
  to_signed 16 (packers_uint16_t.unpack cs mem inp : Nat)

/-- The function `packers<int16_t>::pack`. -/
def pack (t : Int) (mem : Mem) (out : Nat) : Mem :=
  packers_uint16_t.pack (to_unsigned 16 t) mem out

end packers_int16_t

namespace packers_int8_t

/-- The function `packers<int8_t>::unpack`. -/
def unpack (cs : Bool) (mem : Mem) (inp : Nat) : Int :=
  to_signed 8 (char_at cs mem inp 0)

/-- The function `packers<int8_t>::pack`. -/
def pack (t : Int) (mem : Mem) (out : Nat) : Mem :=
  store mem out 0 t

end packers_int8_t

namespace packers_char

/-- The function `packers<char>::unpack`. -/
def unpack (cs : Bool) (mem : Mem) (inp : Nat) : Int :=
  char_at cs mem inp 0

/-- The function `packers<char>::pack`. -/
def pack (t : Int) (mem : Mem) (out : Nat) : Mem :=
  store mem out 0 t

end packers_char

namespace IntType

/-- The operator `sizeof(T)`. -/
def sizeof : IntType → Nat
  | uint32_t => 4 | int32_t => 4
  | uint16_t => 2 | int16_t => 2
  | uint8_t => 1 | int8_t => 1 | char => 1

/-- Whether `T` is a signed type on a host whose plain `char` is signed iff `cs`. -/
def is_signed (cs : Bool) : IntType → Bool
  | uint32_t => false | uint16_t => false | uint8_t => false
  | int32_t => true | int16_t => true | int8_t => true
  | char => cs

/-- The conversion `static_cast<T>(x)` of an integer. -/
def cast (cs : Bool) (T : IntType) (x : Int) : Int :=
  if T.is_signed cs then to_signed (8 * T.sizeof) x else (to_unsigned (8 * T.sizeof) x : Nat)

/-- The values of type `T`. -/
def InRange (cs : Bool) (T : IntType) (v : Int) : Prop :=
  if T.is_signed cs then -(2 ^ (8 * T.sizeof - 1)) ≤ v ∧ v < 2 ^ (8 * T.sizeof - 1)
  else 0 ≤ v ∧ v < 2 ^ (8 * T.sizeof)

instance (cs : Bool) (T : IntType) (v : Int) : Decidable (InRange cs T v) := by
  unfold InRange; exact inferInstance

end IntType

namespace packers

/-- The function `packers<T>::unpack`, by specialisation. -/
def unpack (cs : Bool) : IntType → Mem → Nat → Int
  | .uint32_t, mem, inp => (packers_uint32_t.unpack cs mem inp : Nat)
  | .uint16_t, mem, inp => (packers_uint16_t.unpack cs mem inp : Nat)
  | .uint8_t, mem, inp => (packers_uint8_t.unpack cs mem inp : Nat)
  | .int32_t, mem, inp => packers_int32_t.unpack cs mem inp
  | .int16_t, mem, inp => packers_int16_t.unpack cs mem inp
  | .int8_t, mem, inp => packers_int8_t.unpack cs mem inp
  | .char, mem, inp => packers_char.unpack cs mem inp

/-- The function `packers<T>::pack`, by specialisation; an argument of an
unsigned parameter type is converted to it. -/
def pack : IntType → Int → Mem → Nat → Mem
  | .uint32_t, v, mem, out => packers_uint32_t.pack (to_unsigned 32 v) mem out
  | .uint16_t, v, mem, out => packers_uint16_t.pack (to_unsigned 16 v) mem out
  | .uint8_t, v, mem, out => packers_uint8_t.pack (to_unsigned 8 v) mem out
  | .int32_t, v, mem, out => packers_int32_t.pack v mem out
  | .int16_t, v, mem, out => packers_int16_t.pack v mem out
  | .int8_t, v, mem, out => packers_int8_t.pack v mem out
  | .char, v, mem, out => packers_char.pack v mem out

end packers

/-! ### `packers<double>` -/

/-- The conversion of a `double`, given by its 64 bit pattern (IEEE 754
binary64), to `uint64_t`: the value is truncated towards zero; the conversion
is undefined (`none`) when the truncated value is not a `uint64_t` (negative,
`2^64` or more, infinite or NaN). -/
def double_to_uint64 (d : Nat) : Option Nat :=
  let sign := d / 2 ^ 63 % 2
  let e := d / 2 ^ 52 % 2 ^ 11
  let m := d % 2 ^ 52
  if e = 2047 then none
  else if e = 0 then some 0
  else
    let sig := 2 ^ 52 + m
    let mag := if 1075 ≤ e then sig * 2 ^ (e - 1075) else sig / 2 ^ (1075 - e)
    if mag = 0 then some 0
    else if sign = 1 then none
    else if mag < 2 ^ 64 then some mag else none

namespace packers_double

/-- The function `packers<double>::unpack`; the result is the 64 bit pattern of
the returned `double` (`*reinterpret_cast<double *>(&val)`). -/
def unpack (cs : Bool) (mem : Mem) (inp : Nat) : Nat :=
  let lower := packers_uint32_t.unpack cs mem inp
  let upper := packers_uint32_t.unpack cs mem (inp + 4)
  let val := ((upper <<< 32) % 2 ^ 64) ||| lower
  val

/-- The function `packers<double>::pack` on the `double` with bit pattern `d`.
The cast `reinterpret_cast<const double *>(&d)` is the identity on a
`const double *`, so `val` is initialised from a `double` lvalue: a floating to
integer conversion. -/
def pack (d : Nat) (mem : Mem) (buf : Nat) : Option Mem :=
  match double_to_uint64 d with
  | none => none
  | some val =>
    let mem := packers_uint32_t.pack (val &&& 0xFFFFFFFF) mem buf
    some (packers_uint32_t.pack ((val >>> 32) % 2 ^ 32) mem (buf + 4))

end packers_double

/-! ## Predictor -/

/-- The struct `standard_diff_method<T>`. -/
structure standard_diff_method where
  value : Int
  have_value_ : Bool
  deriving DecidableEq, Repr

namespace standard_diff_method

/-- The constructor; it leaves `value` uninitialised, which is modelled as 0
(the member is not read while `have_value_` is false). -/
def new : standard_diff_method := { value := 0, have_value_ := false }

/-- The method `push`. -/
def push (self : standard_diff_method) (v : Int) : standard_diff_method :=
  let self := if !self.have_value_ then { self with have_value_ := true } else self
  { self with value := v }

/-- The method `have_value`. -/
def have_value (self : standard_diff_method) : Bool := self.have_value_

end standard_diff_method

/-! ## The entropy coder, as a parameter -/

/-- The calls made on the encoder side: on a field's `compressors::integer`
sub-model (identified by the bit width it was constructed with), on the
arithmetic encoder and on its output stream.  `ε` is the joint state of these
collaborators. -/
structure Encoder (ε : Type) where
  /-- The call `compressor_.init()`. -/
  init : Nat → ε → ε
  /-- The call `compressor_.compress(encoder, predicted, actual, context)`. -/
  compress : Nat → Int → Int → Nat → ε → ε
  /-- The call `encoder.getOutStream().putBytes(bytes, len)`. -/
  putBytes : List Nat → ε → ε
  /-- The call `encoder.done()`. -/
  done : ε → ε

/-- The calls made on the decoder side; `δ` is the joint state of the
`decompressors::integer` sub-models, the arithmetic decoder and its input
stream. -/
structure Decoder (δ : Type) where
  /-- The call `decompressor_.init()`. -/
  init : Nat → δ → δ
  /-- The call `decompressor_.decompress(decoder, predicted, context)`. -/
  decompress : Nat → Int → Nat → δ → Int × δ
  /-- The call `decoder.getInStream().getBytes(buffer, len)`: `len` bytes. -/
  getBytes : (len : Nat) → δ → { bs : List Nat // bs.length = len } × δ
  /-- The call `decoder.readInitBytes()`. -/
  readInitBytes : δ → δ

/-! ## Typed field -/

/-- The data members of `field<T>`.  The sub-models `compressor_` and
`decompressor_` are represented by the bit width they are constructed with;
their internal state belongs to the coder. -/
structure field where
  compressor_ : Nat
  decompressor_ : Nat
  compressor_inited_ : Bool
  decompressor_inited_ : Bool
  differ_ : standard_diff_method
  deriving DecidableEq, Repr

namespace field

/-- The constructor `field<T>()`. -/
def new (T : IntType) : field :=
  { compressor_ := T.sizeof * 8
    decompressor_ := T.sizeof * 8
    compressor_inited_ := false
    decompressor_inited_ := false
    differ_ := standard_diff_method.new }

variable {ε δ : Type}

/-- The method `field<T>::compressWith`. -/
def compressWith (cs : Bool) (E : Encoder ε) (T : IntType) (self : field) (encoder : ε)
    (mem : Mem) (buf : Nat) : field × ε × Nat :=
  let this_val := packers.unpack cs T mem buf
  let encoder := if !self.compressor_inited_ then E.init self.compressor_ encoder else encoder
  let encoder :=
    if self.differ_.have_value then
      E.compress self.compressor_ self.differ_.value this_val 0 encoder
    else
      E.putBytes (readBytes mem buf T.sizeof) encoder
  ({ self with differ_ := self.differ_.push this_val }, encoder, buf + T.sizeof)

/-- The method `field<T>::decompressWith`. -/
def decompressWith (cs : Bool) (D : Decoder δ) (T : IntType) (self : field) (decoder : δ)
    (mem : Mem) (buffer : Nat) : field × δ × Mem × Nat :=
  let decoder := if !self.decompressor_inited_ then D.init self.decompressor_ decoder else decoder
  if self.differ_.have_value then
    let res := D.decompress self.decompressor_ self.differ_.value 0 decoder
    let r := T.cast cs res.1
    let mem := packers.pack T r mem buffer
    ({ self with differ_ := self.differ_.push r }, res.2, mem, buffer + T.sizeof)
  else
    let res := D.getBytes T.sizeof decoder
    let mem := writeBytes mem buffer res.1.1
    let r := packers.unpack cs T mem buffer
    ({ self with differ_ := self.differ_.push r }, res.2, mem, buffer + T.sizeof)

end field

/-! ## Static record pipeline -/

/-- The chain `record_compressor<TS...>`: `nil` is `record_compressor<>`, `cons`
is `record_compressor<field<T>, TS...>` with its members `field_` and `next_`. -/
inductive record_compressor
  | nil : record_compressor
  | cons (T : IntType) (field_ : field) (next_ : record_compressor) : record_compressor
  deriving DecidableEq, Repr

/-- The chain `record_decompressor<TS...>`: `nil` is `record_decompressor<>`
with its member `firstDecompress`. -/
inductive record_decompressor
  | nil (firstDecompress : Bool) : record_decompressor
  | cons (T : IntType) (field_ : field) (next_ : record_decompressor) : record_decompressor
  deriving DecidableEq, Repr

namespace record_compressor

variable {ε : Type}

/-- The constructors of the chain for the field list `TS`. -/
def new : List IntType → record_compressor
  | [] => nil
  | T :: TS => cons T (field.new T) (new TS)

/-- The method `record_compressor<TS...>::compressWith`. -/
def compressWith (cs : Bool) (E : Encoder ε) :
    record_compressor → ε → Mem → Nat → record_compressor × ε × Nat
  | nil, encoder, _, buf => (nil, encoder, buf)
  | cons T field_ next_, encoder, mem, buffer =>
    let r := field_.compressWith cs E T encoder mem buffer
    let n := compressWith cs E next_ r.2.1 mem r.2.2
    (cons T r.1 n.1, n.2.1, n.2.2)

end record_compressor

namespace record_decompressor

variable {δ : Type}

/-- The constructors of the chain for the field list `TS`. -/
def new : List IntType → record_decompressor
  | [] => nil true
  | T :: TS => cons T (field.new T) (new TS)

/-- The method `record_decompressor<TS...>::decompressWith`. -/
def decompressWith (cs : Bool) (D : Decoder δ) :
    record_decompressor → δ → Mem → Nat → record_decompressor × δ × Mem × Nat
  | nil firstDecompress, decoder, mem, buf =>
    if firstDecompress then
      (nil false, D.readInitBytes decoder, mem, buf)
    else
      (nil firstDecompress, decoder, mem, buf)
  | cons T field_ next_, decoder, mem, buf =>
    let r := field_.decompressWith cs D T decoder mem buf
    let n := decompressWith cs D next_ r.2.1 r.2.2.1 r.2.2.2
    (cons T r.1 n.1, n.2.1, n.2.2.1, n.2.2.2)

end record_decompressor

/-! ## Type-erased field adapters -/

/-- The objects behind a `base_field::ptr`: a `dynamic_compressor_field` or a
`dynamic_decompressor_field` wrapping a `field<T>`.  The reference `encdec_` is
the pipeline's coder, passed to the methods. -/
inductive base_field
  | dynamic_compressor_field (T : IntType) (field_ : field) : base_field
  | dynamic_decompressor_field (T : IntType) (field_ : field) : base_field
  deriving DecidableEq, Repr

namespace base_field

variable {ε δ : Type}

/-- The virtual method `compressRaw`: overridden by `dynamic_compressor_field`,
otherwise the default of `base_field`. -/
def compressRaw (cs : Bool) (E : Encoder ε) :
    base_field → ε → Mem → Nat → base_field × ε × Nat
  | dynamic_compressor_field T field_, encdec_, mem, inp =>
    let r := field_.compressWith cs E T encdec_ mem inp
    (dynamic_compressor_field T r.1, r.2.1, r.2.2)
  | dynamic_decompressor_field T field_, encdec_, _, buf =>
    (dynamic_decompressor_field T field_, encdec_, buf)

/-- The virtual method `decompressRaw`: overridden by
`dynamic_decompressor_field`, otherwise the default of `base_field`. -/
def decompressRaw (cs : Bool) (D : Decoder δ) :
    base_field → δ → Mem → Nat → base_field × δ × Mem × Nat
  | dynamic_decompressor_field T field_, encdec_, mem, buf =>
    let r := field_.decompressWith cs D T encdec_ mem buf
    (dynamic_decompressor_field T r.1, r.2.1, r.2.2.1, r.2.2.2)
  | dynamic_compressor_field T field_, encdec_, mem, buf =>
    (dynamic_compressor_field T field_, encdec_, mem, buf)

/-- The value type of the wrapped field. -/
def type : base_field → IntType
  | dynamic_compressor_field T _ => T
  | dynamic_decompressor_field T _ => T

/-- The wrapped field. -/
def field_ : base_field → field
  | dynamic_compressor_field _ f => f
  | dynamic_decompressor_field _ f => f

end base_field

/-! ## Dynamic record pipeline -/

/-- The data members of `dynamic_field_compressor<TStream>`. -/
structure dynamic_field_compressor (ε : Type) where
  encoder_ : ε
  fields_ : List base_field

/-- The data members of `dynamic_field_decompressor<TStream>`. -/
structure dynamic_field_decompressor (δ : Type) where
  decoder_ : δ
  fields_ : List base_field
  first_decomp_ : Bool

/-- The function `make_dynamic_compressor`; `encoder` is the encoder bound to
the stream. -/
def make_dynamic_compressor {ε : Type} (encoder : ε) : dynamic_field_compressor ε :=
  { encoder_ := encoder, fields_ := [] }

/-- The function `make_dynamic_decompressor`; `decoder` is the decoder bound to
the stream. -/
def make_dynamic_decompressor {δ : Type} (decoder : δ) : dynamic_field_decompressor δ :=
  { decoder_ := decoder, fields_ := [], first_decomp_ := true }

namespace dynamic_field_compressor

variable {ε : Type}

/-- The method `add_field<TFieldType>()`. -/
def add_field (self : dynamic_field_compressor ε) (T : IntType) : dynamic_field_compressor ε :=
  { self with fields_ := self.fields_ ++ [base_field.dynamic_compressor_field T (field.new T)] }

/-- Registration of a whole schema, one `add_field` call per type, in order. -/
def add_fields (self : dynamic_field_compressor ε) : List IntType → dynamic_field_compressor ε
  | [] => self
  | T :: TS => add_fields (self.add_field T) TS

/-- The loop `for (auto f: fields_) in = f->compressRaw(in);`. -/
def compress_loop (cs : Bool) (E : Encoder ε) :
    List base_field → ε → Mem → Nat → List base_field × ε × Nat
  | [], encoder, _, inp => ([], encoder, inp)
  | f :: fs, encoder, mem, inp =>
    let r := f.compressRaw cs E encoder mem inp
    let n := compress_loop cs E fs r.2.1 mem r.2.2
    (r.1 :: n.1, n.2.1, n.2.2)

/-- The method `dynamic_field_compressor::compress`. -/
def compress (cs : Bool) (E : Encoder ε) (self : dynamic_field_compressor ε) (mem : Mem)
    (inp : Nat) : dynamic_field_compressor ε × Nat :=
  let r := compress_loop cs E self.fields_ self.encoder_ mem inp
  ({ encoder_ := r.2.1, fields_ := r.1 }, r.2.2)

/-- The method `dynamic_field_compressor::done`. -/
def done (E : Encoder ε) (self : dynamic_field_compressor ε) : dynamic_field_compressor ε :=
  { self with encoder_ := E.done self.encoder_ }

end dynamic_field_compressor

namespace dynamic_field_decompressor

variable {δ : Type}

/-- The method `add_field<TFieldType>()`. -/
def add_field (self : dynamic_field_decompressor δ) (T : IntType) :
    dynamic_field_decompressor δ :=
  { self with fields_ := self.fields_ ++ [base_field.dynamic_decompressor_field T (field.new T)] }

/-- Registration of a whole schema, one `add_field` call per type, in order. -/
def add_fields (self : dynamic_field_decompressor δ) :
    List IntType → dynamic_field_decompressor δ
  | [] => self
  | T :: TS => add_fields (self.add_field T) TS

/-- The loop `for (auto f: fields_) out = f->decompressRaw(out);`. -/
def decompress_loop (cs : Bool) (D : Decoder δ) :
    List base_field → δ → Mem → Nat → List base_field × δ × Mem × Nat
  | [], decoder, mem, out => ([], decoder, mem, out)
  | f :: fs, decoder, mem, out =>
    let r := f.decompressRaw cs D decoder mem out
    let n := decompress_loop cs D fs r.2.1 r.2.2.1 r.2.2.2
    (r.1 :: n.1, n.2.1, n.2.2.1, n.2.2.2)

/-- The method `dynamic_field_decompressor::decompress`. -/
def decompress (cs : Bool) (D : Decoder δ) (self : dynamic_field_decompressor δ) (mem : Mem)
    (out : Nat) : dynamic_field_decompressor δ × Mem × Nat :=
  let r := decompress_loop cs D self.fields_ self.decoder_ mem out
  if self.first_decomp_ then
    ({ decoder_ := D.readInitBytes r.2.1, fields_ := r.1, first_decomp_ := false },
      r.2.2.1, r.2.2.2)
  else
    ({ decoder_ := r.2.1, fields_ := r.1, first_decomp_ := self.first_decomp_ },
      r.2.2.1, r.2.2.2)

end dynamic_field_decompressor

/-! ## Driver loops (`examples/dynamic.cpp`, `main`) -/

/-- The number of bytes of a record with the field types `TS`. -/
def record_size (TS : List IntType) : Nat := (TS.map IntType.sizeof).sum

namespace dynamic

variable {ε δ : Type}

/-- The encode loop of `main`: each record is stored in `data`, then
`compressor->compress((const char*)&data)` is called. -/
def compress_records (cs : Bool) (E : Encoder ε) (c : dynamic_field_compressor ε)
    (mem : Mem) (data : Nat) : List (List Nat) → dynamic_field_compressor ε × Mem
  | [] => (c, mem)
  | r :: rs =>
    let mem := writeBytes mem data r
    compress_records cs E (c.compress cs E mem data).1 mem data rs

/-- The decode loop of `main`: `n` calls of `decompressor->decompress((char *)&data)`;
the `size` bytes found in `data` after each call are collected. -/
def decompress_records (cs : Bool) (D : Decoder δ) (d : dynamic_field_decompressor δ)
    (mem : Mem) (data : Nat) (size : Nat) :
    Nat → dynamic_field_decompressor δ × Mem × List (List Nat)
  | 0 => (d, mem, [])
  | n + 1 =>
    let r := d.decompress cs D mem data
    let rest := decompress_records cs D r.1 r.2.1 data size n
    (rest.1, rest.2.1, readBytes r.2.1 data size :: rest.2.2)

end dynamic

namespace static

variable {ε δ : Type}

/-- The encode loop over a static chain: each record is stored in `data`, then
`compressWith(encoder, (const char*)&data)` is called. -/
def compress_records (cs : Bool) (E : Encoder ε) (c : record_compressor) (encoder : ε)
    (mem : Mem) (data : Nat) : List (List Nat) → record_compressor × ε × Mem
  | [] => (c, encoder, mem)
  | r :: rs =>
    let mem := writeBytes mem data r
    let s := c.compressWith cs E encoder mem data
    compress_records cs E s.1 s.2.1 mem data rs

/-- The decode loop over a static chain: `n` calls of
`decompressWith(decoder, (char *)&data)`; the `size` bytes found in `data` after
each call are collected. -/
def decompress_records (cs : Bool) (D : Decoder δ) (d : record_decompressor) (decoder : δ)
    (mem : Mem) (data : Nat) (size : Nat) :
    Nat → record_decompressor × δ × Mem × List (List Nat)
  | 0 => (d, decoder, mem, [])
  | n + 1 =>
    let r := d.decompressWith cs D decoder mem data
    let rest := decompress_records cs D r.1 r.2.1 r.2.2.1 data size n
    (rest.1, rest.2.1, rest.2.2.1, readBytes r.2.2.1 data size :: rest.2.2.2)

end static

/-! ## Observing the calls made on the coder -/

/-- A call made on the encoder side. -/
inductive EncOp
  | init (bits : Nat)
  | compress (bits : Nat) (predicted actual : Int) (context : Nat)
  | putBytes (bytes : List Nat)
  | done
  deriving DecidableEq, Repr

/-- A call made on the decoder side. -/
inductive DecOp
  | init (bits : Nat)
  | decompress (bits : Nat) (predicted : Int) (context : Nat)
  | getBytes (len : Nat)
  | readInitBytes
  deriving DecidableEq, Repr

namespace Encoder

variable {ε : Type}

/-- The encoder that only records the calls made on it, oldest first. -/
def log : Encoder (List EncOp) where
  init bits l := l ++ [EncOp.init bits]
  compress bits p a c l := l ++ [EncOp.compress bits p a c]
  putBytes bs l := l ++ [EncOp.putBytes bs]
  done l := l ++ [EncOp.done]

/-- One recorded call, made on the encoder `E`. -/
def step (E : Encoder ε) : EncOp → ε → ε
  | .init bits, e => E.init bits e
  | .compress bits p a c, e => E.compress bits p a c e
  | .putBytes bs, e => E.putBytes bs e
  | .done, e => E.done e

/-- A sequence of recorded calls, made in order on the encoder `E`. -/
def run (E : Encoder ε) : List EncOp → ε → ε
  | [], e => e
  | op :: ops, e => run E ops (E.step op e)

end Encoder

namespace Decoder

variable {δ : Type}

/-- The decoder `D` together with a record of the calls made on it, oldest
first. -/
def logged (D : Decoder δ) : Decoder (δ × List DecOp) where
  init bits s := (D.init bits s.1, s.2 ++ [DecOp.init bits])
  decompress bits p c s :=
    ((D.decompress bits p c s.1).1, (D.decompress bits p c s.1).2, s.2 ++ [DecOp.decompress bits p c])
  getBytes len s := ((D.getBytes len s.1).1, (D.getBytes len s.1).2, s.2 ++ [DecOp.getBytes len])
  readInitBytes s := (D.readInitBytes s.1, s.2 ++ [DecOp.readInitBytes])

/-- The list `bs` cut or zero-filled to `len` bytes. -/
def fit : (len : Nat) → List Nat → { bs : List Nat // bs.length = len }
  | 0, _ => ⟨[], rfl⟩
  | n + 1, [] => ⟨0 :: (fit n []).1, by simp [(fit n []).2]⟩
  | n + 1, b :: bs => ⟨b :: (fit n bs).1, by simp [(fit n bs).2]⟩

/-- A decoder whose state is the list of encoder calls still to be answered: it
hands back the raw bytes and the coded values in the order they were given to
the encoder.  A call that does not match the next recorded call is answered
with zeros and leaves the state as it is. -/
def replay : Decoder (List EncOp) where
  init bits l :=
    match l with
    | EncOp.init b :: rest => if b = bits then rest else l
    | _ => l
  decompress bits p c l :=
    match l with
    | EncOp.compress b q a k :: rest => if b = bits ∧ q = p ∧ k = c then (a, rest) else (0, l)
    | _ => (0, l)
  getBytes len l :=
    match l with
    | EncOp.putBytes bs :: rest => if bs.length = len then (fit len bs, rest) else (fit len [], l)
    | _ => (fit len [], l)
  readInitBytes l := l

/-- A decoder over a recorded encoder log that needs its init bytes: its state
is the list of encoder calls still to be answered together with whether
`readInitBytes` was called.  Raw bytes are handed back only before
`readInitBytes`, coded values only after it, and a second `readInitBytes`
restarts the decoder inside the coded data: what was still to be answered is
lost.  A call that cannot be answered gets zeros and leaves the state as it
is. -/
def framed : Decoder (Bool × List EncOp) where
  init bits s := (s.1, replay.init bits s.2)
  decompress bits p c s :=
    if s.1 then ((replay.decompress bits p c s.2).1, (s.1, (replay.decompress bits p c s.2).2))
    else (0, s)
  getBytes len s :=
    if s.1 then (fit len [], s)
    else ((replay.getBytes len s.2).1, (s.1, (replay.getBytes len s.2).2))
  readInitBytes s := if s.1 then (true, []) else (true, s.2)

end Decoder

/-- The precondition on the stream: `R ops d` reads "the decoder state `d` is
positioned at a stream produced by the encoder calls `ops`".  Then the decoder,
asked in the same order, returns the raw bytes as they were written.  Nothing
is asked of the entropy sub-models' `decompress`. -/
structure RawFaithful {δ : Type} (D : Decoder δ) (R : List EncOp → δ → Prop) : Prop where
  init : ∀ bits ops d, R (EncOp.init bits :: ops) d → R ops (D.init bits d)
  putBytes : ∀ bs ops d, R (EncOp.putBytes bs :: ops) d →
    (D.getBytes bs.length d).1.1 = bs ∧ R ops (D.getBytes bs.length d).2

/-- The precondition on the entropy sub-models: `R ops d` reads "the decoder
state `d` is positioned at coded data produced by the encoder calls `ops`".
Then the decoder, asked in the same order, returns for a coded value the value
given to the matching `compress` call (up to the bit width of the sub-model).
Nothing is asked of raw reads or of `readInitBytes`. -/
structure CodedFaithful {δ : Type} (D : Decoder δ) (R : List EncOp → δ → Prop) : Prop where
  init : ∀ bits ops d, R (EncOp.init bits :: ops) d → R ops (D.init bits d)
  compress : ∀ bits p a ops d, R (EncOp.compress bits p a 0 :: ops) d →
    (D.decompress bits p 0 d).1 % 2 ^ bits = a % 2 ^ bits ∧ R ops (D.decompress bits p 0 d).2

/-- The precondition on the coder and its stream, in two phases.  `R0 ops d`:
the decoder has not yet read its init bytes and is positioned at a stream
produced by the encoder calls `ops`; in this phase the raw bytes come back in
the order written (`RawFaithful`).  One `readInitBytes` takes the decoder to
the second phase, `R1 ops d`, in which coded values come back as given
(`CodedFaithful`).  Nothing is assumed of a `decompress` made before
`readInitBytes`, of a raw read made after it, or of a second `readInitBytes`. -/
structure Faithful {δ : Type} (D : Decoder δ) (R0 R1 : List EncOp → δ → Prop) : Prop where
  raw : RawFaithful D R0
  readInitBytes : ∀ ops d, R0 ops d → R1 ops (D.readInitBytes d)
  coded : CodedFaithful D R1

/-! ## Specification functions -/

/-- The number denoted by the `n` bytes at `p`, least significant byte first. -/
def le_value (mem : Mem) (p : Nat) : Nat → Nat
  | 0 => 0
  | n + 1 => mem p % 256 + 256 * le_value mem (p + 1) n

namespace field

/-- The calls `field<T>::compressWith` makes on the encoder side, in order. -/
def compress_ops (cs : Bool) (T : IntType) (self : field) (mem : Mem) (buf : Nat) :
    List EncOp :=
  (if !self.compressor_inited_ then [EncOp.init self.compressor_] else []) ++
    [if self.differ_.have_value then
        EncOp.compress self.compressor_ self.differ_.value (packers.unpack cs T mem buf) 0
      else EncOp.putBytes (readBytes mem buf T.sizeof)]

/-- The field after its predictor was given `v`. -/
def pushed (self : field) (v : Int) : field :=
  { self with differ_ := self.differ_.push v }

/-- A compress side field and a decompress side field of type `T` that are at
the same point of the record sequence: same model width and initialisation flag,
same `have_value`, and the same predicted value once there is one. -/
def Sync (T : IntType) (fc fd : field) : Prop :=
  fc.compressor_ = 8 * T.sizeof ∧ fd.decompressor_ = 8 * T.sizeof ∧
    fd.decompressor_inited_ = fc.compressor_inited_ ∧
    fd.differ_.have_value_ = fc.differ_.have_value_ ∧
    (fc.differ_.have_value_ = true → fd.differ_.value = fc.differ_.value)

end field

namespace base_field

/-- The calls `compressRaw` makes on the encoder side, in order. -/
def compress_ops (cs : Bool) : base_field → Mem → Nat → List EncOp
  | dynamic_compressor_field T f, mem, p => f.compress_ops cs T mem p
  | dynamic_decompressor_field _ _, _, _ => []

/-- The adapter after `compressRaw`. -/
def after_compress (cs : Bool) : base_field → Mem → Nat → base_field
  | dynamic_compressor_field T f, mem, p =>
    dynamic_compressor_field T (f.pushed (packers.unpack cs T mem p))
  | dynamic_decompressor_field T f, _, _ => dynamic_decompressor_field T f

/-- The number of bytes by which `compressRaw` advances the buffer. -/
def compress_size : base_field → Nat
  | dynamic_compressor_field T _ => T.sizeof
  | dynamic_decompressor_field _ _ => 0

/-- The number of bytes by which `decompressRaw` advances the buffer. -/
def decompress_size : base_field → Nat
  | dynamic_compressor_field _ _ => 0
  | dynamic_decompressor_field T _ => T.sizeof

/-- A compressor side adapter and a decompressor side adapter of the same type
whose fields are in step. -/
def Sync : base_field → base_field → Prop
  | dynamic_compressor_field T fc, dynamic_decompressor_field U fd => T = U ∧ field.Sync T fc fd
  | _, _ => False

end base_field

/-- The calls one pass of the compress loop makes, in order. -/
def fields_ops (cs : Bool) : List base_field → Mem → Nat → List EncOp
  | [], _, _ => []
  | f :: fs, mem, p => f.compress_ops cs mem p ++ fields_ops cs fs mem (p + f.compress_size)

/-- The adapters after one pass of the compress loop. -/
def fields_after (cs : Bool) : List base_field → Mem → Nat → List base_field
  | [], _, _ => []
  | f :: fs, mem, p => f.after_compress cs mem p :: fields_after cs fs mem (p + f.compress_size)

/-- The number of bytes one pass of the compress loop consumes. -/
def fields_size (fs : List base_field) : Nat := (fs.map base_field.compress_size).sum

/-- The calls the encode loop of `main` makes for the records `recs`, in order. -/
def records_ops (cs : Bool) (fs : List base_field) (mem : Mem) (data : Nat) :
    List (List Nat) → List EncOp
  | [] => []
  | r :: rs =>
    fields_ops cs fs (writeBytes mem data r) data ++
      records_ops cs (fields_after cs fs (writeBytes mem data r) data) (writeBytes mem data r)
        data rs

/-- The fields of a static compressor chain, as the adapters a dynamic
compressor holds after registering the same types. -/
def record_compressor.adapters : record_compressor → List base_field
  | .nil => []
  | .cons T f next_ => base_field.dynamic_compressor_field T f :: next_.adapters

/-- The fields of a static decompressor chain, as the adapters a dynamic
decompressor holds after registering the same types. -/
def record_decompressor.adapters : record_decompressor → List base_field
  | .nil _ => []
  | .cons T f next_ => base_field.dynamic_decompressor_field T f :: next_.adapters

/-- The member `firstDecompress` at the end of a static decompressor chain. -/
def record_decompressor.first : record_decompressor → Bool
  | .nil firstDecompress => firstDecompress
  | .cons _ _ next_ => next_.first

/-- The calls `field<T>::decompressWith` makes on the decoder side, in order. -/
def field.decompress_ops (T : IntType) (self : field) : List DecOp :=
  (if !self.decompressor_inited_ then [DecOp.init self.decompressor_] else []) ++
    [if self.differ_.have_value then
        DecOp.decompress self.decompressor_ self.differ_.value 0
      else DecOp.getBytes T.sizeof]

/-- The calls `decompressRaw` makes on the decoder side, in order. -/
def base_field.decompress_ops : base_field → List DecOp
  | .dynamic_compressor_field _ _ => []
  | .dynamic_decompressor_field T f => f.decompress_ops T

/-- The calls one pass of the decompress loop makes, in order. -/
def fields_decompress_ops (fs : List base_field) : List DecOp :=
  fs.flatMap base_field.decompress_ops

/-- The bytes a call hands to the output stream. -/
def EncOp.raw_bytes : EncOp → List Nat
  | .putBytes bs => bs
  | _ => []

/-- Whether a call is a call of an entropy sub-model's `compress`. -/
def EncOp.is_compress : EncOp → Bool
  | .compress _ _ _ _ => true
  | _ => false

/-- Whether a call is a call of an entropy sub-model's `decompress`. -/
def DecOp.is_decompress : DecOp → Bool
  | .decompress _ _ _ => true
  | _ => false

/-- A decoder that hands back the raw bytes like `Decoder.replay` and whose
entropy sub-models are broken: `decompress` always answers 0. -/
def Decoder.raw_only : Decoder (List EncOp) :=
  { Decoder.replay with decompress := fun _ _ _ l => (0, l) }

/-- The compressor side adapters for a list of typed fields. -/
def compressor_fields (l : List (IntType × field)) : List base_field :=
  l.map (fun tf => base_field.dynamic_compressor_field tf.1 tf.2)

/-- The decompressor side adapters for a list of typed fields. -/
def decompressor_fields (l : List (IntType × field)) : List base_field :=
  l.map (fun tf => base_field.dynamic_decompressor_field tf.1 tf.2)

/-- The static compressor chain holding the given typed fields. -/
def record_compressor.of_list : List (IntType × field) → record_compressor
  | [] => .nil
  | tf :: l => .cons tf.1 tf.2 (record_compressor.of_list l)

/-- The chain `c1` continued by the chain `c2`. -/
def record_compressor.append : record_compressor → record_compressor → record_compressor
  | .nil, c2 => c2
  | .cons T f next_, c2 => .cons T f (record_compressor.append next_ c2)

/-- The static decompressor chain holding the given typed fields, ending in
`record_decompressor<>` with the given `firstDecompress`. -/
def record_decompressor.of_list : List (IntType × field) → Bool → record_decompressor
  | [], first => .nil first
  | tf :: l, first => .cons tf.1 tf.2 (record_decompressor.of_list l first)

/-- The fields of the chain `c1` continued by the chain `c2`. -/
def record_decompressor.append : record_decompressor → record_decompressor → record_decompressor
  | .nil _, c2 => c2
  | .cons T f next_, c2 => .cons T f (record_decompressor.append next_ c2)

namespace field

variable {ε δ : Type}

/-- Successive `compressWith` calls on one field, one per buffer of the list. -/
def compressWith_seq (cs : Bool) (E : Encoder ε) (T : IntType) :
    field → ε → List (Mem × Nat) → field × ε
  | self, encoder, [] => (self, encoder)
  | self, encoder, b :: rest =>
    let r := self.compressWith cs E T encoder b.1 b.2
    compressWith_seq cs E T r.1 r.2.1 rest

/-- Successive `decompressWith` calls on one field, one per buffer position of
the list. -/
def decompressWith_seq (cs : Bool) (D : Decoder δ) (T : IntType) :
    field → δ → Mem → List Nat → field × δ × Mem
  | self, decoder, mem, [] => (self, decoder, mem)
  | self, decoder, mem, b :: rest =>
    let r := self.decompressWith cs D T decoder mem b
    decompressWith_seq cs D T r.1 r.2.1 r.2.2.1 rest

end field

/-! ## The stream of `examples/dynamic.cpp` -/

/-- The struct `SuchStream`: the bytes written so far and the read cursor. -/
structure SuchStream where
  buf : List Nat
  idx : Nat
  deriving DecidableEq, Repr

namespace SuchStream

/-- The constructor `SuchStream()`. -/
def new : SuchStream := { buf := [], idx := 0 }

/-- The method `putByte`. -/
def putByte (self : SuchStream) (b : Nat) : SuchStream :=
  { self with buf := self.buf ++ [b % 256] }

/-- The method `putBytes`: `while(len --) buf.push_back(*b++)`. -/
def putBytes (self : SuchStream) : List Nat → SuchStream
  | [] => self
  | b :: bs => putBytes { self with buf := self.buf ++ [b % 256] } bs

/-- The method `getByte`: `return buf[idx++]`; reading past the end is undefined
and is modelled as reading 0. -/
def getByte (self : SuchStream) : Nat × SuchStream :=
  (self.buf.getD self.idx 0, { self with idx := self.idx + 1 })

/-- The method `getBytes`: `for (i < len) b[i] = getByte()`. -/
def getBytes : (len : Nat) → SuchStream → { bs : List Nat // bs.length = len } × SuchStream
  | 0, self => (⟨[], rfl⟩, self)
  | n + 1, self =>
    (⟨self.getByte.1 :: (getBytes n self.getByte.2).1.1, by simp [(getBytes n self.getByte.2).1.2]⟩,
      (getBytes n self.getByte.2).2)

end SuchStream

/-- An encoder over a `SuchStream` whose entropy sub-models are stubs that write
nothing: only the raw bytes reach the stream. -/
def Encoder.such_stream : Encoder SuchStream where
  init _ s := s
  compress _ _ _ _ s := s
  putBytes bs s := s.putBytes bs
  done s := s

/-- A decoder over a `SuchStream` whose entropy sub-models are stubs that read
nothing and answer 0: only the raw bytes are read from the stream. -/
def Decoder.such_stream : Decoder SuchStream where
  init _ s := s
  decompress _ _ _ s := (0, s)
  getBytes len s := s.getBytes len
  readInitBytes s := s

/-- The precondition on the stream, byte by byte: `S bs d` reads "the bytes
still to be read from the decoder's stream in state `d` start with `bs`".  Then
`getBytes` returns them in order, in chunks of any size, and a sub-model's
`init` does not touch the stream. -/
structure ByteFaithful {δ : Type} (D : Decoder δ) (S : List Nat → δ → Prop) : Prop where
  init : ∀ bits bs d, S bs d → S bs (D.init bits d)
  getBytes : ∀ n bs d, n ≤ bs.length → S bs d →
    (D.getBytes n d).1.1 = bs.take n ∧ S (bs.drop n) (D.getBytes n d).2

/-! ## The shape of a sequence of calls -/

/-- The kind of a call on the stream or on an entropy sub-model: a raw transfer
of `len` bytes, a coded value of a sub-model of `bits` bits, or the decoder's
`readInitBytes`. -/
inductive OpKind
  | raw (len : Nat)
  | coded (bits : Nat)
  | init_bytes
  deriving DecidableEq, Repr

/-- The kind of an encoder side call; a sub-model's `init` and `done` have none. -/
def EncOp.kind : EncOp → Option OpKind
  | .putBytes bs => some (OpKind.raw bs.length)
  | .compress bits _ _ _ => some (OpKind.coded bits)
  | .init _ => none
  | .done => none

/-- The kind of a decoder side call; a sub-model's `init` has none. -/
def DecOp.kind : DecOp → Option OpKind
  | .getBytes len => some (OpKind.raw len)
  | .decompress bits _ _ => some (OpKind.coded bits)
  | .readInitBytes => some OpKind.init_bytes
  | .init _ => none

/-- Whether a kind is a raw transfer. -/
def OpKind.is_raw : OpKind → Bool
  | .raw _ => true
  | _ => false

/-- Whether a kind is a coded value. -/
def OpKind.is_coded : OpKind → Bool
  | .coded _ => true
  | _ => false

/-- The kind of the one call a field of type `T` makes per record: raw while its
predictor has no value (`b = false`), coded afterwards. -/
def IntType.op_kind (b : Bool) (T : IntType) : OpKind :=
  if b then OpKind.coded (T.sizeof * 8) else OpKind.raw T.sizeof

/-- A compressor side adapter of type `T` with the model width of `field<T>`
whose predictor has a value iff `b`. -/
def base_field.CompressorAt (b : Bool) (T : IntType) : base_field → Prop
  | .dynamic_compressor_field U g =>
    U = T ∧ g.compressor_ = T.sizeof * 8 ∧ g.differ_.have_value_ = b
  | .dynamic_decompressor_field _ _ => False

/-- A decompressor side adapter of type `T` with the model width of `field<T>`
whose predictor has a value iff `b`. -/
def base_field.DecompressorAt (b : Bool) (T : IntType) : base_field → Prop
  | .dynamic_decompressor_field U g =>
    U = T ∧ g.decompressor_ = T.sizeof * 8 ∧ g.differ_.have_value_ = b
  | .dynamic_compressor_field _ _ => False

/-! # Theorems -/

/-! ## Packers -/

theorem to_unsigned_natCast (w n : Nat) : to_unsigned w (n : Int) = n % 2 ^ w := by
  unfold to_unsigned
  have : ((n : Int) % 2 ^ w) = ((n % 2 ^ w : Nat) : Int) := by push_cast; rfl
  rw [this, Int.toNat_ofNat]

theorem to_unsigned_lt (w : Nat) (x : Int) : to_unsigned w x < 2 ^ w := by
  unfold to_unsigned
  have h : (0 : Int) < 2 ^ w := by positivity
  have h1 := Int.emod_lt_of_pos x h
  have h2 := Int.emod_nonneg x (ne_of_gt h)
  have : ((x % 2 ^ w).toNat : Int) < ((2 ^ w : Nat) : Int) := by
    rw [Int.toNat_of_nonneg h2]; push_cast; exact h1
  exact_mod_cast this

theorem land_255 (x : Nat) : x &&& 0xFF = x % 256 := by
  have := Nat.and_pow_two_sub_one_eq_mod x 8
  simpa using this

theorem store_apply (mem : Mem) (p i : Nat) (x : Int) (a : Nat) :
    store mem p i x a = if a = p + i then to_unsigned 8 x else mem a := rfl

theorem char_value_mod (cs : Bool) (b : Nat) : char_value cs (b % 256) = char_value cs b := by
  simp [char_value, Nat.mod_mod]

set_option maxRecDepth 4000 in
theorem byte_facts (cs : Bool) (b : Nat) (hb : b < 256) :
    to_unsigned 32 (char_value cs b) &&& 0xFF = b ∧ to_unsigned 16 (char_value cs b) &&& 0xFF = b
    ∧ (to_unsigned 32 (char_value cs b) <<< 24) % 2 ^ 32 = b * 2 ^ 24
    ∧ to_unsigned 8 (char_value cs b) = b
    ∧ to_signed 8 (char_value cs b) = to_signed 8 (b : Int)
    ∧ char_value cs b = (if cs then to_signed 8 (b : Int) else (b : Int)) := by
  revert b; revert cs; decide

theorem byte_and32 (cs : Bool) (b : Nat) : to_unsigned 32 (char_value cs b) &&& 0xFF = b % 256 := by
  rw [← char_value_mod]; exact (byte_facts cs _ (Nat.mod_lt _ (by norm_num))).1

theorem byte_and16 (cs : Bool) (b : Nat) : to_unsigned 16 (char_value cs b) &&& 0xFF = b % 256 := by
  rw [← char_value_mod]; exact (byte_facts cs _ (Nat.mod_lt _ (by norm_num))).2.1

theorem byte_shl24 (cs : Bool) (b : Nat) :
    (to_unsigned 32 (char_value cs b) <<< 24) % 2 ^ 32 = b % 256 * 2 ^ 24 := by
  rw [← char_value_mod]; exact (byte_facts cs _ (Nat.mod_lt _ (by norm_num))).2.2.1

theorem byte_u8 (cs : Bool) (b : Nat) : to_unsigned 8 (char_value cs b) = b % 256 := by
  rw [← char_value_mod]; exact (byte_facts cs _ (Nat.mod_lt _ (by norm_num))).2.2.2.1

theorem byte_s8 (cs : Bool) (b : Nat) :
    to_signed 8 (char_value cs b) = to_signed 8 ((b % 256 : Nat) : Int) := by
  rw [← char_value_mod]; exact (byte_facts cs _ (Nat.mod_lt _ (by norm_num))).2.2.2.2.1

theorem lor_bytes2 (u0 u1 : Nat) (h0 : u0 < 256) : (u1 <<< 8) ||| u0 = u0 + 2 ^ 8 * u1 := by
  rw [Nat.shiftLeft_eq, Nat.mul_comm, ← Nat.mul_add_lt_is_or (by simpa using h0), Nat.add_comm]

theorem lor_bytes4 (u0 u1 u2 u3 : Nat) (h0 : u0 < 256) (h1 : u1 < 256) (h2 : u2 < 256) :
    (u3 * 2 ^ 24) ||| ((u2 <<< 16) % 2 ^ 32) ||| ((u1 <<< 8) % 2 ^ 32) ||| u0
      = u0 + 2 ^ 8 * u1 + 2 ^ 16 * u2 + 2 ^ 24 * u3 := by
  have e2 : (u2 <<< 16) % 2 ^ 32 = 2 ^ 16 * u2 := by
    rw [Nat.shiftLeft_eq, Nat.mod_eq_of_lt (by omega), Nat.mul_comm]
  have e1 : (u1 <<< 8) % 2 ^ 32 = 2 ^ 8 * u1 := by
    rw [Nat.shiftLeft_eq, Nat.mod_eq_of_lt (by omega), Nat.mul_comm]
  rw [e2, e1, Nat.lor_assoc, Nat.lor_assoc]
  have a : 2 ^ 8 * u1 ||| u0 = 2 ^ 8 * u1 + u0 := (Nat.mul_add_lt_is_or (by simpa using h0) u1).symm
  have b : 2 ^ 16 * u2 ||| (2 ^ 8 * u1 + u0) = 2 ^ 16 * u2 + (2 ^ 8 * u1 + u0) :=
    (Nat.mul_add_lt_is_or (by omega) u2).symm
  have c : u3 * 2 ^ 24 ||| (2 ^ 16 * u2 + (2 ^ 8 * u1 + u0))
      = 2 ^ 24 * u3 + (2 ^ 16 * u2 + (2 ^ 8 * u1 + u0)) := by
    rw [Nat.mul_comm]; exact (Nat.mul_add_lt_is_or (by omega) u3).symm
  rw [a, b, c]; omega

theorem unpack_u32_eq (cs : Bool) (mem : Mem) (p : Nat) :
    packers_uint32_t.unpack cs mem p
      = mem p % 256 + 2 ^ 8 * (mem (p + 1) % 256) + 2 ^ 16 * (mem (p + 2) % 256)
        + 2 ^ 24 * (mem (p + 3) % 256) := by
  simp only [packers_uint32_t.unpack, char_at, byte_and32, byte_shl24, Nat.add_zero]
  exact lor_bytes4 _ _ _ _ (Nat.mod_lt _ (by norm_num)) (Nat.mod_lt _ (by norm_num))
    (Nat.mod_lt _ (by norm_num))

theorem unpack_u16_eq (cs : Bool) (mem : Mem) (p : Nat) :
    packers_uint16_t.unpack cs mem p = mem p % 256 + 2 ^ 8 * (mem (p + 1) % 256) := by
  simp only [packers_uint16_t.unpack, char_at, byte_and16, Nat.add_zero]
  rw [lor_bytes2 _ _ (Nat.mod_lt _ (by norm_num)), to_unsigned_natCast]
  have := Nat.mod_lt (mem p) (show 0 < 256 by norm_num)
  have := Nat.mod_lt (mem (p+1)) (show 0 < 256 by norm_num)
  omega

theorem pack_u32_apply (v : Nat) (mem : Mem) (out a : Nat) :
    packers_uint32_t.pack v mem out a =
      if a = out then v % 256
      else if a = out + 1 then v / 2 ^ 8 % 256
      else if a = out + 2 then v / 2 ^ 16 % 256
      else if a = out + 3 then v / 2 ^ 24 % 256
      else mem a := by
  simp only [packers_uint32_t.pack, store_apply, to_unsigned_natCast, land_255,
    Nat.shiftRight_eq_div_pow, Nat.add_zero]
  split_ifs <;> first | rfl | omega

theorem pack_u16_apply (v : Nat) (mem : Mem) (out a : Nat) :
    packers_uint16_t.pack v mem out a =
      if a = out then v % 256
      else if a = out + 1 then v / 2 ^ 8 % 256
      else mem a := by
  simp only [packers_uint16_t.pack, store_apply, to_unsigned_natCast, land_255,
    Nat.shiftRight_eq_div_pow, Nat.add_zero]
  split_ifs <;> first | rfl | omega

theorem le_value_lt (mem : Mem) (p n : Nat) : le_value mem p n < 2 ^ (8 * n) := by
  induction n generalizing p with
  | zero => simp [le_value]
  | succ n ih =>
    have := ih (p + 1)
    have h256 := Nat.mod_lt (mem p) (show 0 < 256 by norm_num)
    have e : 2 ^ (8 * (n + 1)) = 256 * 2 ^ (8 * n) := by
      rw [Nat.mul_add, Nat.pow_add]; norm_num; ring
    simp only [le_value, e]
    omega

theorem le_value_one (mem : Mem) (p : Nat) : le_value mem p 1 = mem p % 256 := by
  simp [le_value]

theorem le_value_two (mem : Mem) (p : Nat) :
    le_value mem p 2 = mem p % 256 + 2 ^ 8 * (mem (p + 1) % 256) := by
  simp [le_value]

theorem le_value_four (mem : Mem) (p : Nat) :
    le_value mem p 4 = mem p % 256 + 2 ^ 8 * (mem (p + 1) % 256) + 2 ^ 16 * (mem (p + 2) % 256)
        + 2 ^ 24 * (mem (p + 3) % 256) := by
  simp only [le_value, Nat.add_assoc]
  norm_num; ring

theorem unpack_eq (cs : Bool) (T : IntType) (mem : Mem) (p : Nat) :
    packers.unpack cs T mem p = T.cast cs (le_value mem p T.sizeof) := by
  have h0 := Nat.mod_lt (mem p) (show 0 < 256 by norm_num)
  have h1 := Nat.mod_lt (mem (p + 1)) (show 0 < 256 by norm_num)
  have h2 := Nat.mod_lt (mem (p + 2)) (show 0 < 256 by norm_num)
  have h3 := Nat.mod_lt (mem (p + 3)) (show 0 < 256 by norm_num)
  cases T
  · simp only [packers.unpack, IntType.cast, IntType.is_signed, IntType.sizeof, le_value_four,
      unpack_u32_eq, to_unsigned_natCast, Bool.false_eq_true, if_false]
    congr 1
    norm_num; omega
  · simp only [packers.unpack, IntType.cast, IntType.is_signed, IntType.sizeof, le_value_two,
      unpack_u16_eq, to_unsigned_natCast, Bool.false_eq_true, if_false]
    congr 1
    norm_num; omega
  · simp only [packers.unpack, IntType.cast, IntType.is_signed, IntType.sizeof, le_value_one,
      packers_uint8_t.unpack, char_at, byte_u8, to_unsigned_natCast, Bool.false_eq_true, if_false,
      Nat.add_zero]
    congr 1
    norm_num
  · simp only [packers.unpack, packers_int32_t.unpack, IntType.cast, IntType.is_signed,
      IntType.sizeof, le_value_four, unpack_u32_eq, if_true]
  · simp only [packers.unpack, packers_int16_t.unpack, IntType.cast, IntType.is_signed,
      IntType.sizeof, le_value_two, unpack_u16_eq, if_true]
  · simp only [packers.unpack, packers_int8_t.unpack, IntType.cast, IntType.is_signed,
      IntType.sizeof, le_value_one, char_at, byte_s8, if_true, Nat.add_zero]
  · simp only [packers.unpack, packers_char.unpack, IntType.cast, IntType.is_signed,
      IntType.sizeof, le_value_one, char_at, Nat.add_zero]
    rw [← char_value_mod, (byte_facts cs _ h0).2.2.2.2.2]
    cases cs
    · simp only [Bool.false_eq_true, if_false, to_unsigned_natCast]
      norm_num
    · simp

theorem pack_apply (T : IntType) (v : Int) (mem : Mem) (q a : Nat) :
    packers.pack T v mem q a =
      if q ≤ a ∧ a < q + T.sizeof then
        to_unsigned (8 * T.sizeof) v / 2 ^ (8 * (a - q)) % 256
      else mem a := by
  cases T <;>
    simp only [packers.pack, packers_int32_t.pack, packers_int16_t.pack, packers_int8_t.pack,
      packers_char.pack, packers_uint8_t.pack, pack_u32_apply, pack_u16_apply, store_apply,
      IntType.sizeof, to_unsigned_natCast, Nat.add_zero]
  all_goals
    have hu := to_unsigned_lt 8 v
    split_ifs <;> first
      | omega
      | rfl
      | (subst_vars; norm_num; done)
      | (subst_vars; norm_num at hu ⊢; omega)

theorem pow_eight_succ (n : Nat) : 2 ^ (8 * (n + 1)) = 256 * 2 ^ (8 * n) := by
  rw [Nat.mul_add, Nat.pow_add]; norm_num; ring

theorem le_value_byte (mem : Mem) (p n i : Nat) (hi : i < n) :
    le_value mem p n / 2 ^ (8 * i) % 256 = mem (p + i) % 256 := by
  induction n generalizing p i with
  | zero => omega
  | succ n ih =>
    cases i with
    | zero =>
      simp only [le_value, Nat.mul_zero, Nat.pow_zero, Nat.div_one, Nat.add_zero]
      omega
    | succ i =>
      have := ih (p + 1) i (by omega)
      rw [pow_eight_succ, ← Nat.div_div_eq_div_mul]
      have e : le_value mem p (n + 1) / 256 = le_value mem (p + 1) n := by
        simp only [le_value]; omega
      rw [e, this]
      congr 2; omega

theorem le_value_of_bytes (mem : Mem) (q n x : Nat)
    (h : ∀ i, i < n → mem (q + i) % 256 = x / 2 ^ (8 * i) % 256) :
    le_value mem q n = x % 2 ^ (8 * n) := by
  induction n generalizing q x with
  | zero => simp [le_value, Nat.mod_one]
  | succ n ih =>
    have h0 := h 0 (by omega)
    simp only [Nat.mul_zero, Nat.pow_zero, Nat.div_one, Nat.add_zero] at h0
    have hrec := ih (q + 1) (x / 256) (fun i hi => by
      have := h (i + 1) (by omega)
      rw [pow_eight_succ, ← Nat.div_div_eq_div_mul] at this
      rw [← this]; congr 2; omega)
    simp only [le_value, h0, hrec, pow_eight_succ]
    rw [Nat.mod_mul]

theorem le_value_congr (m m' : Mem) (p q n : Nat)
    (h : ∀ i, i < n → m (p + i) % 256 = m' (q + i) % 256) :
    le_value m p n = le_value m' q n := by
  have := le_value_of_bytes m p n (le_value m' q n) (fun i hi => by
    rw [le_value_byte _ _ _ _ hi]; exact h i hi)
  rw [this, Nat.mod_eq_of_lt (le_value_lt _ _ _)]

theorem cast_congr (cs : Bool) (T : IntType) (x y : Int)
    (h : x % 2 ^ (8 * T.sizeof) = y % 2 ^ (8 * T.sizeof)) : T.cast cs x = T.cast cs y := by
  simp only [IntType.cast, to_signed, to_unsigned, h]

theorem to_unsigned_emod (w : Nat) (x : Int) : ((to_unsigned w x : Nat) : Int) % 2 ^ w = x % 2 ^ w := by
  unfold to_unsigned
  have h : (0 : Int) < 2 ^ w := by positivity
  rw [Int.toNat_of_nonneg (Int.emod_nonneg x (ne_of_gt h)), Int.emod_emod_of_dvd _ (dvd_refl _)]

theorem cast_of_inRange (cs : Bool) (T : IntType) (v : Int) (h : T.InRange cs v) :
    T.cast cs v = v := by
  cases T <;> cases cs <;>
    simp only [IntType.InRange, IntType.is_signed, IntType.sizeof, Bool.false_eq_true, if_false,
      if_true] at h <;>
    simp only [IntType.cast, IntType.is_signed, IntType.sizeof, to_signed, to_unsigned,
      Bool.false_eq_true, if_false, if_true] <;>
    norm_num at h ⊢ <;> (try split_ifs) <;> omega

theorem cast_inRange (cs : Bool) (T : IntType) (x : Int) : T.InRange cs (T.cast cs x) := by
  cases T <;> cases cs <;>
    simp only [IntType.InRange, IntType.cast, IntType.is_signed, IntType.sizeof, to_signed,
      to_unsigned, Bool.false_eq_true, if_false, if_true] <;>
    norm_num <;> (try split_ifs) <;> omega

theorem to_unsigned_cast (cs : Bool) (T : IntType) (x : Int) :
    to_unsigned (8 * T.sizeof) (T.cast cs x) = to_unsigned (8 * T.sizeof) x := by
  cases T <;> cases cs <;>
    simp only [IntType.cast, IntType.is_signed, IntType.sizeof, to_signed,
      to_unsigned, Bool.false_eq_true, if_false, if_true] <;>
    norm_num <;> (try split_ifs) <;> omega

theorem unpack_inRange (cs : Bool) (T : IntType) (mem : Mem) (p : Nat) :
    T.InRange cs (packers.unpack cs T mem p) := by
  rw [unpack_eq]; exact cast_inRange _ _ _

theorem unpack_congr (cs : Bool) (T : IntType) (m m' : Mem) (p q : Nat)
    (h : ∀ i, i < T.sizeof → m (p + i) % 256 = m' (q + i) % 256) :
    packers.unpack cs T m p = packers.unpack cs T m' q := by
  rw [unpack_eq, unpack_eq, le_value_congr m m' p q _ h]

theorem pack_frame (T : IntType) (v : Int) (mem : Mem) (q a : Nat)
    (h : a < q ∨ q + T.sizeof ≤ a) : packers.pack T v mem q a = mem a := by
  rw [pack_apply, if_neg (by omega)]

theorem pack_byte (T : IntType) (v : Int) (mem : Mem) (q i : Nat) (h : i < T.sizeof) :
    packers.pack T v mem q (q + i) = to_unsigned (8 * T.sizeof) v / 2 ^ (8 * i) % 256 := by
  rw [pack_apply, if_pos (by omega), Nat.add_sub_cancel_left]

theorem unpack_pack (cs : Bool) (T : IntType) (v : Int) (mem : Mem) (q : Nat) :
    packers.unpack cs T (packers.pack T v mem q) q = T.cast cs v := by
  rw [unpack_eq, le_value_of_bytes _ q T.sizeof (to_unsigned (8 * T.sizeof) v) (fun i hi => by
    rw [pack_byte _ _ _ _ _ hi, Nat.mod_mod]),
    Nat.mod_eq_of_lt (to_unsigned_lt _ _)]
  exact cast_congr _ _ _ _ (to_unsigned_emod _ _)

theorem pack_unpack_byte (cs : Bool) (T : IntType) (mem mem' : Mem) (p q i : Nat)
    (hi : i < T.sizeof) :
    packers.pack T (packers.unpack cs T mem p) mem' q (q + i) = mem (p + i) % 256 := by
  rw [pack_byte _ _ _ _ _ hi, unpack_eq, to_unsigned_cast, to_unsigned_natCast,
    Nat.mod_eq_of_lt (le_value_lt _ _ _), le_value_byte _ _ _ _ hi]

/-- C3 (integer packer round trip): for each of the seven integer types `T` and
every value `v` of `T`, `packers<T>::unpack` applied to the bytes written by
`packers<T>::pack(v)` returns `v`, whatever the buffer held before and whether
or not plain `char` is signed. -/
theorem packers_unpack_pack (cs : Bool) (T : IntType) (v : Int) (hv : T.InRange cs v)
    (mem : Mem) (out : Nat) :
    packers.unpack cs T (packers.pack T v mem out) out = v := by
  rw [unpack_pack, cast_of_inRange cs T v hv]

/-- Witness of `packers_unpack_pack`: the boundary values of `int32_t`. -/
theorem packers_unpack_pack_witness :
    IntType.InRange true .int32_t (-1) ∧
      packers.unpack true .int32_t (packers.pack .int32_t (-1) (fun _ => 0) 0) 0 = -1 ∧
      packers.unpack true .int32_t (packers.pack .int32_t (-2147483648) (fun _ => 0) 0) 0
        = -2147483648 ∧
      packers.unpack true .int32_t (packers.pack .int32_t 2147483647 (fun _ => 0) 0) 0
        = 2147483647 :=
  ⟨by decide, packers_unpack_pack true .int32_t (-1) (by decide) _ _,
    packers_unpack_pack true .int32_t (-2147483648) (by decide) _ _,
    packers_unpack_pack true .int32_t 2147483647 (by decide) _ _⟩

/-- C5 (little-endian layout): `packers<uint32_t>::pack` writes
`out[i] = (v >> 8*i) mod 256` for `i = 0..3` and `packers<uint32_t>::unpack`
returns `u0 + 2^8*u1 + 2^16*u2 + 2^24*u3`, with `u_i` the byte at `in[i]` taken
as an unsigned value, also when `char` is signed; likewise for `uint16_t` with
two bytes; the signed packers give the two's complement image of the same
bytes. -/
theorem packers_little_endian (cs : Bool) (mem : Mem) (p : Nat) :
    (∀ v : Nat,
      packers_uint32_t.pack v mem p p = (v >>> 0) % 256 ∧
      packers_uint32_t.pack v mem p (p + 1) = (v >>> 8) % 256 ∧
      packers_uint32_t.pack v mem p (p + 2) = (v >>> 16) % 256 ∧
      packers_uint32_t.pack v mem p (p + 3) = (v >>> 24) % 256) ∧
    packers_uint32_t.unpack cs mem p
      = mem p % 256 + 2 ^ 8 * (mem (p + 1) % 256) + 2 ^ 16 * (mem (p + 2) % 256)
        + 2 ^ 24 * (mem (p + 3) % 256) ∧
    (∀ v : Nat,
      packers_uint16_t.pack v mem p p = (v >>> 0) % 256 ∧
      packers_uint16_t.pack v mem p (p + 1) = (v >>> 8) % 256) ∧
    packers_uint16_t.unpack cs mem p = mem p % 256 + 2 ^ 8 * (mem (p + 1) % 256) ∧
    (∀ t : Int, packers_int32_t.pack t mem p = packers_uint32_t.pack (to_unsigned 32 t) mem p) ∧
    packers_int32_t.unpack cs mem p
      = to_signed 32 ((mem p % 256 + 2 ^ 8 * (mem (p + 1) % 256) + 2 ^ 16 * (mem (p + 2) % 256)
        + 2 ^ 24 * (mem (p + 3) % 256) : Nat) : Int) ∧
    (∀ t : Int, packers_int16_t.pack t mem p = packers_uint16_t.pack (to_unsigned 16 t) mem p) ∧
    packers_int16_t.unpack cs mem p
      = to_signed 16 ((mem p % 256 + 2 ^ 8 * (mem (p + 1) % 256) : Nat) : Int) := by
  refine ⟨fun v => ?_, unpack_u32_eq cs mem p, fun v => ?_, unpack_u16_eq cs mem p,
    fun _ => rfl, ?_, fun _ => rfl, ?_⟩
  · simp only [pack_u32_apply, Nat.shiftRight_eq_div_pow]
    refine ⟨by simp, ?_, ?_, ?_⟩ <;> split_ifs <;> first | rfl | omega
  · simp only [pack_u16_apply, Nat.shiftRight_eq_div_pow]
    refine ⟨by simp, ?_⟩
    split_ifs <;> first | rfl | omega
  · simp only [packers_int32_t.unpack, unpack_u32_eq]
  · simp only [packers_int16_t.unpack, unpack_u16_eq]

/-- C4 (failing inputs of the `double` packer): for `0.5`, for negative zero
and for `1.9999999999999998` (all mantissa bits set) `packers<double>::pack`
writes the bytes of the truncated integer value (`0`, `0`, `1`), so
`packers<double>::unpack` of the written bytes has a bit pattern different
from that of the packed value. -/
theorem packers_double_not_bit_exact :
    (packers_double.pack 0x3FE0000000000000 (fun _ => 0) 0).map
        (fun m => packers_double.unpack true m 0) = some 0 ∧
    (packers_double.pack 0x8000000000000000 (fun _ => 0) 0).map
        (fun m => packers_double.unpack true m 0) = some 0 ∧
    (packers_double.pack 0x3FFFFFFFFFFFFFFF (fun _ => 0) 0).map
        (fun m => packers_double.unpack true m 0) = some 1 ∧
    (packers_double.pack 0x3FE0000000000000 (fun _ => 0) 0).map
        (fun m => readBytes m 0 8) = some [0, 0, 0, 0, 0, 0, 0, 0] := by
  decide

/-- C8 (predictor contract): a fresh `standard_diff_method` has no value; after
any non-empty sequence of `push` calls, from any state, the state is exactly
"has a value, the last pushed one"; once `have_value()` is true no sequence of
`push` calls makes it false. -/
theorem standard_diff_method_contract :
    standard_diff_method.new.have_value = false ∧
    (∀ (s : standard_diff_method) (vs : List Int) (v : Int),
      (vs ++ [v]).foldl standard_diff_method.push s = { value := v, have_value_ := true }) ∧
    (∀ (s : standard_diff_method) (vs : List Int),
      s.have_value = true → (vs.foldl standard_diff_method.push s).have_value = true) := by
  have hpush : ∀ (s : standard_diff_method) (v : Int),
      s.push v = { value := v, have_value_ := true } := by
    intro s v
    rcases s with ⟨x, _ | _⟩ <;> rfl
  refine ⟨rfl, fun s vs v => ?_, fun s vs => ?_⟩
  · rw [List.foldl_append, List.foldl_cons, List.foldl_nil, hpush]
  · induction vs generalizing s with
    | nil => exact id
    | cons v vs ih => intro _; rw [List.foldl_cons]; exact ih _ (by rw [hpush]; rfl)

/-! ## Memory -/

theorem readBytes_length (m : Mem) (p n : Nat) : (readBytes m p n).length = n := by
  induction n generalizing p with
  | zero => rfl
  | succ n ih => simp [readBytes, ih]

theorem readBytes_congr (m m' : Mem) (p q n : Nat)
    (h : ∀ i, i < n → m (p + i) % 256 = m' (q + i) % 256) :
    readBytes m p n = readBytes m' q n := by
  induction n generalizing p q with
  | zero => rfl
  | succ n ih =>
    simp only [readBytes]
    have h0 := h 0 (by omega)
    simp only [Nat.add_zero] at h0
    rw [h0, ih (p + 1) (q + 1) (fun i hi => by
      have := h (i + 1) (by omega)
      rwa [show p + (i + 1) = p + 1 + i by omega, show q + (i + 1) = q + 1 + i by omega] at this)]

theorem readBytes_add (m : Mem) (p a b : Nat) :
    readBytes m p (a + b) = readBytes m p a ++ readBytes m (p + a) b := by
  induction a generalizing p with
  | zero => simp [readBytes]
  | succ a ih =>
    rw [show a + 1 + b = (a + b) + 1 by omega]
    simp only [readBytes, List.cons_append, ih]
    rw [show p + 1 + a = p + (a + 1) by omega]

theorem readBytes_lt (m : Mem) (p n b : Nat) (h : b ∈ readBytes m p n) : b < 256 := by
  induction n generalizing p with
  | zero => simp [readBytes] at h
  | succ n ih =>
    simp only [readBytes, List.mem_cons] at h
    rcases h with rfl | h
    · exact Nat.mod_lt _ (by norm_num)
    · exact ih _ h

theorem writeBytes_frame (m : Mem) (p : Nat) (bs : List Nat) (a : Nat)
    (h : a < p ∨ p + bs.length ≤ a) : writeBytes m p bs a = m a := by
  induction bs generalizing m p with
  | nil => rfl
  | cons b bs ih =>
    simp only [writeBytes, List.length_cons] at h ⊢
    rw [ih _ _ (by omega), if_neg (by omega)]

theorem readBytes_writeBytes (m : Mem) (p : Nat) (bs : List Nat) (h : ∀ b ∈ bs, b < 256) :
    readBytes (writeBytes m p bs) p bs.length = bs := by
  induction bs generalizing m p with
  | nil => rfl
  | cons b bs ih =>
    simp only [writeBytes, List.length_cons, readBytes]
    rw [ih _ _ (fun x hx => h x (List.mem_cons_of_mem _ hx)),
      writeBytes_frame _ _ _ _ (by omega), if_pos rfl, Nat.mod_mod,
      Nat.mod_eq_of_lt (h b (List.mem_cons_self _ _))]

theorem readBytes_readBytes (m m' : Mem) (p q n i : Nat) (hi : i < n)
    (h : readBytes m p n = readBytes m' q n) : m (p + i) % 256 = m' (q + i) % 256 := by
  induction n generalizing p q i with
  | zero => omega
  | succ n ih =>
    simp only [readBytes, List.cons.injEq] at h
    cases i with
    | zero => simpa using h.1
    | succ i =>
      have := ih (p + 1) (q + 1) i (by omega) h.2
      rwa [show p + 1 + i = p + (i + 1) by omega, show q + 1 + i = q + (i + 1) by omega] at this

/-! ## Encoder runs -/

theorem Encoder_run_append {ε : Type} (E : Encoder ε) (a b : List EncOp) (e : ε) :
    E.run (a ++ b) e = E.run b (E.run a e) := by
  induction a generalizing e with
  | nil => rfl
  | cons op a ih => exact ih _

theorem Encoder_run_log (ops l : List EncOp) : Encoder.log.run ops l = l ++ ops := by
  induction ops generalizing l with
  | nil => simp [Encoder.run]
  | cons op ops ih =>
    simp only [Encoder.run, ih]
    cases op <;> simp [Encoder.step, Encoder.log]

/-! ## Fields -/

theorem field_compressWith_eq {ε : Type} (cs : Bool) (E : Encoder ε) (T : IntType) (f : field)
    (e : ε) (mem : Mem) (buf : Nat) :
    f.compressWith cs E T e mem buf
      = (f.pushed (packers.unpack cs T mem buf), E.run (f.compress_ops cs T mem buf) e,
          buf + T.sizeof) := by
  rcases f with ⟨c, d, ci, di, ⟨v, hv⟩⟩
  cases ci <;> cases hv <;> rfl

theorem base_field_compressRaw_eq {ε : Type} (cs : Bool) (E : Encoder ε) (f : base_field)
    (e : ε) (mem : Mem) (p : Nat) :
    f.compressRaw cs E e mem p
      = (f.after_compress cs mem p, E.run (f.compress_ops cs mem p) e, p + f.compress_size) := by
  cases f with
  | dynamic_compressor_field T f =>
    simp only [base_field.compressRaw, field_compressWith_eq, base_field.after_compress,
      base_field.compress_ops, base_field.compress_size]
  | dynamic_decompressor_field T f => rfl

theorem compress_loop_eq {ε : Type} (cs : Bool) (E : Encoder ε) (fs : List base_field)
    (e : ε) (mem : Mem) (p : Nat) :
    dynamic_field_compressor.compress_loop cs E fs e mem p
      = (fields_after cs fs mem p, E.run (fields_ops cs fs mem p) e, p + fields_size fs) := by
  induction fs generalizing e p with
  | nil => rfl
  | cons f fs ih =>
    simp only [dynamic_field_compressor.compress_loop, base_field_compressRaw_eq, ih,
      fields_after, fields_ops, Encoder_run_append, fields_size, List.map_cons, List.sum_cons,
      Nat.add_assoc]

theorem dynamic_compress_records_eq {ε : Type} (cs : Bool) (E : Encoder ε)
    (c : dynamic_field_compressor ε) (mem : Mem) (data : Nat) (recs : List (List Nat)) :
    (dynamic.compress_records cs E c mem data recs).1.encoder_
      = E.run (records_ops cs c.fields_ mem data recs) c.encoder_ := by
  induction recs generalizing c mem with
  | nil => rfl
  | cons r rs ih =>
    simp only [dynamic.compress_records, ih, dynamic_field_compressor.compress, compress_loop_eq,
      records_ops, Encoder_run_append]

/-! ## Decoding what was encoded -/

theorem field_Sync_pushed {T : IntType} {fc fd : field} (h : field.Sync T fc fd) (v : Int) :
    field.Sync T (fc.pushed v) (fd.pushed v) := by
  rcases fc with ⟨c, d, ci, di, ⟨x, hx⟩⟩
  rcases fd with ⟨c', d', ci', di', ⟨x', hx'⟩⟩
  rcases h with ⟨h1, h2, h3, _, _⟩
  refine ⟨h1, h2, h3, ?_, fun _ => ?_⟩
  · cases hx <;> cases hx' <;> rfl
  · cases hx <;> cases hx' <;> rfl

theorem writeBytes_readBytes (omem mem : Mem) (obuf buf n i : Nat) (hi : i < n) :
    writeBytes omem obuf (readBytes mem buf n) (obuf + i) = mem (buf + i) % 256 := by
  induction n generalizing omem obuf buf i with
  | zero => omega
  | succ n ih =>
    simp only [readBytes, writeBytes]
    cases i with
    | zero =>
      rw [writeBytes_frame _ _ _ _ (by omega)]
      simp
    | succ i =>
      have := ih (fun a => if a = obuf then mem buf % 256 % 256 else omem a) (obuf + 1) (buf + 1)
        i (by omega)
      rwa [show obuf + 1 + i = obuf + (i + 1) by omega,
        show buf + 1 + i = buf + (i + 1) by omega] at this

theorem field_decompressWith_sync {δ : Type} (cs : Bool) (D : Decoder δ)
    (R : List EncOp → δ → Prop) (T : IntType) (fc fd : field)
    (hD : (fc.differ_.have_value_ = false ∧ RawFaithful D R) ∨
      (fc.differ_.have_value_ = true ∧ CodedFaithful D R))
    (hs : field.Sync T fc fd) (mem : Mem) (buf : Nat) (rest : List EncOp) (d : δ)
    (hR : R (fc.compress_ops cs T mem buf ++ rest) d) (omem : Mem) (obuf : Nat) :
    R rest (fd.decompressWith cs D T d omem obuf).2.1 ∧
    (∀ i, i < T.sizeof →
      (fd.decompressWith cs D T d omem obuf).2.2.1 (obuf + i) = mem (buf + i) % 256) ∧
    (∀ a, a < obuf ∨ obuf + T.sizeof ≤ a →
      (fd.decompressWith cs D T d omem obuf).2.2.1 a = omem a) ∧
    (fd.decompressWith cs D T d omem obuf).2.2.2 = obuf + T.sizeof ∧
    field.Sync T (fc.pushed (packers.unpack cs T mem buf))
      (fd.decompressWith cs D T d omem obuf).1 := by
  obtain ⟨hc, hdw, hinit, hhv, hval⟩ := hs
  have hDinit : ∀ bits ops d, R (EncOp.init bits :: ops) d → R ops (D.init bits d) :=
    hD.elim (fun h => h.2.init) (fun h => h.2.init)
  -- the decoder after the optional `init`
  have hR1 : R ((if fc.differ_.have_value then
        EncOp.compress fc.compressor_ fc.differ_.value (packers.unpack cs T mem buf) 0
      else EncOp.putBytes (readBytes mem buf T.sizeof)) :: rest)
      (if !fd.decompressor_inited_ then D.init fd.decompressor_ d else d) := by
    unfold field.compress_ops at hR
    rw [hinit, hdw, ← hc]
    cases hci : fc.compressor_inited_
    · rw [hci] at hR
      exact hDinit _ _ _ hR
    · rw [hci] at hR
      exact hR
  have hpush : field.Sync T (fc.pushed (packers.unpack cs T mem buf))
      (fd.pushed (packers.unpack cs T mem buf)) := field_Sync_pushed ⟨hc, hdw, hinit, hhv, hval⟩ _
  cases hv : fc.differ_.have_value_
  · -- raw path
    have hvd : fd.differ_.have_value = false := by
      simp only [standard_diff_method.have_value, hhv, hv]
    simp only [standard_diff_method.have_value, hv, Bool.false_eq_true, if_false] at hR1
    have hlen : (readBytes mem buf T.sizeof).length = T.sizeof := readBytes_length _ _ _
    have hRaw : RawFaithful D R := by
      rcases hD with h | h
      · exact h.2
      · rw [hv] at h; exact absurd h.1 (by decide)
    have hget := hRaw.putBytes _ _ _ hR1
    rw [hlen] at hget
    have hmem : ∀ i, i < T.sizeof →
        writeBytes omem obuf (readBytes mem buf T.sizeof) (obuf + i) = mem (buf + i) % 256 :=
      fun i hi => writeBytes_readBytes _ _ _ _ _ _ hi
    simp only [field.decompressWith, hvd, Bool.false_eq_true, if_false, hget.1]
    refine ⟨hget.2, hmem, fun a ha => ?_, by first | rfl | trivial, ?_⟩
    · exact writeBytes_frame _ _ _ _ (by rw [hlen]; exact ha)
    · rw [unpack_congr cs T _ mem obuf buf (fun i hi => by rw [hmem i hi, Nat.mod_mod])]
      exact hpush
  · -- coded path
    have hvd : fd.differ_.have_value = true := by
      simp only [standard_diff_method.have_value, hhv, hv]
    simp only [standard_diff_method.have_value, hv, if_true] at hR1
    rw [← hval hv, hc, ← hdw] at hR1
    have hF : CodedFaithful D R := by
      rcases hD with h | h
      · rw [hv] at h; exact absurd h.1 (by decide)
      · exact h.2
    have hdec := hF.compress _ _ _ _ _ hR1
    have hr : T.cast cs (D.decompress fd.decompressor_ fd.differ_.value 0
        (if !fd.decompressor_inited_ then D.init fd.decompressor_ d else d)).1
        = packers.unpack cs T mem buf := by
      have e := hdec.1
      rw [hdw] at e ⊢
      exact (cast_congr cs T _ (packers.unpack cs T mem buf) e).trans
        (cast_of_inRange _ _ _ (unpack_inRange _ _ _ _))
    simp only [field.decompressWith, hvd, if_true, hr]
    refine ⟨hdec.2, fun i hi => pack_unpack_byte _ _ _ _ _ _ _ hi,
      fun a ha => pack_frame _ _ _ _ _ ha, by first | rfl | trivial, hpush⟩

theorem fields_size_cons (f : base_field) (fs : List base_field) :
    fields_size (f :: fs) = f.compress_size + fields_size fs := by
  simp [fields_size]

theorem fields_size_after (cs : Bool) (fs : List base_field) (mem : Mem) (p : Nat) :
    fields_size (fields_after cs fs mem p) = fields_size fs := by
  induction fs generalizing p with
  | nil => rfl
  | cons f fs ih =>
    simp only [fields_after, fields_size_cons, ih]
    cases f <;> rfl

theorem decompress_loop_sync {δ : Type} (cs : Bool) (D : Decoder δ)
    (R : List EncOp → δ → Prop) (cfs dfs : List base_field)
    (hD : ((∀ f ∈ cfs, f.field_.differ_.have_value_ = false) ∧ RawFaithful D R) ∨
      ((∀ f ∈ cfs, f.field_.differ_.have_value_ = true) ∧ CodedFaithful D R))
    (hs : List.Forall₂ base_field.Sync cfs dfs) (mem : Mem) (buf : Nat) (rest : List EncOp)
    (d : δ) (hR : R (fields_ops cs cfs mem buf ++ rest) d) (omem : Mem) (obuf : Nat) :
    R rest (dynamic_field_decompressor.decompress_loop cs D dfs d omem obuf).2.1 ∧
    (∀ i, i < fields_size cfs →
      (dynamic_field_decompressor.decompress_loop cs D dfs d omem obuf).2.2.1 (obuf + i)
        = mem (buf + i) % 256) ∧
    (∀ a, a < obuf ∨ obuf + fields_size cfs ≤ a →
      (dynamic_field_decompressor.decompress_loop cs D dfs d omem obuf).2.2.1 a = omem a) ∧
    (dynamic_field_decompressor.decompress_loop cs D dfs d omem obuf).2.2.2
      = obuf + fields_size cfs ∧
    List.Forall₂ base_field.Sync (fields_after cs cfs mem buf)
      (dynamic_field_decompressor.decompress_loop cs D dfs d omem obuf).1 := by
  induction hs generalizing buf d omem obuf with
  | nil =>
    exact ⟨by simpa [fields_ops] using hR, fun i hi => by simp [fields_size] at hi,
      fun _ _ => rfl, rfl, List.Forall₂.nil⟩
  | @cons f g cfs dfs hfg _ ih =>
    cases f with
    | dynamic_decompressor_field T fc => exact absurd hfg (by simp [base_field.Sync])
    | dynamic_compressor_field T fc =>
      cases g with
      | dynamic_compressor_field U fd => exact absurd hfg (by simp [base_field.Sync])
      | dynamic_decompressor_field U fd =>
        obtain ⟨rfl, hsync⟩ := hfg
        simp only [fields_ops, base_field.compress_ops, base_field.compress_size,
          List.append_assoc] at hR
        obtain ⟨h1, h2, h3, h4, h5⟩ :=
          field_decompressWith_sync cs D R T fc fd
            (hD.imp (fun h => ⟨h.1 _ (List.mem_cons_self _ _), h.2⟩)
              (fun h => ⟨h.1 _ (List.mem_cons_self _ _), h.2⟩)) hsync mem buf _ d hR
            omem obuf
        obtain ⟨k1, k2, k3, k4, k5⟩ := ih
          (hD.imp (fun h => ⟨fun f hf => h.1 f (List.mem_cons_of_mem _ hf), h.2⟩)
            (fun h => ⟨fun f hf => h.1 f (List.mem_cons_of_mem _ hf), h.2⟩))
          (buf + T.sizeof) _ h1
          (fd.decompressWith cs D T d omem obuf).2.2.1 (obuf + T.sizeof)
        simp only [dynamic_field_decompressor.decompress_loop, base_field.decompressRaw,
          fields_size_cons, base_field.compress_size, fields_after, base_field.after_compress,
          h4]
        refine ⟨k1, fun i hi => ?_, fun a ha => ?_, ?_, List.Forall₂.cons ⟨rfl, h5⟩ k5⟩
        · by_cases hlt : i < T.sizeof
          · rw [k3 _ (by omega), h2 i hlt]
          · have := k2 (i - T.sizeof) (by omega)
            rwa [show obuf + T.sizeof + (i - T.sizeof) = obuf + i by omega,
              show buf + T.sizeof + (i - T.sizeof) = buf + i by omega] at this
        · rw [k3 _ (by omega), h3 _ (by omega)]
        · rw [k4]; omega

theorem fields_after_have_value (cs : Bool) (cfs dfs : List base_field)
    (hs : List.Forall₂ base_field.Sync cfs dfs) (mem : Mem) (p : Nat) :
    ∀ f ∈ fields_after cs cfs mem p, f.field_.differ_.have_value_ = true := by
  induction hs generalizing p with
  | nil => intro f hf; simp [fields_after] at hf
  | @cons f g cfs dfs hfg _ ih =>
    cases f with
    | dynamic_decompressor_field T fc => exact absurd hfg (by simp [base_field.Sync])
    | dynamic_compressor_field T fc =>
      intro x hx
      simp only [fields_after, List.mem_cons] at hx
      rcases hx with rfl | hx
      · rcases fc with ⟨c, d, ci, di, ⟨v, hv⟩⟩
        cases hv <;> rfl
      · exact ih _ x hx

theorem decompress_records_coded {δ : Type} (cs : Bool) (D : Decoder δ)
    (R : List EncOp → δ → Prop) (hD : CodedFaithful D R) (size : Nat)
    (recs : List (List Nat)) (hrecs : ∀ r ∈ recs, r.length = size ∧ ∀ b ∈ r, b < 256)
    (cfs dfs : List base_field) (hs : List.Forall₂ base_field.Sync cfs dfs)
    (hv : ∀ f ∈ cfs, f.field_.differ_.have_value_ = true)
    (hsize : fields_size cfs = size) (mem : Mem) (data : Nat) (rest : List EncOp) (d : δ)
    (hR : R (records_ops cs cfs mem data recs ++ rest) d) (omem : Mem) (out : Nat) :
    (dynamic.decompress_records cs D { decoder_ := d, fields_ := dfs, first_decomp_ := false }
      omem out size recs.length).2.2 = recs := by
  induction recs generalizing cfs dfs mem d omem with
  | nil => rfl
  | cons r rs ih =>
    obtain ⟨hlen, hbytes⟩ := hrecs r (List.mem_cons_self _ _)
    simp only [records_ops, List.append_assoc] at hR
    obtain ⟨h1, h2, _, _, h5⟩ := decompress_loop_sync cs D R cfs dfs
      (Or.inr ⟨hv, hD⟩) hs (writeBytes mem data r) data _ d hR omem out
    have hrec : readBytes (dynamic_field_decompressor.decompress_loop cs D dfs d omem out).2.2.1
        out size = r := by
      rw [readBytes_congr _ (writeBytes mem data r) out data size (fun i hi => by
        rw [h2 i (by omega), Nat.mod_mod])]
      rw [← hlen]
      exact readBytes_writeBytes _ _ _ hbytes
    have hrest : ∀ r' ∈ rs, r'.length = size ∧ ∀ b ∈ r', b < 256 :=
      fun r' hr' => hrecs r' (List.mem_cons_of_mem _ hr')
    have hsz : fields_size (fields_after cs cfs (writeBytes mem data r) data) = size := by
      rw [fields_size_after, hsize]
    simp only [List.length_cons, dynamic.decompress_records,
      dynamic_field_decompressor.decompress, Bool.false_eq_true, if_false, hrec]
    rw [ih hrest _ _ h5 (fields_after_have_value cs cfs dfs hs _ _) hsz _ _ h1]

theorem decompress_records_sync {δ : Type} (cs : Bool) (D : Decoder δ)
    (R0 R1 : List EncOp → δ → Prop) (hD : Faithful D R0 R1) (size : Nat)
    (recs : List (List Nat)) (hrecs : ∀ r ∈ recs, r.length = size ∧ ∀ b ∈ r, b < 256)
    (cfs dfs : List base_field) (hs : List.Forall₂ base_field.Sync cfs dfs)
    (hv : ∀ f ∈ cfs, f.field_.differ_.have_value_ = false)
    (hsize : fields_size cfs = size) (mem : Mem) (data : Nat) (rest : List EncOp) (d : δ)
    (hR : R0 (records_ops cs cfs mem data recs ++ rest) d) (omem : Mem) (out : Nat) :
    (dynamic.decompress_records cs D { decoder_ := d, fields_ := dfs, first_decomp_ := true }
      omem out size recs.length).2.2 = recs := by
  cases recs with
  | nil => rfl
  | cons r rs =>
    obtain ⟨hlen, hbytes⟩ := hrecs r (List.mem_cons_self _ _)
    simp only [records_ops, List.append_assoc] at hR
    obtain ⟨h1, h2, _, _, h5⟩ := decompress_loop_sync cs D R0 cfs dfs
      (Or.inl ⟨hv, hD.raw⟩) hs (writeBytes mem data r) data _ d hR omem out
    have hrec : readBytes (dynamic_field_decompressor.decompress_loop cs D dfs d omem out).2.2.1
        out size = r := by
      rw [readBytes_congr _ (writeBytes mem data r) out data size (fun i hi => by
        rw [h2 i (by omega), Nat.mod_mod])]
      rw [← hlen]
      exact readBytes_writeBytes _ _ _ hbytes
    have hrest : ∀ r' ∈ rs, r'.length = size ∧ ∀ b ∈ r', b < 256 :=
      fun r' hr' => hrecs r' (List.mem_cons_of_mem _ hr')
    have hsz : fields_size (fields_after cs cfs (writeBytes mem data r) data) = size := by
      rw [fields_size_after, hsize]
    simp only [List.length_cons, dynamic.decompress_records,
      dynamic_field_decompressor.decompress, if_true, hrec]
    rw [decompress_records_coded cs D R1 hD.coded size rs hrest _ _ h5
      (fields_after_have_value cs cfs dfs hs _ _) hsz _ _ _ _
      (hD.readInitBytes _ _ h1)]

/-! ## Fresh pipelines -/

theorem dynamic_field_compressor_add_fields_eq {ε : Type} (c : dynamic_field_compressor ε)
    (TS : List IntType) :
    c.add_fields TS = ⟨c.encoder_, c.fields_ ++
      TS.map (fun T => base_field.dynamic_compressor_field T (field.new T))⟩ := by
  induction TS generalizing c with
  | nil => simp [dynamic_field_compressor.add_fields]
  | cons T TS ih =>
    simp [dynamic_field_compressor.add_fields, ih, dynamic_field_compressor.add_field]

theorem dynamic_field_decompressor_add_fields_eq {δ : Type} (c : dynamic_field_decompressor δ)
    (TS : List IntType) :
    c.add_fields TS = ⟨c.decoder_, c.fields_ ++
      TS.map (fun T => base_field.dynamic_decompressor_field T (field.new T)),
      c.first_decomp_⟩ := by
  induction TS generalizing c with
  | nil => simp [dynamic_field_decompressor.add_fields]
  | cons T TS ih =>
    simp [dynamic_field_decompressor.add_fields, ih, dynamic_field_decompressor.add_field]

theorem field_Sync_new (T : IntType) : field.Sync T (field.new T) (field.new T) :=
  ⟨Nat.mul_comm _ _, Nat.mul_comm _ _, rfl, rfl, fun _ => rfl⟩

theorem sync_fresh (TS : List IntType) :
    List.Forall₂ base_field.Sync
      (TS.map (fun T => base_field.dynamic_compressor_field T (field.new T)))
      (TS.map (fun T => base_field.dynamic_decompressor_field T (field.new T))) := by
  induction TS with
  | nil => exact List.Forall₂.nil
  | cons T TS ih => exact List.Forall₂.cons ⟨rfl, field_Sync_new T⟩ ih

theorem fields_size_fresh (TS : List IntType) :
    fields_size (TS.map (fun T => base_field.dynamic_compressor_field T (field.new T)))
      = record_size TS := by
  induction TS with
  | nil => rfl
  | cons T TS ih =>
    simp only [List.map_cons, fields_size_cons, ih, record_size, List.sum_cons,
      base_field.compress_size]

theorem Decoder_replay_rawFaithful : RawFaithful Decoder.replay (fun ops d => d = ops) where
  init := by
    intro bits ops d h
    subst h
    simp [Decoder.replay]
  putBytes := by
    intro bs ops d h
    subst h
    have hfit : ∀ (l : List Nat), (Decoder.fit l.length l).1 = l := by
      intro l
      induction l with
      | nil => rfl
      | cons b l ih => simp [Decoder.fit, ih]
    simp [Decoder.replay, hfit]

theorem Decoder_framed_faithful :
    Faithful Decoder.framed (fun ops s => s = (false, ops)) (fun ops s => s = (true, ops)) where
  raw :=
    { init := by
        intro bits ops s h
        subst h
        show (false, Decoder.replay.init bits (EncOp.init bits :: ops)) = (false, ops)
        rw [Decoder_replay_rawFaithful.init bits ops _ rfl]
      putBytes := by
        intro bs ops s h
        subst h
        obtain ⟨h1, h2⟩ := Decoder_replay_rawFaithful.putBytes bs ops _ rfl
        exact ⟨h1, congrArg (Prod.mk false) h2⟩ }
  readInitBytes := by
    intro ops s h
    subst h
    rfl
  coded :=
    { init := by
        intro bits ops s h
        subst h
        show (true, Decoder.replay.init bits (EncOp.init bits :: ops)) = (true, ops)
        rw [Decoder_replay_rawFaithful.init bits ops _ rfl]
      compress := by
        intro bits p a ops s h
        subst h
        simp [Decoder.framed, Decoder.replay] }

theorem fresh_no_value (TS : List IntType) :
    ∀ f ∈ TS.map (fun T => base_field.dynamic_compressor_field T (field.new T)),
      f.field_.differ_.have_value_ = false := by
  intro f hf
  simp only [List.mem_map] at hf
  obtain ⟨T, _, rfl⟩ := hf
  rfl

set_option maxRecDepth 100000 in
/-- The decoder `Decoder.framed` depends on its `readInitBytes`: run on a
pipeline whose first-record flag is already cleared, so that the call is never
made, the second record is not recovered. -/
theorem framed_without_readInitBytes :
    (dynamic.decompress_records true Decoder.framed
      { decoder_ := (false, (dynamic.compress_records true Encoder.log
          ((make_dynamic_compressor []).add_fields [.uint8_t]) (fun _ => 0) 0
          [[1], [5]]).1.encoder_),
        fields_ := ((make_dynamic_decompressor ()).add_fields [.uint8_t]).fields_,
        first_decomp_ := false }
      (fun _ => 0) 16 1 2).2.2 ≠ [[1], [5]] := by
  decide

set_option maxRecDepth 100000 in
/-- The decoder `Decoder.framed` depends on the position of its
`readInitBytes`: once the init bytes were read ahead of the first record, the
raw bytes of the first record are not recovered. -/
theorem framed_early_readInitBytes :
    (dynamic.decompress_records true Decoder.framed
      ((make_dynamic_decompressor
        (Decoder.framed.readInitBytes (false, (dynamic.compress_records true Encoder.log
          ((make_dynamic_compressor []).add_fields [.uint8_t]) (fun _ => 0) 0
          [[1], [5]]).1.encoder_))).add_fields [.uint8_t])
      (fun _ => 0) 16 1 2).2.2 ≠ [[1], [5]] := by
  decide

set_option maxRecDepth 100000 in
/-- The decoder `Decoder.framed` tolerates no second `readInitBytes`: when the
init bytes are read once more after the first record was decompressed, the
second record is not recovered. -/
theorem framed_second_readInitBytes :
    (dynamic.decompress_records true Decoder.framed
      { decoder_ := Decoder.framed.readInitBytes
          (dynamic_field_decompressor.decompress true Decoder.framed
            ((make_dynamic_decompressor
              (false, (dynamic.compress_records true Encoder.log
                ((make_dynamic_compressor []).add_fields [.uint8_t]) (fun _ => 0) 0
                [[1], [5]]).1.encoder_)).add_fields [.uint8_t])
            (fun _ => 0) 16).1.decoder_,
        fields_ := (dynamic_field_decompressor.decompress true Decoder.framed
            ((make_dynamic_decompressor
              (false, (dynamic.compress_records true Encoder.log
                ((make_dynamic_compressor []).add_fields [.uint8_t]) (fun _ => 0) 0
                [[1], [5]]).1.encoder_)).add_fields [.uint8_t])
            (fun _ => 0) 16).1.fields_,
        first_decomp_ := false }
      (fun _ => 0) 16 1 1).2.2 ≠ [[5]] := by
  decide

/-- C1 (dynamic pipeline round trip): let the coder be faithful in its two
phases (`Faithful D R0 R1`: raw bytes come back as written before the init
bytes are read, coded values come back as given after that) and the decoder,
its init bytes not yet read, be positioned at the stream produced by
compressing the records `recs` (any number, each of the record size of the
schema `TS`, stored in `data` before each `compress` call) with a fresh
`dynamic_field_compressor` on which the types `TS` were registered in order.
Then `recs.length` calls of `decompress` on a fresh
`dynamic_field_decompressor` with the same registrations leave, one after the
other, exactly the bytes of the input records in the output buffer. -/
theorem dynamic_round_trip {δ : Type} (cs : Bool) (D : Decoder δ)
    (R0 R1 : List EncOp → δ → Prop) (hD : Faithful D R0 R1) (TS : List IntType)
    (recs : List (List Nat))
    (hrecs : ∀ r ∈ recs, r.length = record_size TS ∧ ∀ b ∈ r, b < 256)
    (mem : Mem) (data : Nat) (decoder : δ)
    (hstream : R0 (dynamic.compress_records cs Encoder.log
      ((make_dynamic_compressor []).add_fields TS) mem data recs).1.encoder_ decoder)
    (omem : Mem) (out : Nat) :
    (dynamic.decompress_records cs D ((make_dynamic_decompressor decoder).add_fields TS)
      omem out (record_size TS) recs.length).2.2 = recs := by
  rw [dynamic_compress_records_eq, Encoder_run_log, dynamic_field_compressor_add_fields_eq] at hstream
  rw [dynamic_field_decompressor_add_fields_eq]
  simp only [make_dynamic_compressor, make_dynamic_decompressor, List.nil_append] at hstream ⊢
  exact decompress_records_sync cs D R0 R1 hD _ recs hrecs _ _ (sync_fresh TS)
    (fresh_no_value TS) (fields_size_fresh TS) mem data [] decoder
    (by rwa [List.append_nil]) omem out

/-- Witness of `dynamic_round_trip`: the schema `[uint8_t, int16_t, int32_t]`,
three records, and the decoder `Decoder.framed`, which answers raw reads only
before and coded reads only after its one `readInitBytes`. -/
theorem dynamic_round_trip_witness :
    (dynamic.decompress_records true Decoder.framed
      ((make_dynamic_decompressor
        (false, (dynamic.compress_records true Encoder.log
          ((make_dynamic_compressor []).add_fields [.uint8_t, .int16_t, .int32_t])
          (fun _ => 0) 0
          [[1, 2, 3, 4, 5, 6, 7], [255, 0, 128, 255, 255, 255, 255], [0, 9, 9, 0, 0, 0, 128]]
          ).1.encoder_)).add_fields [.uint8_t, .int16_t, .int32_t])
      (fun _ => 0) 16 (record_size [.uint8_t, .int16_t, .int32_t]) 3).2.2
      = [[1, 2, 3, 4, 5, 6, 7], [255, 0, 128, 255, 255, 255, 255], [0, 9, 9, 0, 0, 0, 128]] :=
  dynamic_round_trip true Decoder.framed (fun ops s => s = (false, ops))
    (fun ops s => s = (true, ops)) Decoder_framed_faithful
    [.uint8_t, .int16_t, .int32_t]
    [[1, 2, 3, 4, 5, 6, 7], [255, 0, 128, 255, 255, 255, 255], [0, 9, 9, 0, 0, 0, 128]]
    (by decide) (fun _ => 0) 0 _ rfl (fun _ => 0) 16

/-! ## The static chain and the dynamic list -/

theorem record_compressor_compressWith_eq {ε : Type} (cs : Bool) (E : Encoder ε)
    (c : record_compressor) (e : ε) (mem : Mem) (p : Nat) :
    (c.compressWith cs E e mem p).1.adapters = fields_after cs c.adapters mem p ∧
    (c.compressWith cs E e mem p).2.1 = E.run (fields_ops cs c.adapters mem p) e ∧
    (c.compressWith cs E e mem p).2.2 = p + fields_size c.adapters := by
  induction c generalizing e p with
  | nil => exact ⟨rfl, rfl, rfl⟩
  | cons T f next_ ih =>
    obtain ⟨h1, h2, h3⟩ := ih (E.run (f.compress_ops cs T mem p) e) (p + T.sizeof)
    simp only [record_compressor.compressWith, field_compressWith_eq,
      record_compressor.adapters, fields_after, fields_ops, fields_size_cons,
      base_field.after_compress, base_field.compress_ops, base_field.compress_size,
      Encoder_run_append, h1, h2, h3, Nat.add_assoc, and_self]

theorem record_decompressor_decompressWith_eq {δ : Type} (cs : Bool) (D : Decoder δ)
    (c : record_decompressor) (d : δ) (mem : Mem) (p : Nat) :
    (c.decompressWith cs D d mem p).1.adapters
        = (dynamic_field_decompressor.decompress cs D ⟨d, c.adapters, c.first⟩ mem p).1.fields_ ∧
    (c.decompressWith cs D d mem p).1.first
        = (dynamic_field_decompressor.decompress cs D ⟨d, c.adapters, c.first⟩ mem p).1.first_decomp_ ∧
    (c.decompressWith cs D d mem p).2.1
        = (dynamic_field_decompressor.decompress cs D ⟨d, c.adapters, c.first⟩ mem p).1.decoder_ ∧
    (c.decompressWith cs D d mem p).2.2
        = (dynamic_field_decompressor.decompress cs D ⟨d, c.adapters, c.first⟩ mem p).2 := by
  induction c generalizing d mem p with
  | nil first =>
    cases first <;> exact ⟨rfl, rfl, rfl, rfl⟩
  | cons T f next_ ih =>
    obtain ⟨h1, h2, h3, h4⟩ := ih (f.decompressWith cs D T d mem p).2.1
      (f.decompressWith cs D T d mem p).2.2.1 (f.decompressWith cs D T d mem p).2.2.2
    simp only [record_decompressor.decompressWith, record_decompressor.adapters,
      record_decompressor.first, h1, h2, h3, h4]
    simp only [dynamic_field_decompressor.decompress,
      dynamic_field_decompressor.decompress_loop, base_field.decompressRaw]
    cases next_.first <;> simp

theorem static_compress_records_eq {ε : Type} (cs : Bool) (E : Encoder ε)
    (c : record_compressor) (e : ε) (mem : Mem) (data : Nat) (recs : List (List Nat)) :
    (static.compress_records cs E c e mem data recs).2.1
      = E.run (records_ops cs c.adapters mem data recs) e := by
  induction recs generalizing c e mem with
  | nil => rfl
  | cons r rs ih =>
    obtain ⟨h1, h2, _⟩ := record_compressor_compressWith_eq cs E c e (writeBytes mem data r) data
    simp only [static.compress_records, ih, records_ops, Encoder_run_append, h1, h2]

theorem static_decompress_records_eq {δ : Type} (cs : Bool) (D : Decoder δ)
    (c : record_decompressor) (d : δ) (mem : Mem) (data size n : Nat) :
    (static.decompress_records cs D c d mem data size n).2.2.2
      = (dynamic.decompress_records cs D ⟨d, c.adapters, c.first⟩ mem data size n).2.2 := by
  induction n generalizing c d mem with
  | zero => rfl
  | succ n ih =>
    obtain ⟨h1, h2, h3, h4⟩ := record_decompressor_decompressWith_eq cs D c d mem data
    simp only [static.decompress_records, dynamic.decompress_records, ih, h1, h2, h3]
    rw [show (c.decompressWith cs D d mem data).2.2.1
      = (dynamic_field_decompressor.decompress cs D ⟨d, c.adapters, c.first⟩ mem data).2.1 from
        congrArg Prod.fst h4]

theorem record_compressor_adapters_new (TS : List IntType) :
    (record_compressor.new TS).adapters
      = TS.map (fun T => base_field.dynamic_compressor_field T (field.new T)) := by
  induction TS with
  | nil => rfl
  | cons T TS ih => simp only [record_compressor.new, record_compressor.adapters, ih, List.map_cons]

theorem record_decompressor_adapters_new (TS : List IntType) :
    (record_decompressor.new TS).adapters
      = TS.map (fun T => base_field.dynamic_decompressor_field T (field.new T)) ∧
    (record_decompressor.new TS).first = true := by
  induction TS with
  | nil => exact ⟨rfl, rfl⟩
  | cons T TS ih =>
    simp only [record_decompressor.new, record_decompressor.adapters, record_decompressor.first,
      ih, List.map_cons, and_self]

/-- C2 (static pipeline round trip): let the coder be faithful in its two
phases (`Faithful D R0 R1`: raw bytes come back as written before the init
bytes are read, coded values come back as given after that) and the decoder,
its init bytes not yet read, be positioned at the stream produced by feeding
the records `recs` (any number, each of the record size of the field list
`TS`) to `compressWith` of a fresh `record_compressor<TS...>`.  Then
`recs.length` calls of `decompressWith` of a fresh `record_decompressor<TS...>`
leave, one after the other, exactly the bytes of the input records in the
output buffer. -/
theorem static_round_trip {δ : Type} (cs : Bool) (D : Decoder δ)
    (R0 R1 : List EncOp → δ → Prop) (hD : Faithful D R0 R1) (TS : List IntType)
    (recs : List (List Nat))
    (hrecs : ∀ r ∈ recs, r.length = record_size TS ∧ ∀ b ∈ r, b < 256)
    (mem : Mem) (data : Nat) (decoder : δ)
    (hstream : R0 (static.compress_records cs Encoder.log (record_compressor.new TS) []
      mem data recs).2.1 decoder)
    (omem : Mem) (out : Nat) :
    (static.decompress_records cs D (record_decompressor.new TS) decoder omem out
      (record_size TS) recs.length).2.2.2 = recs := by
  rw [static_compress_records_eq, Encoder_run_log, record_compressor_adapters_new,
    List.nil_append] at hstream
  rw [static_decompress_records_eq, (record_decompressor_adapters_new TS).1,
    (record_decompressor_adapters_new TS).2]
  exact decompress_records_sync cs D R0 R1 hD _ recs hrecs _ _ (sync_fresh TS)
    (fresh_no_value TS) (fields_size_fresh TS) mem data [] decoder
    (by rwa [List.append_nil]) omem out

/-- Witness of `static_round_trip`: the field list `[int8_t, uint16_t, char]`,
two records, and the decoder `Decoder.framed`, which answers raw reads only
before and coded reads only after its one `readInitBytes`. -/
theorem static_round_trip_witness :
    (static.decompress_records true Decoder.framed
      (record_decompressor.new [.int8_t, .uint16_t, .char])
      (false, (static.compress_records true Encoder.log
        (record_compressor.new [.int8_t, .uint16_t, .char]) [] (fun _ => 0) 0
        [[200, 1, 2, 3], [7, 255, 255, 128]]).2.1)
      (fun _ => 0) 8 (record_size [.int8_t, .uint16_t, .char]) 2).2.2.2
      = [[200, 1, 2, 3], [7, 255, 255, 128]] :=
  static_round_trip true Decoder.framed (fun ops s => s = (false, ops))
    (fun ops s => s = (true, ops)) Decoder_framed_faithful
    [.int8_t, .uint16_t, .char] [[200, 1, 2, 3], [7, 255, 255, 128]]
    (by decide) (fun _ => 0) 0 _ rfl (fun _ => 0) 8

/-! ## The calls made on the decoder -/

theorem field_decompressWith_logged {δ : Type} (cs : Bool) (D : Decoder δ) (T : IntType)
    (f : field) (d : δ) (lg : List DecOp) (mem : Mem) (p : Nat) :
    f.decompressWith cs D.logged T (d, lg) mem p
      = ((f.decompressWith cs D T d mem p).1,
          ((f.decompressWith cs D T d mem p).2.1, lg ++ f.decompress_ops T),
          (f.decompressWith cs D T d mem p).2.2.1, (f.decompressWith cs D T d mem p).2.2.2) := by
  rcases f with ⟨c, dd, ci, di, ⟨v, hv⟩⟩
  cases di <;> cases hv <;>
    simp [field.decompressWith, field.decompress_ops, Decoder.logged,
      standard_diff_method.have_value]

theorem base_field_decompressRaw_logged {δ : Type} (cs : Bool) (D : Decoder δ)
    (f : base_field) (d : δ) (lg : List DecOp) (mem : Mem) (p : Nat) :
    f.decompressRaw cs D.logged (d, lg) mem p
      = ((f.decompressRaw cs D d mem p).1,
          ((f.decompressRaw cs D d mem p).2.1, lg ++ f.decompress_ops),
          (f.decompressRaw cs D d mem p).2.2.1, (f.decompressRaw cs D d mem p).2.2.2) := by
  cases f with
  | dynamic_compressor_field T f => simp [base_field.decompressRaw, base_field.decompress_ops]
  | dynamic_decompressor_field T f =>
    simp only [base_field.decompressRaw, field_decompressWith_logged,
      base_field.decompress_ops]

theorem decompress_loop_logged {δ : Type} (cs : Bool) (D : Decoder δ)
    (fs : List base_field) (d : δ) (lg : List DecOp) (mem : Mem) (p : Nat) :
    dynamic_field_decompressor.decompress_loop cs D.logged fs (d, lg) mem p
      = ((dynamic_field_decompressor.decompress_loop cs D fs d mem p).1,
          ((dynamic_field_decompressor.decompress_loop cs D fs d mem p).2.1,
            lg ++ fields_decompress_ops fs),
          (dynamic_field_decompressor.decompress_loop cs D fs d mem p).2.2.1,
          (dynamic_field_decompressor.decompress_loop cs D fs d mem p).2.2.2) := by
  induction fs generalizing d lg mem p with
  | nil => simp [dynamic_field_decompressor.decompress_loop, fields_decompress_ops]
  | cons f fs ih =>
    simp only [dynamic_field_decompressor.decompress_loop, base_field_decompressRaw_logged, ih,
      fields_decompress_ops, List.flatMap_cons, List.append_assoc]

theorem decompress_logged {δ : Type} (cs : Bool) (D : Decoder δ)
    (fs : List base_field) (first : Bool) (d : δ) (lg : List DecOp) (mem : Mem) (p : Nat) :
    dynamic_field_decompressor.decompress cs D.logged ⟨(d, lg), fs, first⟩ mem p
      = (⟨((dynamic_field_decompressor.decompress cs D ⟨d, fs, first⟩ mem p).1.decoder_,
            lg ++ fields_decompress_ops fs ++ (if first then [DecOp.readInitBytes] else [])),
          (dynamic_field_decompressor.decompress cs D ⟨d, fs, first⟩ mem p).1.fields_, false⟩,
        (dynamic_field_decompressor.decompress cs D ⟨d, fs, first⟩ mem p).2) := by
  simp only [dynamic_field_decompressor.decompress, decompress_loop_logged]
  cases first <;> simp [Decoder.logged]

theorem readInitBytes_not_mem_ops (fs : List base_field) :
    DecOp.readInitBytes ∉ fields_decompress_ops fs := by
  induction fs with
  | nil => simp [fields_decompress_ops]
  | cons f fs ih =>
    simp only [fields_decompress_ops, List.flatMap_cons, List.mem_append, not_or] at ih ⊢
    refine ⟨?_, ih⟩
    cases f with
    | dynamic_compressor_field T f => simp [base_field.decompress_ops]
    | dynamic_decompressor_field T f =>
      simp only [base_field.decompress_ops, field.decompress_ops]
      cases f.decompressor_inited_ <;> cases f.differ_.have_value <;> simp

theorem decompress_records_logged_later {δ : Type} (cs : Bool) (D : Decoder δ)
    (fs : List base_field) (d : δ) (lg : List DecOp) (mem : Mem) (out size n : Nat) :
    ∃ tail,
      (dynamic.decompress_records cs D.logged ⟨(d, lg), fs, false⟩ mem out size n).1.decoder_.2
        = lg ++ tail ∧
      DecOp.readInitBytes ∉ tail ∧
      (dynamic.decompress_records cs D.logged ⟨(d, lg), fs, false⟩ mem out size n).1.first_decomp_
        = false := by
  induction n generalizing fs d lg mem with
  | zero => exact ⟨[], by simp [dynamic.decompress_records], by simp, rfl⟩
  | succ n ih =>
    simp only [dynamic.decompress_records, decompress_logged, Bool.false_eq_true, if_false,
      List.append_nil]
    obtain ⟨tail, h1, h2, h3⟩ := ih
      (dynamic_field_decompressor.decompress cs D ⟨d, fs, false⟩ mem out).1.fields_
      (dynamic_field_decompressor.decompress cs D ⟨d, fs, false⟩ mem out).1.decoder_
      (lg ++ fields_decompress_ops fs)
      (dynamic_field_decompressor.decompress cs D ⟨d, fs, false⟩ mem out).2.1
    refine ⟨fields_decompress_ops fs ++ tail, by rw [h1, List.append_assoc], ?_, h3⟩
    simp only [List.mem_append, not_or]
    exact ⟨readInitBytes_not_mem_ops fs, h2⟩

/-- C7 (single init-bytes event, dynamic decompressor): a decompressor made by
`make_dynamic_decompressor` starts with `first_decomp_ = true`, and registering
fields keeps it so.  For any decoder, any list of adapters (also the empty
one) and any `n`, across `n + 1` calls of `decompress` the calls made on the
decoder are: the calls of the adapters of the first call, then `readInitBytes`,
then calls among which there is no `readInitBytes`; so it is invoked exactly
once.  After the first call the log is exactly the adapters' calls followed by
`readInitBytes`, and `first_decomp_` is false after the first and every later
call. -/
theorem single_init_bytes_event {δ : Type} (cs : Bool) (D : Decoder δ)
    (fs : List base_field) (d : δ) (mem : Mem) (out size n : Nat) :
    (∀ TS : List IntType, ((make_dynamic_decompressor d).add_fields TS).first_decomp_ = true) ∧
    DecOp.readInitBytes ∉
      (dynamic_field_decompressor.decompress_loop cs D.logged fs (d, []) mem out).2.1.2 ∧
    (dynamic_field_decompressor.decompress cs D.logged ⟨(d, []), fs, true⟩ mem out).1.decoder_.2
      = (dynamic_field_decompressor.decompress_loop cs D.logged fs (d, []) mem out).2.1.2
          ++ [DecOp.readInitBytes] ∧
    (∃ tail,
      (dynamic.decompress_records cs D.logged ⟨(d, []), fs, true⟩ mem out size
          (n + 1)).1.decoder_.2
        = (dynamic_field_decompressor.decompress_loop cs D.logged fs (d, []) mem out).2.1.2
            ++ DecOp.readInitBytes :: tail ∧
      DecOp.readInitBytes ∉ tail) ∧
    (dynamic.decompress_records cs D.logged ⟨(d, []), fs, true⟩ mem out size
        (n + 1)).1.decoder_.2.count DecOp.readInitBytes = 1 ∧
    (dynamic.decompress_records cs D.logged ⟨(d, []), fs, true⟩ mem out size
        (n + 1)).1.first_decomp_ = false := by
  have hloop : (dynamic_field_decompressor.decompress_loop cs D.logged fs (d, []) mem out).2.1.2
      = fields_decompress_ops fs := by
    rw [decompress_loop_logged]; simp
  obtain ⟨tail, h1, h2, h3⟩ := decompress_records_logged_later cs D
    (dynamic_field_decompressor.decompress cs D ⟨d, fs, true⟩ mem out).1.fields_
    (dynamic_field_decompressor.decompress cs D ⟨d, fs, true⟩ mem out).1.decoder_
    (fields_decompress_ops fs ++ [DecOp.readInitBytes])
    (dynamic_field_decompressor.decompress cs D ⟨d, fs, true⟩ mem out).2.1 out size n
  have hlog : (dynamic.decompress_records cs D.logged ⟨(d, []), fs, true⟩ mem out size
      (n + 1)).1.decoder_.2 = fields_decompress_ops fs ++ DecOp.readInitBytes :: tail := by
    simp only [dynamic.decompress_records, decompress_logged, if_true, List.nil_append]
    rw [h1]; simp
  have hflag : (dynamic.decompress_records cs D.logged ⟨(d, []), fs, true⟩ mem out size
      (n + 1)).1.first_decomp_ = false := by
    simp only [dynamic.decompress_records, decompress_logged, if_true, List.nil_append]
    exact h3
  refine ⟨fun TS => ?_, ?_, ?_, ⟨tail, ?_, h2⟩, ?_, hflag⟩
  · rw [dynamic_field_decompressor_add_fields_eq]; rfl
  · rw [hloop]; exact readInitBytes_not_mem_ops fs
  · rw [hloop, decompress_logged]; simp
  · rw [hloop, hlog]
  · rw [hlog, List.count_append, List.count_cons_self,
      List.count_eq_zero_of_not_mem (readInitBytes_not_mem_ops fs),
      List.count_eq_zero_of_not_mem h2]

/-! ## One field, one call -/

theorem field_compressWith_differ {ε : Type} (cs : Bool) (E : Encoder ε) (T : IntType)
    (f : field) (e : ε) (mem : Mem) (buf : Nat) :
    (f.compressWith cs E T e mem buf).1.differ_
      = { value := packers.unpack cs T mem buf, have_value_ := true } := by
  rw [field_compressWith_eq]
  rcases f with ⟨c, d, ci, di, ⟨v, hv⟩⟩
  cases hv <;> rfl

theorem field_decompressWith_differ {δ : Type} (cs : Bool) (D : Decoder δ) (T : IntType)
    (f : field) (d : δ) (mem : Mem) (buf : Nat) :
    (f.decompressWith cs D T d mem buf).1.differ_
      = { value := packers.unpack cs T (f.decompressWith cs D T d mem buf).2.2.1 buf,
          have_value_ := true } := by
  rcases f with ⟨c, dd, ci, di, ⟨v, hv⟩⟩
  cases hv
  · simp only [field.decompressWith, standard_diff_method.have_value, Bool.false_eq_true,
      if_false, standard_diff_method.push, Bool.not_false, if_true]
  · simp only [field.decompressWith, standard_diff_method.have_value, if_true,
      standard_diff_method.push, Bool.not_true, Bool.false_eq_true, if_false, unpack_pack,
      cast_of_inRange _ _ _ (cast_inRange _ _ _)]

/-- C9 (raw versus coded decision), for any field `f` of type `T`.
Compress side: `compressWith` makes, after the model `init`, exactly one call:
`putBytes` of the `sizeof(T)` buffer bytes when the predictor had no value, and
otherwise `compress(predicted = differ_.value, actual = unpack(buf), context = 0)`
and no `putBytes`; the predictor then holds `unpack(buf)`, so on the call for
the next record the predicted value is the previous record's value.
Decompress side: `decompressWith` makes, after the model `init`, exactly one call:
`getBytes(sizeof(T))` when the predictor had no value, and otherwise
`decompress(predicted = differ_.value, context = 0)` and no `getBytes`; the
predictor then holds the recovered value (the value of the bytes left in the
buffer). -/
theorem raw_versus_coded (cs : Bool) (T : IntType) (f : field) :
    (∀ (l : List EncOp) (mem : Mem) (buf : Nat),
      (f.compressWith cs Encoder.log T l mem buf).2.1
        = l ++ (if f.compressor_inited_ then [] else [EncOp.init f.compressor_]) ++
            [if f.differ_.have_value then
                EncOp.compress f.compressor_ f.differ_.value (packers.unpack cs T mem buf) 0
              else EncOp.putBytes (readBytes mem buf T.sizeof)]) ∧
    (∀ (ε : Type) (E : Encoder ε) (e : ε) (mem : Mem) (buf : Nat),
      (f.compressWith cs E T e mem buf).1.differ_
        = { value := packers.unpack cs T mem buf, have_value_ := true }) ∧
    (∀ (l : List EncOp) (mem0 : Mem) (buf0 : Nat) (mem1 : Mem) (buf1 : Nat),
      ((f.compressWith cs Encoder.log T l mem0 buf0).1.compressWith cs Encoder.log T []
          mem1 buf1).2.1
        = (if f.compressor_inited_ then [] else [EncOp.init f.compressor_]) ++
            [EncOp.compress f.compressor_ (packers.unpack cs T mem0 buf0)
              (packers.unpack cs T mem1 buf1) 0]) ∧
    (∀ (δ : Type) (D : Decoder δ) (d : δ) (lg : List DecOp) (mem : Mem) (buf : Nat),
      (f.decompressWith cs D.logged T (d, lg) mem buf).2.1.2
        = lg ++ (if f.decompressor_inited_ then [] else [DecOp.init f.decompressor_]) ++
            [if f.differ_.have_value then
                DecOp.decompress f.decompressor_ f.differ_.value 0
              else DecOp.getBytes T.sizeof]) ∧
    (∀ (δ : Type) (D : Decoder δ) (d : δ) (mem : Mem) (buf : Nat),
      (f.decompressWith cs D T d mem buf).1.differ_
        = { value := packers.unpack cs T (f.decompressWith cs D T d mem buf).2.2.1 buf,
            have_value_ := true }) := by
  refine ⟨fun l mem buf => ?_, fun ε E e mem buf => field_compressWith_differ cs E T f e mem buf,
    fun l mem0 buf0 mem1 buf1 => ?_, fun δ D d lg mem buf => ?_,
    fun δ D d mem buf => field_decompressWith_differ cs D T f d mem buf⟩
  · rw [field_compressWith_eq, Encoder_run_log, field.compress_ops]
    cases f.compressor_inited_ <;> simp
  · rw [field_compressWith_eq, field_compressWith_eq, Encoder_run_log, field.compress_ops]
    rcases f with ⟨c, d, ci, di, ⟨v, hv⟩⟩
    cases ci <;> cases hv <;> rfl
  · rw [field_decompressWith_logged, field.decompress_ops]
    cases f.decompressor_inited_ <;> simp

/-! ## The first record -/

theorem fields_ops_fresh (cs : Bool) (TS : List IntType) (mem : Mem) (p : Nat) :
    (∀ op ∈ fields_ops cs
        (TS.map (fun T => base_field.dynamic_compressor_field T (field.new T))) mem p,
      op.is_compress = false) ∧
    (fields_ops cs (TS.map (fun T => base_field.dynamic_compressor_field T (field.new T)))
        mem p).flatMap EncOp.raw_bytes = readBytes mem p (record_size TS) := by
  induction TS generalizing p with
  | nil => exact ⟨by simp [fields_ops], rfl⟩
  | cons T TS ih =>
    obtain ⟨h1, h2⟩ := ih (p + T.sizeof)
    have e : fields_ops cs ((T :: TS).map
          (fun T => base_field.dynamic_compressor_field T (field.new T))) mem p
        = EncOp.init (T.sizeof * 8) :: EncOp.putBytes (readBytes mem p T.sizeof) ::
          fields_ops cs (TS.map (fun T => base_field.dynamic_compressor_field T (field.new T)))
            mem (p + T.sizeof) := rfl
    rw [e]
    refine ⟨fun op hop => ?_, ?_⟩
    · simp only [List.mem_cons] at hop
      rcases hop with rfl | rfl | hop
      · rfl
      · rfl
      · exact h1 op hop
    · simp only [List.flatMap_cons, EncOp.raw_bytes, List.nil_append, h2, record_size,
        List.map_cons, List.sum_cons, readBytes_add]

theorem fields_decompress_ops_fresh (TS : List IntType) :
    ∀ op ∈ fields_decompress_ops
        (TS.map (fun T => base_field.dynamic_decompressor_field T (field.new T))),
      op.is_decompress = false := by
  induction TS with
  | nil => simp [fields_decompress_ops]
  | cons T TS ih =>
    intro op hop
    have e : fields_decompress_ops ((T :: TS).map
          (fun T => base_field.dynamic_decompressor_field T (field.new T)))
        = DecOp.init (T.sizeof * 8) :: DecOp.getBytes T.sizeof ::
          fields_decompress_ops
            (TS.map (fun T => base_field.dynamic_decompressor_field T (field.new T))) := rfl
    rw [e] at hop
    simp only [List.mem_cons] at hop
    rcases hop with rfl | rfl | hop
    · rfl
    · rfl
    · exact ih op hop

theorem Decoder_raw_only_rawFaithful :
    RawFaithful Decoder.raw_only (fun ops d => d = ops) where
  init := Decoder_replay_rawFaithful.init
  putBytes := Decoder_replay_rawFaithful.putBytes

/-- C6 (first value raw): on a fresh dynamic pipeline with the schema `TS`,
compressing the first record makes no call of an entropy sub-model's `compress`
and hands to the stream, in schema order, exactly the record's bytes (the calls
are appended to whatever was recorded before).  If the stream is faithful for
raw bytes (`RawFaithful D R`, nothing is assumed of `decompress`) and the
decoder is positioned at a stream that starts with what that first `compress`
produced, then the first `decompress` of a fresh decompressor with the same
schema leaves the same bytes in the output buffer and makes no call of an
entropy sub-model's `decompress`.  The fresh static chains for `TS` make the
same calls and leave the same memory as the dynamic pipeline. -/
theorem first_record_raw {δ : Type} (cs : Bool) (D : Decoder δ) (R : List EncOp → δ → Prop)
    (hD : RawFaithful D R) (TS : List IntType) (mem : Mem) (p : Nat) (rest : List EncOp)
    (d : δ)
    (hstream : R ((((make_dynamic_compressor []).add_fields TS).compress cs Encoder.log
      mem p).1.encoder_ ++ rest) d)
    (omem : Mem) (out : Nat) :
    (∀ l : List EncOp,
      (((make_dynamic_compressor l).add_fields TS).compress cs Encoder.log mem p).1.encoder_
        = l ++ (((make_dynamic_compressor []).add_fields TS).compress cs Encoder.log
            mem p).1.encoder_) ∧
    (∀ op ∈ (((make_dynamic_compressor []).add_fields TS).compress cs Encoder.log
        mem p).1.encoder_, op.is_compress = false) ∧
    ((((make_dynamic_compressor []).add_fields TS).compress cs Encoder.log
        mem p).1.encoder_).flatMap EncOp.raw_bytes = readBytes mem p (record_size TS) ∧
    readBytes (((make_dynamic_decompressor (d, [])).add_fields TS).decompress cs D.logged
        omem out).2.1 out (record_size TS) = readBytes mem p (record_size TS) ∧
    (∀ op ∈ (((make_dynamic_decompressor (d, [])).add_fields TS).decompress cs D.logged
        omem out).1.decoder_.2, op.is_decompress = false) ∧
    (∀ l : List EncOp,
      ((record_compressor.new TS).compressWith cs Encoder.log l mem p).2.1
        = l ++ (((make_dynamic_compressor []).add_fields TS).compress cs Encoder.log
            mem p).1.encoder_) ∧
    ((record_decompressor.new TS).decompressWith cs D.logged (d, []) omem out).2.1
      = (((make_dynamic_decompressor (d, [])).add_fields TS).decompress cs D.logged
          omem out).1.decoder_ ∧
    ((record_decompressor.new TS).decompressWith cs D.logged (d, []) omem out).2.2
      = (((make_dynamic_decompressor (d, [])).add_fields TS).decompress cs D.logged
          omem out).2 := by
  have hlog : ∀ l : List EncOp,
      (((make_dynamic_compressor l).add_fields TS).compress cs Encoder.log mem p).1.encoder_
        = l ++ fields_ops cs
            (TS.map (fun T => base_field.dynamic_compressor_field T (field.new T))) mem p := by
    intro l
    rw [dynamic_field_compressor_add_fields_eq]
    simp only [dynamic_field_compressor.compress, compress_loop_eq, Encoder_run_log,
      make_dynamic_compressor, List.nil_append]
  obtain ⟨hc1, hc2⟩ := fields_ops_fresh cs TS mem p
  rw [hlog [], List.nil_append] at hstream
  obtain ⟨_, h2, _, _, _⟩ := decompress_loop_sync cs D R _ _
    (Or.inl ⟨fresh_no_value TS, hD⟩) (sync_fresh TS) mem p rest d hstream omem out
  rw [fields_size_fresh] at h2
  have hstat := record_decompressor_decompressWith_eq cs D.logged (record_decompressor.new TS)
    (d, []) omem out
  rw [(record_decompressor_adapters_new TS).1, (record_decompressor_adapters_new TS).2] at hstat
  have hdyn : (make_dynamic_decompressor ((d, []) : δ × List DecOp)).add_fields TS
      = ⟨(d, []), TS.map (fun T => base_field.dynamic_decompressor_field T (field.new T)),
          true⟩ := by
    rw [dynamic_field_decompressor_add_fields_eq]; rfl
  refine ⟨fun l => by rw [hlog l, hlog [], List.nil_append], ?_, ?_, ?_, ?_,
    fun l => ?_, by rw [hdyn]; exact hstat.2.2.1, by rw [hdyn]; exact hstat.2.2.2⟩
  rotate_right
  · rw [(record_compressor_compressWith_eq cs Encoder.log _ l mem p).2.1, Encoder_run_log,
      record_compressor_adapters_new, hlog [], List.nil_append]
  · rw [hlog [], List.nil_append]; exact hc1
  · rw [hlog [], List.nil_append]; exact hc2
  · rw [dynamic_field_decompressor_add_fields_eq]
    simp only [make_dynamic_decompressor, List.nil_append,
      dynamic_field_decompressor.decompress, if_true, decompress_loop_logged]
    exact readBytes_congr _ _ _ _ _ (fun i hi => by rw [h2 i hi, Nat.mod_mod])
  · rw [dynamic_field_decompressor_add_fields_eq]
    simp only [make_dynamic_decompressor, List.nil_append, decompress_logged, if_true]
    intro op hop
    simp only [List.mem_append, List.mem_singleton] at hop
    rcases hop with hop | rfl
    · exact fields_decompress_ops_fresh TS op hop
    · rfl

/-- Witness of `first_record_raw`: the schema `[uint16_t, int8_t]`, the record
`[1, 2, 255]`, a decoder whose `decompress` is broken, and a coded call pending
in the stream after the first record. -/
theorem first_record_raw_witness :
    readBytes (((make_dynamic_decompressor
        (([EncOp.init 16, EncOp.putBytes [1, 2], EncOp.init 8, EncOp.putBytes [255],
            EncOp.init 16, EncOp.compress 16 513 7 0] : List EncOp),
          ([] : List DecOp))).add_fields [.uint16_t, .int8_t]).decompress true
        Decoder.raw_only.logged (fun _ => 0) 4).2.1 4 (record_size [.uint16_t, .int8_t])
      = readBytes (writeBytes (fun _ => 0) 0 [1, 2, 255]) 0 (record_size [.uint16_t, .int8_t]) :=
  (first_record_raw true Decoder.raw_only (fun ops d => d = ops) Decoder_raw_only_rawFaithful
    [.uint16_t, .int8_t] (writeBytes (fun _ => 0) 0 [1, 2, 255]) 0
    [EncOp.init 16, EncOp.compress 16 513 7 0] _ (by decide) (fun _ => 0) 4).2.2.2.1

/-! ## Buffer positions -/

theorem field_decompressWith_pos {δ : Type} (cs : Bool) (D : Decoder δ) (T : IntType)
    (f : field) (d : δ) (mem : Mem) (p : Nat) :
    (f.decompressWith cs D T d mem p).2.2.2 = p + T.sizeof := by
  unfold field.decompressWith
  split_ifs <;> rfl

theorem field_decompressWith_frame {δ : Type} (cs : Bool) (D : Decoder δ) (T : IntType)
    (f : field) (d : δ) (mem : Mem) (p a : Nat) (h : a < p ∨ p + T.sizeof ≤ a) :
    (f.decompressWith cs D T d mem p).2.2.1 a = mem a := by
  rcases f with ⟨c, dd, ci, di, ⟨v, hv⟩⟩
  cases hv
  · simp only [field.decompressWith, standard_diff_method.have_value, Bool.false_eq_true,
      if_false]
    exact writeBytes_frame _ _ _ _ (by rw [(D.getBytes T.sizeof _).1.2]; exact h)
  · simp only [field.decompressWith, standard_diff_method.have_value, if_true]
    exact pack_frame _ _ _ _ _ h

theorem record_size_append (xs ys : List IntType) :
    record_size (xs ++ ys) = record_size xs + record_size ys := by
  simp [record_size]

theorem record_size_cons (T : IntType) (TS : List IntType) :
    record_size (T :: TS) = T.sizeof + record_size TS := by
  simp [record_size]

theorem fields_size_compressor_fields (l : List (IntType × field)) :
    fields_size (compressor_fields l) = record_size (l.map Prod.fst) := by
  induction l with
  | nil => rfl
  | cons tf l ih =>
    simp only [compressor_fields, List.map_cons, fields_size_cons, base_field.compress_size,
      record_size_cons] at ih ⊢
    rw [ih]

theorem compress_loop_append {ε : Type} (cs : Bool) (E : Encoder ε)
    (xs ys : List base_field) (e : ε) (mem : Mem) (p : Nat) :
    dynamic_field_compressor.compress_loop cs E (xs ++ ys) e mem p
      = ((dynamic_field_compressor.compress_loop cs E xs e mem p).1 ++
          (dynamic_field_compressor.compress_loop cs E ys
            (dynamic_field_compressor.compress_loop cs E xs e mem p).2.1 mem
            (dynamic_field_compressor.compress_loop cs E xs e mem p).2.2).1,
        (dynamic_field_compressor.compress_loop cs E ys
            (dynamic_field_compressor.compress_loop cs E xs e mem p).2.1 mem
            (dynamic_field_compressor.compress_loop cs E xs e mem p).2.2).2) := by
  induction xs generalizing e p with
  | nil => rfl
  | cons x xs ih =>
    show dynamic_field_compressor.compress_loop cs E (x :: (xs ++ ys)) e mem p = _
    simp only [dynamic_field_compressor.compress_loop, ih, List.cons_append]

theorem decompress_loop_append {δ : Type} (cs : Bool) (D : Decoder δ)
    (xs ys : List base_field) (d : δ) (mem : Mem) (p : Nat) :
    dynamic_field_decompressor.decompress_loop cs D (xs ++ ys) d mem p
      = ((dynamic_field_decompressor.decompress_loop cs D xs d mem p).1 ++
          (dynamic_field_decompressor.decompress_loop cs D ys
            (dynamic_field_decompressor.decompress_loop cs D xs d mem p).2.1
            (dynamic_field_decompressor.decompress_loop cs D xs d mem p).2.2.1
            (dynamic_field_decompressor.decompress_loop cs D xs d mem p).2.2.2).1,
        (dynamic_field_decompressor.decompress_loop cs D ys
            (dynamic_field_decompressor.decompress_loop cs D xs d mem p).2.1
            (dynamic_field_decompressor.decompress_loop cs D xs d mem p).2.2.1
            (dynamic_field_decompressor.decompress_loop cs D xs d mem p).2.2.2).2) := by
  induction xs generalizing d mem p with
  | nil => rfl
  | cons x xs ih =>
    show dynamic_field_decompressor.decompress_loop cs D (x :: (xs ++ ys)) d mem p = _
    simp only [dynamic_field_decompressor.decompress_loop, ih, List.cons_append]

theorem decompress_loop_pos {δ : Type} (cs : Bool) (D : Decoder δ)
    (l : List (IntType × field)) (d : δ) (mem : Mem) (p : Nat) :
    (dynamic_field_decompressor.decompress_loop cs D (decompressor_fields l) d mem p).2.2.2
      = p + record_size (l.map Prod.fst) := by
  induction l generalizing d mem p with
  | nil => rfl
  | cons tf l ih =>
    simp only [decompressor_fields, List.map_cons, dynamic_field_decompressor.decompress_loop,
      base_field.decompressRaw, record_size_cons, field_decompressWith_pos] at ih ⊢
    rw [ih, Nat.add_assoc]

theorem decompress_loop_frame {δ : Type} (cs : Bool) (D : Decoder δ)
    (l : List (IntType × field)) (d : δ) (mem : Mem) (p a : Nat)
    (h : a < p ∨ p + record_size (l.map Prod.fst) ≤ a) :
    (dynamic_field_decompressor.decompress_loop cs D (decompressor_fields l) d mem p).2.2.1 a
      = mem a := by
  induction l generalizing d mem p with
  | nil => rfl
  | cons tf l ih =>
    simp only [decompressor_fields, List.map_cons, dynamic_field_decompressor.decompress_loop,
      base_field.decompressRaw, record_size_cons, field_decompressWith_pos] at ih h ⊢
    rw [ih _ _ _ (by omega), field_decompressWith_frame _ _ _ _ _ _ _ _ (by omega)]

theorem record_compressor_adapters_of_list (l : List (IntType × field)) :
    (record_compressor.of_list l).adapters = compressor_fields l := by
  induction l with
  | nil => rfl
  | cons tf l ih =>
    simp only [record_compressor.of_list, record_compressor.adapters, ih, compressor_fields,
      List.map_cons]

theorem record_decompressor_adapters_of_list (l : List (IntType × field)) (first : Bool) :
    (record_decompressor.of_list l first).adapters = decompressor_fields l ∧
    (record_decompressor.of_list l first).first = first := by
  induction l with
  | nil => exact ⟨rfl, rfl⟩
  | cons tf l ih =>
    simp only [record_decompressor.of_list, record_decompressor.adapters,
      record_decompressor.first, ih, decompressor_fields, List.map_cons, and_self]

theorem record_compressor_append_compressWith {ε : Type} (cs : Bool) (E : Encoder ε)
    (c1 c2 : record_compressor) (e : ε) (mem : Mem) (p : Nat) :
    (c1.append c2).compressWith cs E e mem p
      = ((c1.compressWith cs E e mem p).1.append
          (c2.compressWith cs E (c1.compressWith cs E e mem p).2.1 mem
            (c1.compressWith cs E e mem p).2.2).1,
        (c2.compressWith cs E (c1.compressWith cs E e mem p).2.1 mem
            (c1.compressWith cs E e mem p).2.2).2) := by
  induction c1 generalizing e p with
  | nil => rfl
  | cons T f next_ ih =>
    simp only [record_compressor.append, record_compressor.compressWith, ih]

theorem record_decompressor_append_decompressWith {δ : Type} (cs : Bool) (D : Decoder δ)
    (l : List (IntType × field)) (c2 : record_decompressor) (d : δ) (mem : Mem) (p : Nat) :
    ((record_decompressor.of_list l false).append c2).decompressWith cs D d mem p
      = (((record_decompressor.of_list l false).decompressWith cs D d mem p).1.append
          (c2.decompressWith cs D
            ((record_decompressor.of_list l false).decompressWith cs D d mem p).2.1
            ((record_decompressor.of_list l false).decompressWith cs D d mem p).2.2.1
            ((record_decompressor.of_list l false).decompressWith cs D d mem p).2.2.2).1,
        (c2.decompressWith cs D
            ((record_decompressor.of_list l false).decompressWith cs D d mem p).2.1
            ((record_decompressor.of_list l false).decompressWith cs D d mem p).2.2.1
            ((record_decompressor.of_list l false).decompressWith cs D d mem p).2.2.2).2) := by
  induction l generalizing d mem p with
  | nil => rfl
  | cons tf l ih =>
    simp only [record_decompressor.of_list, record_decompressor.append,
      record_decompressor.decompressWith, ih]

theorem record_compressor_of_list_append (pre post : List (IntType × field)) :
    record_compressor.of_list (pre ++ post)
      = (record_compressor.of_list pre).append (record_compressor.of_list post) := by
  induction pre with
  | nil => rfl
  | cons tf pre ih =>
    show record_compressor.cons tf.1 tf.2 (record_compressor.of_list (pre ++ post)) = _
    rw [ih]; rfl

theorem record_decompressor_of_list_append (pre post : List (IntType × field))
    (first b : Bool) :
    record_decompressor.of_list (pre ++ post) first
      = (record_decompressor.of_list pre b).append (record_decompressor.of_list post first) := by
  induction pre with
  | nil => rfl
  | cons tf pre ih =>
    show record_decompressor.cons tf.1 tf.2 (record_decompressor.of_list (pre ++ post) first) = _
    rw [ih]; rfl

theorem record_compressor_compressWith_pos {ε : Type} (cs : Bool) (E : Encoder ε)
    (l : List (IntType × field)) (e : ε) (mem : Mem) (p : Nat) :
    ((record_compressor.of_list l).compressWith cs E e mem p).2.2
      = p + record_size (l.map Prod.fst) := by
  rw [(record_compressor_compressWith_eq cs E _ e mem p).2.2,
    record_compressor_adapters_of_list, fields_size_compressor_fields]

theorem record_decompressor_decompressWith_pos {δ : Type} (cs : Bool) (D : Decoder δ)
    (l : List (IntType × field)) (first : Bool) (d : δ) (mem : Mem) (p : Nat) :
    ((record_decompressor.of_list l first).decompressWith cs D d mem p).2.2.2
        = p + record_size (l.map Prod.fst) ∧
    ∀ a, a < p ∨ p + record_size (l.map Prod.fst) ≤ a →
      ((record_decompressor.of_list l first).decompressWith cs D d mem p).2.2.1 a = mem a := by
  have h := (record_decompressor_decompressWith_eq cs D
    (record_decompressor.of_list l first) d mem p).2.2.2
  rw [(record_decompressor_adapters_of_list l first).1,
    (record_decompressor_adapters_of_list l first).2] at h
  have hp := decompress_loop_pos cs D l d mem p
  have hf := decompress_loop_frame cs D l d mem p
  rw [h]
  cases first <;>
    simp only [dynamic_field_decompressor.decompress, Bool.false_eq_true, if_false, if_true] <;>
    exact ⟨hp, hf⟩

/-- C10 (buffer threading), for any encoder, decoder, field states and memory.
(1) `field<T>::compressWith` and `decompressWith` return the position advanced
by `sizeof(T)`.  (2) A pass of the dynamic compress loop over the fields
`pre ++ (T, f) :: post` is: the pass over `pre` from `p`, then
`f.compressWith` at `p + (sum of the sizes of pre)`, then the pass over `post`
at that position plus `sizeof(T)`; `compress` returns `p` plus the sum of all
sizes.  (3) The same for the dynamic decompress loop, and `decompress` changes
no byte outside `[p, p + sum of sizes)`.  (4), (5) The same for the static
chains `record_compressor` and `record_decompressor`.  (6) With no field, the
position (and for decompress the memory) is returned unchanged. -/
theorem buffer_threading {ε δ : Type} (cs : Bool) (E : Encoder ε) (D : Decoder δ)
    (pre post : List (IntType × field)) (T : IntType) (f : field) (e : ε) (d : δ)
    (first : Bool) (mem : Mem) (p : Nat) :
    -- (1) one field
    ((f.compressWith cs E T e mem p).2.2 = p + T.sizeof ∧
      (f.decompressWith cs D T d mem p).2.2.2 = p + T.sizeof) ∧
    -- (2) dynamic compress
    (dynamic_field_compressor.compress_loop cs E (compressor_fields (pre ++ (T, f) :: post))
        e mem p
      = ((dynamic_field_compressor.compress_loop cs E (compressor_fields pre) e mem p).1 ++
          base_field.dynamic_compressor_field T
            (f.compressWith cs E T
              (dynamic_field_compressor.compress_loop cs E (compressor_fields pre) e mem p).2.1
              mem (p + record_size (pre.map Prod.fst))).1 ::
          (dynamic_field_compressor.compress_loop cs E (compressor_fields post)
            (f.compressWith cs E T
              (dynamic_field_compressor.compress_loop cs E (compressor_fields pre) e mem p).2.1
              mem (p + record_size (pre.map Prod.fst))).2.1
            mem (p + record_size (pre.map Prod.fst) + T.sizeof)).1,
        (dynamic_field_compressor.compress_loop cs E (compressor_fields post)
            (f.compressWith cs E T
              (dynamic_field_compressor.compress_loop cs E (compressor_fields pre) e mem p).2.1
              mem (p + record_size (pre.map Prod.fst))).2.1
            mem (p + record_size (pre.map Prod.fst) + T.sizeof)).2.1,
        p + record_size ((pre ++ (T, f) :: post).map Prod.fst)) ∧
      (dynamic_field_compressor.compress cs E ⟨e, compressor_fields pre⟩ mem p).2
        = p + record_size (pre.map Prod.fst)) ∧
    -- (3) dynamic decompress
    (dynamic_field_decompressor.decompress_loop cs D
        (decompressor_fields (pre ++ (T, f) :: post)) d mem p
      = ((dynamic_field_decompressor.decompress_loop cs D (decompressor_fields pre) d mem p).1 ++
          base_field.dynamic_decompressor_field T
            (f.decompressWith cs D T
              (dynamic_field_decompressor.decompress_loop cs D (decompressor_fields pre)
                d mem p).2.1
              (dynamic_field_decompressor.decompress_loop cs D (decompressor_fields pre)
                d mem p).2.2.1
              (p + record_size (pre.map Prod.fst))).1 ::
          (dynamic_field_decompressor.decompress_loop cs D (decompressor_fields post)
            (f.decompressWith cs D T
              (dynamic_field_decompressor.decompress_loop cs D (decompressor_fields pre)
                d mem p).2.1
              (dynamic_field_decompressor.decompress_loop cs D (decompressor_fields pre)
                d mem p).2.2.1
              (p + record_size (pre.map Prod.fst))).2.1
            (f.decompressWith cs D T
              (dynamic_field_decompressor.decompress_loop cs D (decompressor_fields pre)
                d mem p).2.1
              (dynamic_field_decompressor.decompress_loop cs D (decompressor_fields pre)
                d mem p).2.2.1
              (p + record_size (pre.map Prod.fst))).2.2.1
            (p + record_size (pre.map Prod.fst) + T.sizeof)).1,
        (dynamic_field_decompressor.decompress_loop cs D (decompressor_fields post)
            (f.decompressWith cs D T
              (dynamic_field_decompressor.decompress_loop cs D (decompressor_fields pre)
                d mem p).2.1
              (dynamic_field_decompressor.decompress_loop cs D (decompressor_fields pre)
                d mem p).2.2.1
              (p + record_size (pre.map Prod.fst))).2.1
            (f.decompressWith cs D T
              (dynamic_field_decompressor.decompress_loop cs D (decompressor_fields pre)
                d mem p).2.1
              (dynamic_field_decompressor.decompress_loop cs D (decompressor_fields pre)
                d mem p).2.2.1
              (p + record_size (pre.map Prod.fst))).2.2.1
            (p + record_size (pre.map Prod.fst) + T.sizeof)).2.1,
        (dynamic_field_decompressor.decompress_loop cs D (decompressor_fields post)
            (f.decompressWith cs D T
              (dynamic_field_decompressor.decompress_loop cs D (decompressor_fields pre)
                d mem p).2.1
              (dynamic_field_decompressor.decompress_loop cs D (decompressor_fields pre)
                d mem p).2.2.1
              (p + record_size (pre.map Prod.fst))).2.1
            (f.decompressWith cs D T
              (dynamic_field_decompressor.decompress_loop cs D (decompressor_fields pre)
                d mem p).2.1
              (dynamic_field_decompressor.decompress_loop cs D (decompressor_fields pre)
                d mem p).2.2.1
              (p + record_size (pre.map Prod.fst))).2.2.1
            (p + record_size (pre.map Prod.fst) + T.sizeof)).2.2.1,
        p + record_size ((pre ++ (T, f) :: post).map Prod.fst)) ∧
      (dynamic_field_decompressor.decompress cs D ⟨d, decompressor_fields pre, first⟩
          mem p).2.2 = p + record_size (pre.map Prod.fst) ∧
      ∀ a, a < p ∨ p + record_size (pre.map Prod.fst) ≤ a →
        (dynamic_field_decompressor.decompress cs D ⟨d, decompressor_fields pre, first⟩
          mem p).2.1 a = mem a) ∧
    -- (4) static compress
    ((record_compressor.of_list (pre ++ (T, f) :: post)).compressWith cs E e mem p
      = (((record_compressor.of_list pre).compressWith cs E e mem p).1.append
          (record_compressor.cons T
            (f.compressWith cs E T ((record_compressor.of_list pre).compressWith cs E e mem p).2.1
              mem (p + record_size (pre.map Prod.fst))).1
            ((record_compressor.of_list post).compressWith cs E
              (f.compressWith cs E T
                ((record_compressor.of_list pre).compressWith cs E e mem p).2.1
                mem (p + record_size (pre.map Prod.fst))).2.1
              mem (p + record_size (pre.map Prod.fst) + T.sizeof)).1),
        ((record_compressor.of_list post).compressWith cs E
            (f.compressWith cs E T
              ((record_compressor.of_list pre).compressWith cs E e mem p).2.1
              mem (p + record_size (pre.map Prod.fst))).2.1
            mem (p + record_size (pre.map Prod.fst) + T.sizeof)).2.1,
        p + record_size ((pre ++ (T, f) :: post).map Prod.fst))) ∧
    -- (5) static decompress
    ((((record_decompressor.of_list (pre ++ (T, f) :: post) first).decompressWith cs D
          d mem p).2
      = ((record_decompressor.of_list post first).decompressWith cs D
          (f.decompressWith cs D T
            ((record_decompressor.of_list pre false).decompressWith cs D d mem p).2.1
            ((record_decompressor.of_list pre false).decompressWith cs D d mem p).2.2.1
            (p + record_size (pre.map Prod.fst))).2.1
          (f.decompressWith cs D T
            ((record_decompressor.of_list pre false).decompressWith cs D d mem p).2.1
            ((record_decompressor.of_list pre false).decompressWith cs D d mem p).2.2.1
            (p + record_size (pre.map Prod.fst))).2.2.1
          (p + record_size (pre.map Prod.fst) + T.sizeof)).2) ∧
      ((record_decompressor.of_list pre first).decompressWith cs D d mem p).2.2.2
        = p + record_size (pre.map Prod.fst) ∧
      ∀ a, a < p ∨ p + record_size (pre.map Prod.fst) ≤ a →
        ((record_decompressor.of_list pre first).decompressWith cs D d mem p).2.2.1 a
          = mem a) ∧
    -- (6) no field
    ((record_compressor.nil).compressWith cs E e mem p = (record_compressor.nil, e, p) ∧
      ((record_decompressor.nil first).decompressWith cs D d mem p).2.2 = (mem, p) ∧
      dynamic_field_compressor.compress cs E ⟨e, []⟩ mem p = (⟨e, []⟩, p) ∧
      (dynamic_field_decompressor.decompress cs D ⟨d, [], first⟩ mem p).2 = (mem, p)) := by
  have hsz : record_size ((pre ++ (T, f) :: post).map Prod.fst)
      = record_size (pre.map Prod.fst) + T.sizeof + record_size (post.map Prod.fst) := by
    simp only [List.map_append, List.map_cons, record_size_append, record_size_cons]
    omega
  have hsz' : p + record_size ((pre ++ (T, f) :: post).map Prod.fst)
      = p + record_size (pre.map Prod.fst) + T.sizeof + record_size (post.map Prod.fst) := by
    rw [hsz]; omega
  have hcpre := compress_loop_eq cs E (compressor_fields pre) e mem p
  rw [fields_size_compressor_fields] at hcpre
  refine ⟨⟨by rw [field_compressWith_eq], field_decompressWith_pos cs D T f d mem p⟩,
    ⟨?_, ?_⟩, ⟨?_, ?_, ?_⟩, ?_, ⟨?_, ?_⟩, ⟨rfl, ?_, rfl, ?_⟩⟩
  · -- dynamic compress, decomposition
    have h1 : compressor_fields (pre ++ (T, f) :: post)
        = compressor_fields pre ++ compressor_fields ((T, f) :: post) := by
      simp [compressor_fields]
    rw [h1, compress_loop_append]
    have hp : (dynamic_field_compressor.compress_loop cs E (compressor_fields pre) e mem p).2.2
        = p + record_size (pre.map Prod.fst) := by rw [hcpre]
    rw [hp]
    have hpost := compress_loop_eq cs E (compressor_fields post)
      (f.compressWith cs E T
        (dynamic_field_compressor.compress_loop cs E (compressor_fields pre) e mem p).2.1
        mem (p + record_size (pre.map Prod.fst))).2.1 mem
      (p + record_size (pre.map Prod.fst) + T.sizeof)
    rw [fields_size_compressor_fields] at hpost
    simp only [compressor_fields, List.map_cons, dynamic_field_compressor.compress_loop,
      base_field.compressRaw] at hpost ⊢
    rw [field_compressWith_eq] at hpost ⊢
    simp only [hpost, hsz']
  · simp only [dynamic_field_compressor.compress, hcpre]
  · -- dynamic decompress, decomposition
    have h1 : decompressor_fields (pre ++ (T, f) :: post)
        = decompressor_fields pre ++ decompressor_fields ((T, f) :: post) := by
      simp [decompressor_fields]
    rw [h1, decompress_loop_append, decompress_loop_pos]
    have hpost := decompress_loop_pos cs D post
      (f.decompressWith cs D T
        (dynamic_field_decompressor.decompress_loop cs D (decompressor_fields pre) d mem p).2.1
        (dynamic_field_decompressor.decompress_loop cs D (decompressor_fields pre) d mem p).2.2.1
        (p + record_size (pre.map Prod.fst))).2.1
      (f.decompressWith cs D T
        (dynamic_field_decompressor.decompress_loop cs D (decompressor_fields pre) d mem p).2.1
        (dynamic_field_decompressor.decompress_loop cs D (decompressor_fields pre) d mem p).2.2.1
        (p + record_size (pre.map Prod.fst))).2.2.1
      (p + record_size (pre.map Prod.fst) + T.sizeof)
    simp only [decompressor_fields, List.map_cons, dynamic_field_decompressor.decompress_loop,
      base_field.decompressRaw, field_decompressWith_pos] at hpost ⊢
    rw [hpost, hsz']
  · cases first <;>
      simp only [dynamic_field_decompressor.decompress, Bool.false_eq_true, if_false, if_true] <;>
      exact decompress_loop_pos cs D pre d mem p
  · cases first <;>
      simp only [dynamic_field_decompressor.decompress, Bool.false_eq_true, if_false, if_true] <;>
      exact decompress_loop_frame cs D pre d mem p
  · -- static compress
    rw [record_compressor_of_list_append, record_compressor_append_compressWith,
      record_compressor_compressWith_pos]
    have hpost := record_compressor_compressWith_pos cs E post
      (f.compressWith cs E T ((record_compressor.of_list pre).compressWith cs E e mem p).2.1
        mem (p + record_size (pre.map Prod.fst))).2.1 mem
      (p + record_size (pre.map Prod.fst) + T.sizeof)
    simp only [record_compressor.of_list, record_compressor.compressWith] at hpost ⊢
    rw [field_compressWith_eq] at hpost ⊢
    simp only [hpost, hsz']
  · -- static decompress
    rw [record_decompressor_of_list_append pre _ first false,
      record_decompressor_append_decompressWith,
      (record_decompressor_decompressWith_pos cs D pre false d mem p).1]
    simp only [record_decompressor.of_list, record_decompressor.decompressWith,
      field_decompressWith_pos]
  · exact record_decompressor_decompressWith_pos cs D pre first d mem p
  · cases first <;> rfl
  · cases first <;> rfl

/-! ## Packers, byte direction -/

/-- C16 (packers are inverse in the byte direction): for each of the seven
integer types `T` and any `sizeof(T)` bytes at `p`, `packers<T>::pack` of
`packers<T>::unpack` of those bytes writes exactly those bytes (at any
destination `q`, in any memory), and touches no other byte. -/
theorem packers_pack_unpack (cs : Bool) (T : IntType) (mem mem' : Mem) (p q : Nat) :
    readBytes (packers.pack T (packers.unpack cs T mem p) mem' q) q T.sizeof
      = readBytes mem p T.sizeof ∧
    (∀ (bs : List Nat), bs.length = T.sizeof → (∀ b ∈ bs, b < 256) →
      readBytes (packers.pack T (packers.unpack cs T (writeBytes mem p bs) p) mem' q) q T.sizeof
        = bs) ∧
    (∀ a, a < q ∨ q + T.sizeof ≤ a →
      packers.pack T (packers.unpack cs T mem p) mem' q a = mem' a) := by
  have h1 : ∀ m : Mem, readBytes (packers.pack T (packers.unpack cs T m p) mem' q) q T.sizeof
      = readBytes m p T.sizeof := fun m =>
    readBytes_congr _ _ _ _ _ (fun i hi => by
      rw [pack_unpack_byte cs T m mem' p q i hi, Nat.mod_mod])
  refine ⟨h1 mem, fun bs hlen hb => ?_, fun a ha => pack_frame _ _ _ _ _ ha⟩
  rw [h1, ← hlen]
  exact readBytes_writeBytes _ _ _ hb

/-! ## Adapters called in the wrong direction -/

/-- C18 (wrong-direction adapter calls are no-ops): `decompressRaw` on a
`dynamic_compressor_field` and `compressRaw` on a `dynamic_decompressor_field`
return the adapter (so the wrapped field and its predictor), the coder state,
the memory and the buffer position unchanged, for any coder; with the
call-recording coders nothing is recorded. -/
theorem wrong_direction_noop {ε δ : Type} (cs : Bool) (E : Encoder ε) (D : Decoder δ)
    (T : IntType) (f : field) (e : ε) (d : δ) (mem : Mem) (buf : Nat) :
    (base_field.dynamic_compressor_field T f).decompressRaw cs D d mem buf
      = (base_field.dynamic_compressor_field T f, d, mem, buf) ∧
    (base_field.dynamic_decompressor_field T f).compressRaw cs E e mem buf
      = (base_field.dynamic_decompressor_field T f, e, buf) ∧
    (∀ lg : List DecOp,
      ((base_field.dynamic_compressor_field T f).decompressRaw cs D.logged (d, lg) mem buf).2.1.2
        = lg) ∧
    (∀ l : List EncOp,
      ((base_field.dynamic_decompressor_field T f).compressRaw cs Encoder.log l mem buf).2.1
        = l) ∧
    ((base_field.dynamic_compressor_field T f).decompressRaw cs D d mem buf).1.field_.differ_
      = f.differ_ ∧
    ((base_field.dynamic_decompressor_field T f).compressRaw cs E e mem buf).1.field_.differ_
      = f.differ_ :=
  ⟨rfl, rfl, fun _ => rfl, fun _ => rfl, rfl, rfl⟩

/-! ## Predictor update -/

/-- C15 (predictor update on every path), for any field `f` of type `T`, any
coder and memory.  After `compressWith` the predictor has a value and it is
`packers<T>::unpack` of the buffer, whichever path was taken.  After
`decompressWith` the predictor has a value, it is the recovered value `r`, and
the bytes left in the output buffer unpack to `r`: on the raw path the buffer
holds the bytes read from the stream and `r` is their unpack; on the coded
path `r` is the sub-model's result cast to `T` and the buffer holds `pack(r)`. -/
theorem predictor_update {ε δ : Type} (cs : Bool) (E : Encoder ε) (D : Decoder δ)
    (T : IntType) (f : field) (e : ε) (d : δ) (mem : Mem) (buf : Nat) :
    (f.compressWith cs E T e mem buf).1.differ_.have_value = true ∧
    (f.compressWith cs E T e mem buf).1.differ_.value = packers.unpack cs T mem buf ∧
    (f.decompressWith cs D T d mem buf).1.differ_.have_value = true ∧
    (f.decompressWith cs D T d mem buf).1.differ_.value
      = packers.unpack cs T (f.decompressWith cs D T d mem buf).2.2.1 buf ∧
    (if f.differ_.have_value then
      (f.decompressWith cs D T d mem buf).1.differ_.value
        = T.cast cs (D.decompress f.decompressor_ f.differ_.value 0
            (if f.decompressor_inited_ then d else D.init f.decompressor_ d)).1 ∧
      (f.decompressWith cs D T d mem buf).2.2.1
        = packers.pack T (f.decompressWith cs D T d mem buf).1.differ_.value mem buf
    else
      (f.decompressWith cs D T d mem buf).2.2.1
        = writeBytes mem buf (D.getBytes T.sizeof
            (if f.decompressor_inited_ then d else D.init f.decompressor_ d)).1.1 ∧
      (f.decompressWith cs D T d mem buf).1.differ_.value
        = packers.unpack cs T (writeBytes mem buf (D.getBytes T.sizeof
            (if f.decompressor_inited_ then d else D.init f.decompressor_ d)).1.1) buf) := by
  refine ⟨by rw [field_compressWith_differ]; rfl, by rw [field_compressWith_differ],
    by rw [field_decompressWith_differ]; rfl, by rw [field_decompressWith_differ], ?_⟩
  rcases f with ⟨c, dd, ci, di, ⟨v, hv⟩⟩
  cases hv <;> cases di <;>
    simp [field.decompressWith, standard_diff_method.have_value, standard_diff_method.push]

/-! ## Model initialisation -/

theorem field_compressWith_flag {ε : Type} (cs : Bool) (E : Encoder ε) (T : IntType)
    (f : field) (e : ε) (mem : Mem) (buf : Nat) :
    (f.compressWith cs E T e mem buf).1.compressor_inited_ = f.compressor_inited_ ∧
    (f.compressWith cs E T e mem buf).1.compressor_ = f.compressor_ := by
  rw [field_compressWith_eq]; exact ⟨rfl, rfl⟩

theorem field_decompressWith_flag {δ : Type} (cs : Bool) (D : Decoder δ) (T : IntType)
    (f : field) (d : δ) (mem : Mem) (buf : Nat) :
    (f.decompressWith cs D T d mem buf).1.decompressor_inited_ = f.decompressor_inited_ ∧
    (f.decompressWith cs D T d mem buf).1.decompressor_ = f.decompressor_ := by
  unfold field.decompressWith
  split_ifs <;> exact ⟨rfl, rfl⟩

theorem compressWith_seq_init (cs : Bool) (T : IntType) (f : field)
    (hf : f.compressor_inited_ = false) (l : List EncOp) (bufs : List (Mem × Nat)) :
    (f.compressWith_seq cs Encoder.log T l bufs).2.count (EncOp.init f.compressor_)
      = l.count (EncOp.init f.compressor_) + bufs.length ∧
    (f.compressWith_seq cs Encoder.log T l bufs).1.compressor_inited_ = false := by
  induction bufs generalizing f l with
  | nil => exact ⟨rfl, hf⟩
  | cons b bufs ih =>
    obtain ⟨h1, h2⟩ := field_compressWith_flag cs Encoder.log T f l b.1 b.2
    have := ih (f.compressWith cs Encoder.log T l b.1 b.2).1 (by rw [h1, hf])
      (f.compressWith cs Encoder.log T l b.1 b.2).2.1
    rw [h2] at this
    simp only [field.compressWith_seq, this, List.length_cons]
    refine ⟨?_, trivial⟩
    rw [field_compressWith_eq, Encoder_run_log, field.compress_ops, hf]
    cases f.differ_.have_value <;> simp [List.count_cons] <;> omega

theorem decompressWith_seq_init {δ : Type} (cs : Bool) (D : Decoder δ) (T : IntType)
    (f : field) (hf : f.decompressor_inited_ = false) (d : δ) (lg : List DecOp) (mem : Mem)
    (bufs : List Nat) :
    (f.decompressWith_seq cs D.logged T (d, lg) mem bufs).2.1.2.count
        (DecOp.init f.decompressor_)
      = lg.count (DecOp.init f.decompressor_) + bufs.length ∧
    (f.decompressWith_seq cs D.logged T (d, lg) mem bufs).1.decompressor_inited_ = false := by
  induction bufs generalizing f d lg mem with
  | nil => exact ⟨rfl, hf⟩
  | cons b bufs ih =>
    obtain ⟨h1, h2⟩ := field_decompressWith_flag cs D T f d mem b
    have := ih (f.decompressWith cs D T d mem b).1 (by rw [h1, hf])
      (f.decompressWith cs D T d mem b).2.1 (lg ++ f.decompress_ops T)
      (f.decompressWith cs D T d mem b).2.2.1
    rw [h2] at this
    simp only [field.decompressWith_seq, field_decompressWith_logged, this, List.length_cons]
    refine ⟨?_, trivial⟩
    rw [field.decompress_ops, hf]
    cases f.differ_.have_value <;> simp [List.count_cons] <;> omega

/-- C11 (model initialisation, as the code does it): neither `compressWith` nor
`decompressWith` ever changes `compressor_inited_` / `decompressor_inited_`.
So for a fresh field and any list of buffers, the sub-model's `init` is invoked
once per call (as many times as there are calls, not once), and the flag is
still false afterwards; with two calls, `init` is invoked twice. -/
theorem model_init_every_call {δ : Type} (cs : Bool) (D : Decoder δ) (T : IntType) :
    (∀ (f : field) (l : List EncOp) (mem : Mem) (buf : Nat),
      (f.compressWith cs Encoder.log T l mem buf).1.compressor_inited_
        = f.compressor_inited_) ∧
    (∀ (f : field) (d : δ) (mem : Mem) (buf : Nat),
      (f.decompressWith cs D T d mem buf).1.decompressor_inited_ = f.decompressor_inited_) ∧
    (∀ bufs : List (Mem × Nat),
      ((field.new T).compressWith_seq cs Encoder.log T [] bufs).2.count
          (EncOp.init (T.sizeof * 8)) = bufs.length ∧
      ((field.new T).compressWith_seq cs Encoder.log T [] bufs).1.compressor_inited_ = false) ∧
    (∀ (d : δ) (mem : Mem) (bufs : List Nat),
      ((field.new T).decompressWith_seq cs D.logged T (d, []) mem bufs).2.1.2.count
          (DecOp.init (T.sizeof * 8)) = bufs.length ∧
      ((field.new T).decompressWith_seq cs D.logged T (d, []) mem bufs).1.decompressor_inited_
        = false) ∧
    (∀ (m0 m1 : Mem) (b0 b1 : Nat),
      ((field.new T).compressWith_seq cs Encoder.log T [] [(m0, b0), (m1, b1)]).2
        = [EncOp.init (T.sizeof * 8), EncOp.putBytes (readBytes m0 b0 T.sizeof),
            EncOp.init (T.sizeof * 8),
            EncOp.compress (T.sizeof * 8) (packers.unpack cs T m0 b0)
              (packers.unpack cs T m1 b1) 0]) := by
  refine ⟨fun f l mem buf => (field_compressWith_flag cs Encoder.log T f l mem buf).1,
    fun f d mem buf => (field_decompressWith_flag cs D T f d mem buf).1,
    fun bufs => ?_, fun d mem bufs => ?_, fun m0 m1 b0 b1 => rfl⟩
  · have := compressWith_seq_init cs T (field.new T) rfl [] bufs
    simpa [field.new] using this
  · have := decompressWith_seq_init cs D T (field.new T) rfl d [] mem bufs
    simpa [field.new] using this

/-! ## One predictor for both directions -/

/-- C13, counterexample: a fresh `field<int8_t>` on which `compressWith` was
called once (buffer byte 5) answers a following `decompressWith` on the coded
path: it calls the sub-model's `decompress` with predicted value 5 and reads no
raw byte. -/
theorem shared_predictor_counterexample :
    (((field.new .int8_t).compressWith true Encoder.log .int8_t []
          (writeBytes (fun _ => 0) 0 [5]) 0).1.decompressWith true Decoder.raw_only.logged
        .int8_t ([], []) (fun _ => 0) 0).2.1.2
      = [DecOp.init 8, DecOp.decompress 8 5 0] ∧
    DecOp.getBytes 1 ∉
      (((field.new .int8_t).compressWith true Encoder.log .int8_t []
          (writeBytes (fun _ => 0) 0 [5]) 0).1.decompressWith true Decoder.raw_only.logged
        .int8_t ([], []) (fun _ => 0) 0).2.1.2 := by
  decide

/-- C13, amended: a field has one predictor, used by both directions, while the
sub-model and its initialisation flag are per direction.  For any field, after
one `compressWith` call on a buffer a following `decompressWith` call on that
same field takes the coded path: after the model `init` it makes exactly one
call, `decompress(predicted = unpack of the compressed buffer, context = 0)`,
and no `getBytes`; `compressWith` leaves `decompressor_` and
`decompressor_inited_` as they were. -/
theorem shared_predictor {ε δ : Type} (cs : Bool) (E : Encoder ε) (D : Decoder δ)
    (T : IntType) (f : field) (e : ε) (mem : Mem) (buf : Nat) (d : δ) (lg : List DecOp)
    (omem : Mem) (obuf : Nat) :
    ((f.compressWith cs E T e mem buf).1.decompressWith cs D.logged T (d, lg) omem obuf).2.1.2
      = lg ++ (if f.decompressor_inited_ then [] else [DecOp.init f.decompressor_]) ++
          [DecOp.decompress f.decompressor_ (packers.unpack cs T mem buf) 0] ∧
    (f.compressWith cs E T e mem buf).1.decompressor_ = f.decompressor_ ∧
    (f.compressWith cs E T e mem buf).1.decompressor_inited_ = f.decompressor_inited_ := by
  rw [field_decompressWith_logged, field_compressWith_eq]
  refine ⟨?_, rfl, rfl⟩
  rcases f with ⟨c, dd, ci, di, ⟨v, hv⟩⟩
  cases di <;> cases hv <;> simp [field.decompress_ops, field.pushed,
    standard_diff_method.push, standard_diff_method.have_value]

/-! ## Field order -/

theorem SuchStream_getBytes_eq (n : Nat) (s : SuchStream)
    (h : 0 < n → s.idx + n ≤ s.buf.length) :
    (s.getBytes n).1.1 = (s.buf.drop s.idx).take n ∧
    (s.getBytes n).2 = { buf := s.buf, idx := s.idx + n } := by
  induction n generalizing s with
  | zero => exact ⟨by simp [SuchStream.getBytes], rfl⟩
  | succ n ih =>
    have hb := h (Nat.succ_pos n)
    obtain ⟨h1, h2⟩ := ih s.getByte.2 (by simp only [SuchStream.getByte]; omega)
    have hlt : s.idx < s.buf.length := by omega
    simp only [SuchStream.getBytes, h1, h2]
    refine ⟨?_, ?_⟩
    · simp only [SuchStream.getByte]
      rw [List.drop_eq_getElem_cons hlt, List.take_succ_cons, List.getD_eq_getElem _ _ hlt]
    · simp only [SuchStream.getByte, SuchStream.mk.injEq, true_and]
      omega

theorem Decoder_such_stream_byteFaithful :
    ByteFaithful Decoder.such_stream (fun bs s => ∃ tail, s.buf.drop s.idx = bs ++ tail) where
  init := fun _ _ _ h => h
  getBytes := by
    intro n bs s hn ⟨tail, h⟩
    have hlen : 0 < n → s.idx + n ≤ s.buf.length := by
      intro hpos
      have := congrArg List.length h
      simp only [List.length_drop, List.length_append] at this
      omega
    obtain ⟨h1, h2⟩ := SuchStream_getBytes_eq n s hlen
    refine ⟨?_, tail, ?_⟩
    · show (s.getBytes n).1.1 = _
      rw [h1, h, List.take_append_of_le_length hn]
    · show ((s.getBytes n).2).buf.drop ((s.getBytes n).2).idx = _
      rw [h2]
      show s.buf.drop (s.idx + n) = _
      rw [← List.drop_drop, h, List.drop_append_of_le_length hn]

theorem decompress_loop_raw_bytes {δ : Type} (cs : Bool) (D : Decoder δ)
    (S : List Nat → δ → Prop) (hS : ByteFaithful D S) (TS : List IntType) (mem : Mem)
    (p : Nat) (rest : List Nat) (d : δ)
    (h : S (readBytes mem p (record_size TS) ++ rest) d) (omem : Mem) (out : Nat) :
    S rest (dynamic_field_decompressor.decompress_loop cs D
      (TS.map (fun T => base_field.dynamic_decompressor_field T (field.new T))) d omem out).2.1 ∧
    (∀ i, i < record_size TS →
      (dynamic_field_decompressor.decompress_loop cs D
        (TS.map (fun T => base_field.dynamic_decompressor_field T (field.new T))) d omem
          out).2.2.1 (out + i) = mem (p + i) % 256) ∧
    (dynamic_field_decompressor.decompress_loop cs D
      (TS.map (fun T => base_field.dynamic_decompressor_field T (field.new T))) d omem
        out).2.2.2 = out + record_size TS := by
  induction TS generalizing p d omem out with
  | nil => exact ⟨by simpa [record_size, readBytes] using h, fun i hi => by
      simp [record_size] at hi, rfl⟩
  | cons T TS ih =>
    rw [record_size_cons, readBytes_add, List.append_assoc] at h
    have hlen : (readBytes mem p T.sizeof).length = T.sizeof := readBytes_length _ _ _
    have h1 := hS.init (T.sizeof * 8) _ _ h
    obtain ⟨g1, g2⟩ := hS.getBytes T.sizeof _ _ (by
      rw [List.length_append, hlen]; omega) h1
    rw [List.take_append_of_le_length (by rw [hlen]), List.take_of_length_le (by rw [hlen])]
      at g1
    rw [List.drop_append_of_le_length (by rw [hlen]), List.drop_of_length_le (by rw [hlen]),
      List.nil_append] at g2
    have hfield : (field.new T).decompressWith cs D T d omem out
        = ((field.new T).pushed (packers.unpack cs T
              (writeBytes omem out (readBytes mem p T.sizeof)) out),
            (D.getBytes T.sizeof (D.init (T.sizeof * 8) d)).2,
            writeBytes omem out (readBytes mem p T.sizeof), out + T.sizeof) := by
      simp only [field.decompressWith, field.new, standard_diff_method.new,
        standard_diff_method.have_value, Bool.not_false, if_true, Bool.false_eq_true, if_false,
        g1, field.pushed]
    obtain ⟨k1, k2, k3⟩ := ih (p + T.sizeof) _ g2
      (writeBytes omem out (readBytes mem p T.sizeof)) (out + T.sizeof)
    simp only [List.map_cons, dynamic_field_decompressor.decompress_loop,
      base_field.decompressRaw, hfield, record_size_cons]
    refine ⟨k1, fun i hi => ?_, by rw [k3]; omega⟩
    by_cases hlt : i < T.sizeof
    · have hfr := decompress_loop_frame cs D (TS.map (fun T => (T, field.new T)))
        (D.getBytes T.sizeof (D.init (T.sizeof * 8) d)).2
        (writeBytes omem out (readBytes mem p T.sizeof)) (out + T.sizeof) (out + i)
        (Or.inl (by omega))
      simp only [decompressor_fields, List.map_map, Function.comp_def] at hfr
      rw [hfr, writeBytes_readBytes _ _ _ _ _ _ hlt]
    · have := k2 (i - T.sizeof) (by omega)
      rwa [show out + T.sizeof + (i - T.sizeof) = out + i by omega,
        show p + T.sizeof + (i - T.sizeof) = p + i by omega] at this

/-- C12, counterexample: the record `[1, 2, 3]` compressed with the fields
`uint8_t, uint16_t` into a `SuchStream` and decompressed with the fields
registered as `uint16_t, uint8_t` comes out as `[1, 2, 3]`: the output does
not differ from the original. -/
theorem order_sensitivity_counterexample :
    (dynamic.decompress_records true Decoder.such_stream
      ((make_dynamic_decompressor
        (dynamic.compress_records true Encoder.such_stream
          ((make_dynamic_compressor SuchStream.new).add_fields [.uint8_t, .uint16_t])
          (fun _ => 0) 0 [[1, 2, 3]]).1.encoder_).add_fields [.uint16_t, .uint8_t])
      (fun _ => 0) 0 3 1).2.2 = [[1, 2, 3]] := by
  decide

/-- C12, amended: if the decompress side registers the field types `TS2`, a
rearrangement of the types `TS` registered on the compress side, then over a
stream that returns the raw bytes in the order written (`ByteFaithful D S`)
the first `decompress` call returns, advances the buffer by the record size and
leaves in the output buffer exactly the bytes of the first compressed record:
the first record never differs.  Nothing is promised or denied about later
records. -/
theorem first_record_any_order {δ : Type} (cs : Bool) (D : Decoder δ)
    (S : List Nat → δ → Prop) (hS : ByteFaithful D S) (TS TS2 : List IntType)
    (hperm : TS2.Perm TS) (mem : Mem) (p : Nat) (rest : List Nat) (d : δ)
    (hstream : S (((((make_dynamic_compressor []).add_fields TS).compress cs Encoder.log
      mem p).1.encoder_).flatMap EncOp.raw_bytes ++ rest) d)
    (omem : Mem) (out : Nat) :
    readBytes (((make_dynamic_decompressor d).add_fields TS2).decompress cs D omem out).2.1
        out (record_size TS) = readBytes mem p (record_size TS) ∧
    (((make_dynamic_decompressor d).add_fields TS2).decompress cs D omem out).2.2
      = out + record_size TS := by
  have hsize : record_size TS2 = record_size TS := by
    unfold record_size
    exact (hperm.map IntType.sizeof).sum_eq
  have hlog : (((make_dynamic_compressor []).add_fields TS).compress cs Encoder.log
      mem p).1.encoder_ = fields_ops cs
        (TS.map (fun T => base_field.dynamic_compressor_field T (field.new T))) mem p := by
    rw [dynamic_field_compressor_add_fields_eq]
    simp only [dynamic_field_compressor.compress, compress_loop_eq, Encoder_run_log,
      make_dynamic_compressor, List.nil_append]
  rw [hlog, (fields_ops_fresh cs TS mem p).2, ← hsize] at hstream
  obtain ⟨_, h2, h3⟩ := decompress_loop_raw_bytes cs D S hS TS2 mem p rest d hstream omem out
  rw [dynamic_field_decompressor_add_fields_eq]
  simp only [make_dynamic_decompressor, List.nil_append, dynamic_field_decompressor.decompress,
    if_true]
  rw [← hsize]
  exact ⟨readBytes_congr _ _ _ _ _ (fun i hi => by rw [h2 i hi, Nat.mod_mod]), h3⟩

/-- Witness of `first_record_any_order`: the types `uint8_t, uint16_t` on the
compress side, `uint16_t, uint8_t` on the decompress side, over a `SuchStream`
holding the three bytes of the record and two more. -/
theorem first_record_any_order_witness :
    readBytes (((make_dynamic_decompressor
        ({ buf := [1, 2, 3, 9, 9], idx := 0 } : SuchStream)).add_fields
          [.uint16_t, .uint8_t]).decompress true Decoder.such_stream (fun _ => 0) 4).2.1
        4 (record_size [.uint8_t, .uint16_t])
      = readBytes (writeBytes (fun _ => 0) 0 [1, 2, 3]) 0 (record_size [.uint8_t, .uint16_t]) :=
  (first_record_any_order true Decoder.such_stream _ Decoder_such_stream_byteFaithful
    [.uint8_t, .uint16_t] [.uint16_t, .uint8_t] (by decide)
    (writeBytes (fun _ => 0) 0 [1, 2, 3]) 0 [9, 9] _ ⟨[], by decide⟩ (fun _ => 0) 4).1

/-! ## Static and dynamic pipelines, record by record -/

theorem record_compressor_simulation {ε : Type} (cs : Bool) (E : Encoder ε)
    (c : record_compressor) (e : ε) (mem : Mem) (p : Nat) :
    (c.compressWith cs E e mem p).1.adapters
      = (dynamic_field_compressor.compress cs E ⟨e, c.adapters⟩ mem p).1.fields_ ∧
    (c.compressWith cs E e mem p).2.1
      = (dynamic_field_compressor.compress cs E ⟨e, c.adapters⟩ mem p).1.encoder_ ∧
    (c.compressWith cs E e mem p).2.2
      = (dynamic_field_compressor.compress cs E ⟨e, c.adapters⟩ mem p).2 := by
  obtain ⟨h1, h2, h3⟩ := record_compressor_compressWith_eq cs E c e mem p
  simp only [dynamic_field_compressor.compress, compress_loop_eq, h1, h2, h3, and_self]

theorem static_compress_records_full {ε : Type} (cs : Bool) (E : Encoder ε)
    (c : record_compressor) (e : ε) (mem : Mem) (data : Nat) (recs : List (List Nat)) :
    (static.compress_records cs E c e mem data recs).1.adapters
      = (dynamic.compress_records cs E ⟨e, c.adapters⟩ mem data recs).1.fields_ ∧
    (static.compress_records cs E c e mem data recs).2.1
      = (dynamic.compress_records cs E ⟨e, c.adapters⟩ mem data recs).1.encoder_ ∧
    (static.compress_records cs E c e mem data recs).2.2
      = (dynamic.compress_records cs E ⟨e, c.adapters⟩ mem data recs).2 := by
  induction recs generalizing c e mem with
  | nil => exact ⟨rfl, rfl, rfl⟩
  | cons r rs ih =>
    obtain ⟨h1, h2, _⟩ := record_compressor_simulation cs E c e (writeBytes mem data r) data
    have hst : (⟨(c.compressWith cs E e (writeBytes mem data r) data).2.1,
        (c.compressWith cs E e (writeBytes mem data r) data).1.adapters⟩ :
          dynamic_field_compressor ε)
        = (dynamic_field_compressor.compress cs E ⟨e, c.adapters⟩ (writeBytes mem data r)
            data).1 := by
      rw [h1, h2]
    have := ih (c.compressWith cs E e (writeBytes mem data r) data).1
      (c.compressWith cs E e (writeBytes mem data r) data).2.1 (writeBytes mem data r)
    rw [hst] at this
    exact this

theorem static_decompress_records_full {δ : Type} (cs : Bool) (D : Decoder δ)
    (c : record_decompressor) (d : δ) (mem : Mem) (data size n : Nat) :
    (static.decompress_records cs D c d mem data size n).1.adapters
      = (dynamic.decompress_records cs D ⟨d, c.adapters, c.first⟩ mem data size n).1.fields_ ∧
    (static.decompress_records cs D c d mem data size n).1.first
      = (dynamic.decompress_records cs D ⟨d, c.adapters, c.first⟩ mem data size
          n).1.first_decomp_ ∧
    (static.decompress_records cs D c d mem data size n).2.1
      = (dynamic.decompress_records cs D ⟨d, c.adapters, c.first⟩ mem data size n).1.decoder_ ∧
    (static.decompress_records cs D c d mem data size n).2.2
      = (dynamic.decompress_records cs D ⟨d, c.adapters, c.first⟩ mem data size n).2 := by
  induction n generalizing c d mem with
  | zero => exact ⟨rfl, rfl, rfl, rfl⟩
  | succ n ih =>
    obtain ⟨h1, h2, h3, h4⟩ := record_decompressor_decompressWith_eq cs D c d mem data
    have hm : (c.decompressWith cs D d mem data).2.2.1
        = (dynamic_field_decompressor.decompress cs D ⟨d, c.adapters, c.first⟩ mem data).2.1 :=
      congrArg Prod.fst h4
    have hst : (⟨(c.decompressWith cs D d mem data).2.1,
        (c.decompressWith cs D d mem data).1.adapters,
        (c.decompressWith cs D d mem data).1.first⟩ : dynamic_field_decompressor δ)
        = (dynamic_field_decompressor.decompress cs D ⟨d, c.adapters, c.first⟩ mem data).1 := by
      rw [h1, h2, h3]
    obtain ⟨k1, k2, k3, k4⟩ := ih (c.decompressWith cs D d mem data).1
      (c.decompressWith cs D d mem data).2.1 (c.decompressWith cs D d mem data).2.2.1
    simp only [static.decompress_records, dynamic.decompress_records]
    rw [← hst, ← hm]
    exact ⟨k1, k2, k3, congrArg₂ Prod.mk (congrArg Prod.fst k4)
      (congrArg₂ List.cons rfl (congrArg Prod.snd k4))⟩

theorem decompress_records_logged_count {δ : Type} (cs : Bool) (D : Decoder δ)
    (fs : List base_field) (d : δ) (mem : Mem) (out size n : Nat) :
    (dynamic.decompress_records cs D.logged ⟨(d, []), fs, true⟩ mem out size
        (n + 1)).1.decoder_.2.count DecOp.readInitBytes = 1 := by
  obtain ⟨tail, h1, h2, _⟩ := decompress_records_logged_later cs D
    (dynamic_field_decompressor.decompress cs D ⟨d, fs, true⟩ mem out).1.fields_
    (dynamic_field_decompressor.decompress cs D ⟨d, fs, true⟩ mem out).1.decoder_
    (fields_decompress_ops fs ++ [DecOp.readInitBytes])
    (dynamic_field_decompressor.decompress cs D ⟨d, fs, true⟩ mem out).2.1 out size n
  simp only [dynamic.decompress_records, decompress_logged, if_true, List.nil_append]
  rw [h1, List.count_append, List.count_append, List.count_singleton_self,
    List.count_eq_zero_of_not_mem (readInitBytes_not_mem_ops fs),
    List.count_eq_zero_of_not_mem h2]

/-- C14 (static and dynamic pipelines are equivalent), for any encoder `E`,
decoder `D` and start states `e`, `d` of the coder.
Per call, for any static chain and the dynamic pipeline holding the same
fields: `compressWith` and `compress` (resp. `decompressWith` and `decompress`)
leave the same fields, the same coder state, the same memory and return the same
buffer position.  Over a sequence of records, for the fresh chain
`record_compressor<TS...>` (resp. `record_decompressor<TS...>`) and the fresh
dynamic pipeline with `TS` registered in order: same final coder state, same
memory, same output records; with the call-recording coders the recorded
sequences of calls are equal, and `readInitBytes` is recorded exactly once, as
the last call of the first decoded record. -/
theorem static_dynamic_equivalent {ε δ : Type} (cs : Bool) (E : Encoder ε) (D : Decoder δ)
    (c : record_compressor) (c2 : record_decompressor) (TS : List IntType) (e : ε) (d : δ)
    (mem : Mem) (data : Nat) (recs : List (List Nat)) (omem : Mem) (out size n : Nat) :
    -- one compress call
    ((c.compressWith cs E e mem data).1.adapters
        = (dynamic_field_compressor.compress cs E ⟨e, c.adapters⟩ mem data).1.fields_ ∧
      (c.compressWith cs E e mem data).2.1
        = (dynamic_field_compressor.compress cs E ⟨e, c.adapters⟩ mem data).1.encoder_ ∧
      (c.compressWith cs E e mem data).2.2
        = (dynamic_field_compressor.compress cs E ⟨e, c.adapters⟩ mem data).2) ∧
    -- one decompress call
    ((c2.decompressWith cs D d omem out).1.adapters
        = (dynamic_field_decompressor.decompress cs D ⟨d, c2.adapters, c2.first⟩
            omem out).1.fields_ ∧
      (c2.decompressWith cs D d omem out).1.first
        = (dynamic_field_decompressor.decompress cs D ⟨d, c2.adapters, c2.first⟩
            omem out).1.first_decomp_ ∧
      (c2.decompressWith cs D d omem out).2.1
        = (dynamic_field_decompressor.decompress cs D ⟨d, c2.adapters, c2.first⟩
            omem out).1.decoder_ ∧
      (c2.decompressWith cs D d omem out).2.2
        = (dynamic_field_decompressor.decompress cs D ⟨d, c2.adapters, c2.first⟩
            omem out).2) ∧
    -- the fresh pipelines hold the same fields
    ((record_compressor.new TS).adapters = ((make_dynamic_compressor e).add_fields TS).fields_ ∧
      (record_decompressor.new TS).adapters
        = ((make_dynamic_decompressor d).add_fields TS).fields_ ∧
      (record_decompressor.new TS).first
        = ((make_dynamic_decompressor d).add_fields TS).first_decomp_) ∧
    -- a sequence of records, compress side
    ((static.compress_records cs E (record_compressor.new TS) e mem data recs).2.1
        = (dynamic.compress_records cs E ((make_dynamic_compressor e).add_fields TS)
            mem data recs).1.encoder_ ∧
      (static.compress_records cs E (record_compressor.new TS) e mem data recs).2.2
        = (dynamic.compress_records cs E ((make_dynamic_compressor e).add_fields TS)
            mem data recs).2 ∧
      (static.compress_records cs Encoder.log (record_compressor.new TS) [] mem data recs).2.1
        = (dynamic.compress_records cs Encoder.log ((make_dynamic_compressor []).add_fields TS)
            mem data recs).1.encoder_) ∧
    -- a sequence of records, decompress side
    ((static.decompress_records cs D (record_decompressor.new TS) d omem out size n).2.1
        = (dynamic.decompress_records cs D ((make_dynamic_decompressor d).add_fields TS)
            omem out size n).1.decoder_ ∧
      (static.decompress_records cs D (record_decompressor.new TS) d omem out size n).2.2
        = (dynamic.decompress_records cs D ((make_dynamic_decompressor d).add_fields TS)
            omem out size n).2 ∧
      (static.decompress_records cs D.logged (record_decompressor.new TS) (d, []) omem out
          size n).2.1.2
        = (dynamic.decompress_records cs D.logged
            ((make_dynamic_decompressor (d, [])).add_fields TS) omem out size n).1.decoder_.2) ∧
    -- the single `readInitBytes` of the static chain
    (((record_decompressor.new TS).decompressWith cs D.logged (d, []) omem out).2.1.2
        = (dynamic_field_decompressor.decompress_loop cs D.logged
            ((make_dynamic_decompressor ((d, []) : δ × List DecOp)).add_fields TS).fields_
            (d, []) omem out).2.1.2
          ++ [DecOp.readInitBytes] ∧
      (static.decompress_records cs D.logged (record_decompressor.new TS) (d, []) omem out
          size (n + 1)).2.1.2.count DecOp.readInitBytes = 1) := by
  have hc : ∀ (α : Type) (x : α), (make_dynamic_compressor x).add_fields TS
      = ⟨x, (record_compressor.new TS).adapters⟩ := by
    intro α x
    rw [dynamic_field_compressor_add_fields_eq, record_compressor_adapters_new]; rfl
  have hd : ∀ (α : Type) (x : α), (make_dynamic_decompressor x).add_fields TS
      = ⟨x, (record_decompressor.new TS).adapters, (record_decompressor.new TS).first⟩ := by
    intro α x
    rw [dynamic_field_decompressor_add_fields_eq, (record_decompressor_adapters_new TS).1,
      (record_decompressor_adapters_new TS).2]; rfl
  have hsc := static_compress_records_full cs E (record_compressor.new TS) e mem data recs
  have hscl := static_compress_records_full cs Encoder.log (record_compressor.new TS) [] mem
    data recs
  have hsd := static_decompress_records_full cs D (record_decompressor.new TS) d omem out size n
  have hsdl := static_decompress_records_full cs D.logged (record_decompressor.new TS) (d, [])
    omem out size n
  have hsdl1 := static_decompress_records_full cs D.logged (record_decompressor.new TS) (d, [])
    omem out size (n + 1)
  have hone := record_decompressor_decompressWith_eq cs D.logged (record_decompressor.new TS)
    (d, []) omem out
  refine ⟨record_compressor_simulation cs E c e mem data,
    record_decompressor_decompressWith_eq cs D c2 d omem out,
    ⟨by rw [hc], by rw [hd], by rw [hd]⟩,
    ⟨by rw [hc]; exact hsc.2.1, by rw [hc]; exact hsc.2.2, by rw [hc]; exact hscl.2.1⟩,
    ⟨by rw [hd]; exact hsd.2.2.1, by rw [hd]; exact hsd.2.2.2,
      by rw [hd]; exact congrArg Prod.snd hsdl.2.2.1⟩, ?_, ?_⟩
  · rw [hd, hone.2.2.1, (record_decompressor_adapters_new TS).2, decompress_logged,
      decompress_loop_logged]
    simp
  · rw [hsdl1.2.2.1, (record_decompressor_adapters_new TS).2]
    exact decompress_records_logged_count cs D _ d omem out size n

/-! ## The shape of the trace -/

theorem fields_ops_kind (cs : Bool) (b : Bool) (TS : List IntType) (fs : List base_field)
    (h : List.Forall₂ (base_field.CompressorAt b) TS fs) (mem : Mem) (p : Nat) :
    (fields_ops cs fs mem p).filterMap EncOp.kind = TS.map (IntType.op_kind b) ∧
    List.Forall₂ (base_field.CompressorAt true) TS (fields_after cs fs mem p) := by
  induction h generalizing p with
  | nil => exact ⟨rfl, List.Forall₂.nil⟩
  | @cons T f TS fs hf _ ih =>
    cases f with
    | dynamic_decompressor_field U g => exact absurd hf (by simp [base_field.CompressorAt])
    | dynamic_compressor_field U g =>
      obtain ⟨rfl, hc, hv⟩ := hf
      obtain ⟨h1, h2⟩ := ih (p + U.sizeof)
      refine ⟨?_, List.Forall₂.cons ⟨rfl, hc, ?_⟩ h2⟩
      · simp only [fields_ops, base_field.compress_ops, base_field.compress_size,
          List.filterMap_append, h1, List.map_cons, field.compress_ops,
          standard_diff_method.have_value, hv, hc]
        cases b <;> cases g.compressor_inited_ <;>
          simp [EncOp.kind, IntType.op_kind, readBytes_length]
      · rcases g with ⟨c, dd, ci, di, ⟨v, hv'⟩⟩
        cases hv' <;> rfl

theorem records_ops_kind (cs : Bool) (TS : List IntType) (fs : List base_field)
    (h : List.Forall₂ (base_field.CompressorAt true) TS fs) (mem : Mem) (data : Nat)
    (recs : List (List Nat)) :
    (records_ops cs fs mem data recs).filterMap EncOp.kind
      = (List.replicate recs.length (TS.map (IntType.op_kind true))).flatten := by
  induction recs generalizing fs mem with
  | nil => rfl
  | cons r rs ih =>
    obtain ⟨h1, h2⟩ := fields_ops_kind cs true TS fs h (writeBytes mem data r) data
    simp only [records_ops, List.filterMap_append, h1, ih _ h2, List.length_cons,
      List.replicate_succ, List.flatten_cons]

theorem fresh_compressorAt (TS : List IntType) :
    List.Forall₂ (base_field.CompressorAt false) TS
      (TS.map (fun T => base_field.dynamic_compressor_field T (field.new T))) := by
  induction TS with
  | nil => exact List.Forall₂.nil
  | cons T TS ih => exact List.Forall₂.cons ⟨rfl, rfl, rfl⟩ ih

theorem fresh_decompressorAt (TS : List IntType) :
    List.Forall₂ (base_field.DecompressorAt false) TS
      (TS.map (fun T => base_field.dynamic_decompressor_field T (field.new T))) := by
  induction TS with
  | nil => exact List.Forall₂.nil
  | cons T TS ih => exact List.Forall₂.cons ⟨rfl, rfl, rfl⟩ ih

theorem fields_decompress_ops_kind {δ : Type} (cs : Bool) (D : Decoder δ) (b : Bool)
    (TS : List IntType) (fs : List base_field)
    (h : List.Forall₂ (base_field.DecompressorAt b) TS fs) (d : δ) (mem : Mem) (p : Nat) :
    (fields_decompress_ops fs).filterMap DecOp.kind = TS.map (IntType.op_kind b) ∧
    List.Forall₂ (base_field.DecompressorAt true) TS
      (dynamic_field_decompressor.decompress_loop cs D fs d mem p).1 := by
  induction h generalizing d mem p with
  | nil => exact ⟨rfl, List.Forall₂.nil⟩
  | @cons T f TS fs hf _ ih =>
    cases f with
    | dynamic_compressor_field U g => exact absurd hf (by simp [base_field.DecompressorAt])
    | dynamic_decompressor_field U g =>
      obtain ⟨rfl, hc, hv⟩ := hf
      obtain ⟨h1, h2⟩ := ih (g.decompressWith cs D U d mem p).2.1
        (g.decompressWith cs D U d mem p).2.2.1 (g.decompressWith cs D U d mem p).2.2.2
      simp only [fields_decompress_ops, List.flatMap_cons, List.filterMap_append] at h1 ⊢
      refine ⟨?_, List.Forall₂.cons ⟨rfl, ?_, ?_⟩ h2⟩
      · rw [h1]
        simp only [base_field.decompress_ops, field.decompress_ops,
          standard_diff_method.have_value, hv, hc, List.map_cons]
        cases b <;> cases g.decompressor_inited_ <;> simp [DecOp.kind, IntType.op_kind]
      · rw [(field_decompressWith_flag cs D U g d mem p).2, hc]
      · rw [field_decompressWith_differ]

theorem decompress_records_kind {δ : Type} (cs : Bool) (D : Decoder δ) (TS : List IntType)
    (fs : List base_field) (h : List.Forall₂ (base_field.DecompressorAt true) TS fs) (d : δ)
    (lg : List DecOp) (mem : Mem) (out size n : Nat) :
    (dynamic.decompress_records cs D.logged ⟨(d, lg), fs, false⟩ mem out size
        n).1.decoder_.2.filterMap DecOp.kind
      = lg.filterMap DecOp.kind
          ++ (List.replicate n (TS.map (IntType.op_kind true))).flatten := by
  induction n generalizing fs d lg mem with
  | zero => simp [dynamic.decompress_records]
  | succ n ih =>
    obtain ⟨h1, h2⟩ := fields_decompress_ops_kind cs D true TS fs h d mem out
    simp only [dynamic.decompress_records, decompress_logged, Bool.false_eq_true, if_false,
      List.append_nil]
    have h3 : List.Forall₂ (base_field.DecompressorAt true) TS
        (dynamic_field_decompressor.decompress cs D ⟨d, fs, false⟩ mem out).1.fields_ := h2
    rw [ih _ h3, List.filterMap_append, h1, List.replicate_succ, List.flatten_cons,
      List.append_assoc]

theorem countP_flatten_replicate {α : Type} (q : α → Bool) (n : Nat) (l : List α) :
    (List.replicate n l).flatten.countP q = n * l.countP q := by
  induction n with
  | zero => simp
  | succ n ih =>
    rw [List.replicate_succ, List.flatten_cons, List.countP_append, ih]
    ring

theorem countP_kinds (TS : List IntType) :
    (TS.map (fun T => OpKind.raw T.sizeof)).countP OpKind.is_raw = TS.length ∧
    (TS.map (fun T => OpKind.raw T.sizeof)).countP OpKind.is_coded = 0 ∧
    (TS.map (fun T => OpKind.coded (T.sizeof * 8))).countP OpKind.is_raw = 0 ∧
    (TS.map (fun T => OpKind.coded (T.sizeof * 8))).countP OpKind.is_coded = TS.length := by
  induction TS with
  | nil => exact ⟨rfl, rfl, rfl, rfl⟩
  | cons T TS ih =>
    obtain ⟨h1, h2, h3, h4⟩ := ih
    simp only [List.map_cons, List.length_cons]
    refine ⟨?_, ?_, ?_, ?_⟩
    · rw [List.countP_cons_of_pos _ _ (by rfl), h1]
    · rw [List.countP_cons_of_neg _ _ (by simp [OpKind.is_coded]), h2]
    · rw [List.countP_cons_of_neg _ _ (by simp [OpKind.is_raw]), h3]
    · rw [List.countP_cons_of_pos _ _ (by rfl), h4]

/-- C17 (shape of the operation trace), for a fresh dynamic pipeline with the
schema `TS` (`k` fields) and the records `r :: rs` (`N = rs.length + 1`); calls
of a sub-model's `init` are left out of the trace.
Compress side: the trace is one raw write per field, in schema order (write `i`
has `sizeof(T_i)` bytes), all of them made while compressing the first record,
followed by `N - 1` rounds of one `compress` call per field in schema order
(call `i` is on the sub-model of `8 * sizeof(T_i)` bits): `k` raw writes, then
`(N - 1) * k` coded calls, no raw write after a coded call.
Decompress side, for any decoder: `k` raw reads in the same order, then
`readInitBytes`, then `N - 1` rounds of one `decompress` call per field. -/
theorem trace_shape {δ : Type} (cs : Bool) (D : Decoder δ) (TS : List IntType) (mem : Mem)
    (data : Nat) (r : List Nat) (rs : List (List Nat)) (d : δ) (omem : Mem)
    (out size : Nat) :
    ((dynamic.compress_records cs Encoder.log ((make_dynamic_compressor []).add_fields TS)
        mem data (r :: rs)).1.encoder_.filterMap EncOp.kind
      = TS.map (fun T => OpKind.raw T.sizeof)
          ++ (List.replicate rs.length
              (TS.map (fun T => OpKind.coded (T.sizeof * 8)))).flatten) ∧
    ((dynamic.compress_records cs Encoder.log ((make_dynamic_compressor []).add_fields TS)
        mem data [r]).1.encoder_.filterMap EncOp.kind
      = TS.map (fun T => OpKind.raw T.sizeof)) ∧
    (((dynamic.compress_records cs Encoder.log ((make_dynamic_compressor []).add_fields TS)
        mem data (r :: rs)).1.encoder_.filterMap EncOp.kind).countP OpKind.is_raw
      = TS.length) ∧
    (((dynamic.compress_records cs Encoder.log ((make_dynamic_compressor []).add_fields TS)
        mem data (r :: rs)).1.encoder_.filterMap EncOp.kind).countP OpKind.is_coded
      = rs.length * TS.length) ∧
    ((dynamic.decompress_records cs D.logged
        ((make_dynamic_decompressor (d, [])).add_fields TS) omem out size
        (rs.length + 1)).1.decoder_.2.filterMap DecOp.kind
      = TS.map (fun T => OpKind.raw T.sizeof)
          ++ OpKind.init_bytes :: (List.replicate rs.length
              (TS.map (fun T => OpKind.coded (T.sizeof * 8)))).flatten) ∧
    (((dynamic.decompress_records cs D.logged
        ((make_dynamic_decompressor (d, [])).add_fields TS) omem out size
        (rs.length + 1)).1.decoder_.2.filterMap DecOp.kind).countP OpKind.is_raw
      = TS.length) ∧
    (((dynamic.decompress_records cs D.logged
        ((make_dynamic_decompressor (d, [])).add_fields TS) omem out size
        (rs.length + 1)).1.decoder_.2.filterMap DecOp.kind).countP OpKind.is_coded
      = rs.length * TS.length) := by
  have hraw : TS.map (IntType.op_kind false) = TS.map (fun T => OpKind.raw T.sizeof) := rfl
  have hcoded : TS.map (IntType.op_kind true)
      = TS.map (fun T => OpKind.coded (T.sizeof * 8)) := rfl
  obtain ⟨c1, c2, c3, c4⟩ := countP_kinds TS
  -- compress side
  have hclog : ∀ recs : List (List Nat),
      (dynamic.compress_records cs Encoder.log ((make_dynamic_compressor []).add_fields TS)
        mem data (r :: recs)).1.encoder_.filterMap EncOp.kind
      = TS.map (fun T => OpKind.raw T.sizeof)
          ++ (List.replicate recs.length
              (TS.map (fun T => OpKind.coded (T.sizeof * 8)))).flatten := by
    intro recs
    rw [dynamic_compress_records_eq, Encoder_run_log, dynamic_field_compressor_add_fields_eq]
    simp only [make_dynamic_compressor, List.nil_append, records_ops, List.filterMap_append]
    obtain ⟨h1, h2⟩ := fields_ops_kind cs false TS _ (fresh_compressorAt TS)
      (writeBytes mem data r) data
    rw [h1, records_ops_kind cs TS _ h2, hraw, hcoded]
  -- decompress side
  have hdlog : (dynamic.decompress_records cs D.logged
        ((make_dynamic_decompressor (d, [])).add_fields TS) omem out size
        (rs.length + 1)).1.decoder_.2.filterMap DecOp.kind
      = TS.map (fun T => OpKind.raw T.sizeof)
          ++ OpKind.init_bytes :: (List.replicate rs.length
              (TS.map (fun T => OpKind.coded (T.sizeof * 8)))).flatten := by
    rw [dynamic_field_decompressor_add_fields_eq]
    simp only [make_dynamic_decompressor, List.nil_append, dynamic.decompress_records,
      decompress_logged, if_true]
    obtain ⟨h1, h2⟩ := fields_decompress_ops_kind cs D false TS _ (fresh_decompressorAt TS)
      d omem out
    have h3 : List.Forall₂ (base_field.DecompressorAt true) TS
        (dynamic_field_decompressor.decompress cs D
          ⟨d, TS.map (fun T => base_field.dynamic_decompressor_field T (field.new T)), true⟩
          omem out).1.fields_ := h2
    rw [decompress_records_kind cs D TS _ h3, List.filterMap_append, h1, hraw, hcoded]
    simp [DecOp.kind]
  refine ⟨hclog rs, by simpa using hclog [], ?_, ?_, hdlog, ?_, ?_⟩
  · rw [hclog rs, List.countP_append, c1, countP_flatten_replicate, c3]; simp
  · rw [hclog rs, List.countP_append, c2, countP_flatten_replicate, c4]; simp
  · rw [hdlog, List.countP_append, c1, List.countP_cons_of_neg _ _ (by simp [OpKind.is_raw]),
      countP_flatten_replicate, c3]; simp
  · rw [hdlog, List.countP_append, c2, List.countP_cons_of_neg _ _ (by simp [OpKind.is_coded]),
      countP_flatten_replicate, c4]; simp

end formats
end laszip
